import Mathlib

/-!
# GraphDemo2025: directed weighted graph (edge.cpp, vertex.cpp, graph.cpp)

A shallow embedding of the graph engine and a verification of its contract.

Modelling conventions.

* Labels are `String`; `std::string::operator<` is the lexicographic order `strLt`.
* A `std::map<std::string, V>` is an association list in ascending key order.  An
  iterator into it is the key of the entry it points at, `none` being `end()`.
* The registry `std::map<std::string, Vertex*>` owns its vertices, so a slot holds
  `Option Vertex`, `none` being the null pointer.
* Dereferencing a null pointer is the fault `Fault.nullDeref`.  The `while` loops take a
  fuel argument and report `Fault.outOfFuel` when it is exhausted.
* `int` values are `Int`.  The sum computed by the shortest-path relaxation wraps to
  32 bits (`wrapInt`).  The two counters are incremented without wrapping: a run
  would need `2^31` increments to reach the limit.
* The `visit` callback is represented by the list of labels it is called with.

The file has two parts: all definitions come first (the embedding of the source, then the
predicates and the abstract algorithms used in the proofs), all theorems follow.
-/

namespace GraphDemo

/-! # Part I: the embedding, and the definitions used to state its properties -/

/-! ## Primitive values -/

/-- The constant `INT_MAX` of `<climits>` for a 32-bit `int`. -/
def INT_MAX : Int := 2147483647

/-- Two's complement wrap-around of a 32-bit signed sum. -/
def wrapInt (x : Int) : Int := (x + 2147483648) % 4294967296 - 2147483648

/-- Lexicographic comparison of two character sequences. -/
def lexLt : List Char → List Char → Bool
  | [], [] => false
  | [], _ :: _ => true
  | _ :: _, [] => false
  | a :: as, b :: bs =>
    if a.toNat < b.toNat then true
    else if b.toNat < a.toNat then false
    else lexLt as bs

/-- The order `std::string::operator<`. -/
def strLt (a b : String) : Bool := lexLt a.data b.data

/-- The order `operator<` of `std::pair<int, std::string>`. -/
def pairLt (a b : Int × String) : Bool :=
  decide (a.1 < b.1) || (!decide (b.1 < a.1) && strLt a.2 b.2)

/-- Ways in which a run of the embedded code fails to produce a result. -/
inductive Fault where
  | nullDeref
  | outOfFuel
  deriving DecidableEq, Repr

deriving instance DecidableEq for Except

/-! ## `std::map` as an ordered association list -/

/-- The value bound to a key: `std::map::find`. -/
def mapFind {V : Type} : List (String × V) → String → Option V
  | [], _ => none
  | (k', v) :: rest, k => if k' = k then some v else mapFind rest k

/-- Insertion of a key that is not yet bound, at its place in the key order. -/
def mapInsertNew {V : Type} : List (String × V) → String → V → List (String × V)
  | [], k, v => [(k, v)]
  | (k', v') :: rest, k, v =>
    if strLt k k' then (k, v) :: (k', v') :: rest
    else (k', v') :: mapInsertNew rest k v

/-- The method `std::map::insert`: an existing binding of the key is kept. -/
def mapInsert {V : Type} (m : List (String × V)) (k : String) (v : V) : List (String × V) :=
  match mapFind m k with
  | some _ => m
  | none => mapInsertNew m k v

/-- Overwriting the value of a bound key (a write through a reference to the mapped value). -/
def mapSet {V : Type} : List (String × V) → String → V → List (String × V)
  | [], _, _ => []
  | (k', v') :: rest, k, v =>
    if k' = k then (k', v) :: rest else (k', v') :: mapSet rest k v

/-- The assignment `m[k] = v`: the key is bound when it was not. -/
def mapAssign {V : Type} (m : List (String × V)) (k : String) (v : V) : List (String × V) :=
  match mapFind m k with
  | some _ => mapSet m k v
  | none => mapInsertNew m k v

/-- Reading `m[k]`: an unbound key is first bound to the default value `d`. -/
def mapIndex {V : Type} (m : List (String × V)) (k : String) (d : V) : List (String × V) × V :=
  match mapFind m k with
  | some v => (m, v)
  | none => (mapInsertNew m k d, d)

/-- Removal of a key: `std::map::erase`. -/
def mapErase {V : Type} : List (String × V) → String → List (String × V)
  | [], _ => []
  | (k', v') :: rest, k => if k' = k then rest else (k', v') :: mapErase rest k

/-- The iterator `begin()`. -/
def mapBegin {V : Type} (m : List (String × V)) : Option String :=
  match m with
  | [] => none
  | (k, _) :: _ => some k

/-- The iterator following the one at key `k`. -/
def mapNext {V : Type} : List (String × V) → String → Option String
  | [], _ => none
  | (k', _) :: rest, k => if k' = k then mapBegin rest else mapNext rest k

/-- The keys of a map, in iteration order. -/
def mapKeys {V : Type} (m : List (String × V)) : List String := m.map Prod.fst

/-! ## Edge (edge.cpp) -/

/-- Modelled from the spec: the class declaration in `edge.h` is not among the sources.
An edge has the label of its end vertex and an integer weight (data model of the
specification, members used in `edge.cpp`). -/
structure Edge where
  endVertex : String
  edgeWeight : Int
  deriving DecidableEq, Repr

/-- The accessor `Edge::getEndVertex`. -/
def Edge.getEndVertex (e : Edge) : String := e.endVertex

/-- The accessor `Edge::getWeight`. -/
def Edge.getWeight (e : Edge) : Int := e.edgeWeight

/-! ## Vertex (vertex.cpp) -/

/-- Modelled from the spec: the class declaration in `vertex.h` is not among the sources.
A vertex has a label, a visited flag, an adjacency map from end label to edge, ordered by
label, and a cursor into that map (data model of the specification, members used in
`vertex.cpp`). -/
structure Vertex where
  vertexLabel : String
  visited : Bool
  adjacencyList : List (String × Edge)
  currentNeighbor : Option String
  deriving DecidableEq, Repr

/-- The constructor `Vertex::Vertex(label)`: unvisited, no edges, cursor at `begin() = end()`. -/
def Vertex.new (label : String) : Vertex :=
  { vertexLabel := label, visited := false, adjacencyList := [], currentNeighbor := none }

/-- The accessor `Vertex::getLabel`. -/
def Vertex.getLabel (v : Vertex) : String := v.vertexLabel

/-- The method `Vertex::visit`. -/
def Vertex.visit (v : Vertex) : Vertex := { v with visited := true }

/-- The method `Vertex::unvisit`. -/
def Vertex.unvisit (v : Vertex) : Vertex := { v with visited := false }

/-- The accessor `Vertex::isVisited`. -/
def Vertex.isVisited (v : Vertex) : Bool := v.visited

/-- The method `Vertex::connect`: refuses the own label and an end vertex already connected. -/
def Vertex.connect (v : Vertex) (endVertex : String) (edgeWeight : Int) : Vertex × Bool :=
  if endVertex = v.vertexLabel then (v, false)
  else
    match mapFind v.adjacencyList endVertex with
    | none =>
      ({ v with adjacencyList :=
          mapInsert v.adjacencyList endVertex { endVertex := endVertex, edgeWeight := edgeWeight } },
        true)
    | some _ => (v, false)

/-- The method `Vertex::disconnect`. -/
def Vertex.disconnect (v : Vertex) (endVertex : String) : Vertex × Bool :=
  if endVertex = v.vertexLabel then (v, false)
  else
    match mapFind v.adjacencyList endVertex with
    | some _ => ({ v with adjacencyList := mapErase v.adjacencyList endVertex }, true)
    | none => (v, false)

/-- The method `Vertex::getEdgeWeight`: `-1` when there is no edge to `endVertex`. -/
def Vertex.getEdgeWeight (v : Vertex) (endVertex : String) : Int :=
  match mapFind v.adjacencyList endVertex with
  | some e => e.getWeight
  | none => -1

/-- The method `Vertex::getNumberOfNeighbors`. -/
def Vertex.getNumberOfNeighbors (v : Vertex) : Int := v.adjacencyList.length

/-- The method `Vertex::resetNeighbor`. -/
def Vertex.resetNeighbor (v : Vertex) : Vertex :=
  { v with currentNeighbor := mapBegin v.adjacencyList }

/-- The method `Vertex::getNextNeighbor`: the own label once the cursor is at `end()`. -/
def Vertex.getNextNeighbor (v : Vertex) : Vertex × String :=
  match v.currentNeighbor with
  | none => (v, v.vertexLabel)
  | some k => ({ v with currentNeighbor := mapNext v.adjacencyList k }, k)

/-! ## Graph (graph.cpp) -/

/-- Modelled from the spec: the class declaration in `graph.h` is not among the sources.
A graph has the registry of its vertices, a map from label to vertex pointer, and the two
counters (data model of the specification, members used in `graph.cpp`). -/
structure Graph where
  vertices : List (String × Option Vertex)
  numberOfVertices : Int
  numberOfEdges : Int
  deriving DecidableEq, Repr

/-- The constructor `Graph::Graph()`. -/
def Graph.empty : Graph := { vertices := [], numberOfVertices := 0, numberOfEdges := 0 }

/-- The accessor `Graph::getNumVertices`. -/
def Graph.getNumVertices (g : Graph) : Int := g.numberOfVertices

/-- The accessor `Graph::getNumEdges`. -/
def Graph.getNumEdges (g : Graph) : Int := g.numberOfEdges

/-- The method `Graph::findVertex`: the pointer stored for the label, null when there is none. -/
def Graph.findVertex (g : Graph) (vertexLabel : String) : Option Vertex :=
  match mapFind g.vertices vertexLabel with
  | some p => p
  | none => none

/-- The method `Graph::findOrCreateVertex`.  The result is the graph, the vertex pointed to
by the returned pointer, and whether a registry slot holds that pointer: when the label is
bound to a null pointer, `insert` keeps the null binding and nothing holds the new vertex. -/
def Graph.findOrCreateVertex (g : Graph) (vertexLabel : String) : Graph × Vertex × Bool :=
  match g.findVertex vertexLabel with
  | some v => (g, v, true)
  | none =>
    ({ g with
        numberOfVertices := g.numberOfVertices + 1
        vertices := mapInsert g.vertices vertexLabel (some (Vertex.new vertexLabel)) },
      Vertex.new vertexLabel,
      (mapFind g.vertices vertexLabel).isNone)

/-- The method `Graph::add`. -/
def Graph.add (g : Graph) (start endLabel : String) (edgeWeight : Int) : Graph × Bool :=
  if start = endLabel then (g, false)
  else
    match g.findOrCreateVertex start with
    | (g1, vert, held) =>
      match g1.findOrCreateVertex endLabel with
      | (g2, _, _) =>
        match vert.connect endLabel edgeWeight with
        | (vert1, true) =>
          ({ g2 with
              vertices := if held then mapSet g2.vertices start (some vert1) else g2.vertices
              numberOfEdges := g2.numberOfEdges + 1 },
            true)
        | (_, false) => (g2, false)

/-- The method `Graph::getEdgeWeight`; the registry slot of `start` is dereferenced unchecked. -/
def Graph.getEdgeWeight (g : Graph) (start endLabel : String) : Except Fault Int :=
  match mapFind g.vertices start with
  | some (some v) =>
    if v.getEdgeWeight endLabel ≠ -1 then .ok (v.getEdgeWeight endLabel) else .ok INT_MAX
  | some none => .error Fault.nullDeref
  | none => .ok INT_MAX

/-- The graph after a sequence of `add` calls. -/
def Graph.addAll (g : Graph) : List (String × String × Int) → Graph
  | [] => g
  | (s, e, w) :: rest => (g.add s e w).1.addAll rest

/-- The graph built from the empty graph by a sequence of `add` calls. -/
def buildGraph (calls : List (String × String × Int)) : Graph := Graph.empty.addAll calls

/-! ## Traversals and shortest paths (graph.cpp) -/

/-- The method `Graph::unvisitVertices`: every non-null vertex is marked unvisited. -/
def Graph.unvisitVertices (g : Graph) : Graph :=
  { g with vertices := g.vertices.map (fun kp => (kp.1, kp.2.map Vertex.unvisit)) }

/-- The expression `vertices[label]`: `std::map::operator[]` binds an unbound label to a
null pointer and yields the pointer bound to the label. -/
def Graph.index (g : Graph) (label : String) : Graph × Option Vertex :=
  match mapFind g.vertices label with
  | some p => (g, p)
  | none => ({ g with vertices := mapInsertNew g.vertices label none }, none)

/-- A method call `vertices[label]->f(...)`: `f` gives the vertex after the call and the
value returned.  The pointer is dereferenced unchecked. -/
def Graph.call {α : Type} (g : Graph) (label : String) (f : Vertex → Vertex × α) :
    Except Fault (Graph × α) :=
  match g.index label with
  | (_, none) => .error Fault.nullDeref
  | (g1, some v) =>
    .ok ({ g1 with vertices := mapSet g1.vertices label (some (f v).1) }, (f v).2)

/-- The inner loop `while(neighbor != top)` of `depthFirstTraversal`: the unvisited
neighbours are pushed on `neiSt` (head of the list is the top of the stack). -/
def dfsNeighbors : Nat → Graph → String → String → List String →
    Except Fault (Graph × List String)
  | 0, _, _, _, _ => .error Fault.outOfFuel
  | fuel + 1, g, top, neighbor, neiSt =>
    if neighbor = top then .ok (g, neiSt)
    else do
      let (g1, vis) ← g.call neighbor (fun v => (v, v.isVisited))
      let neiSt1 := if !vis then neighbor :: neiSt else neiSt
      let (g2, next) ← g1.call top Vertex.getNextNeighbor
      dfsNeighbors fuel g2 top next neiSt1

/-- The loop `while(!neiSt.empty())` of `depthFirstTraversal`: `neiSt` is emptied into the
main stack and every label moved is marked visited. -/
def dfsPush : Graph → List String → List String → Except Fault (Graph × List String)
  | g, [], st => .ok (g, st)
  | g, n :: neiSt, st => do
    let (g1, _) ← g.call n (fun v => (v.visit, ()))
    dfsPush g1 neiSt (n :: st)

/-- The loop `while(!st.empty())` of `depthFirstTraversal`; the result lists the labels
passed to `visit`, in order. -/
def dfsLoop : Nat → Graph → List String → Except Fault (Graph × List String)
  | 0, _, _ => .error Fault.outOfFuel
  | _ + 1, g, [] => .ok (g, [])
  | fuel + 1, g, top :: st => do
    let (g1, _) ← g.call top (fun v => (v.resetNeighbor, ()))
    let (g2, neighbor) ← g1.call top Vertex.getNextNeighbor
    let (g3, neiSt) ← dfsNeighbors fuel g2 top neighbor []
    let (g4, st1) ← dfsPush g3 neiSt st
    let (g5, out) ← dfsLoop fuel g4 st1
    .ok (g5, top :: out)

/-- The method `Graph::depthFirstTraversal`: the graph afterwards and the labels passed to
`visit`, in order. -/
def Graph.depthFirstTraversal (fuel : Nat) (g : Graph) (startLabel : String) :
    Except Fault (Graph × List String) :=
  match g.unvisitVertices.index startLabel with
  | (g1, none) => .ok (g1, [])
  | (g1, some _) => do
    let (g2, _) ← g1.call startLabel (fun v => (v.visit, ()))
    dfsLoop fuel g2 [startLabel]

/-- The inner loop `while(neighbor != front)` of `breadthFirstTraversal`: an unvisited
neighbour is marked visited and appended to the queue. -/
def bfsNeighbors : Nat → Graph → String → String → List String →
    Except Fault (Graph × List String)
  | 0, _, _, _, _ => .error Fault.outOfFuel
  | fuel + 1, g, front, neighbor, q =>
    if neighbor = front then .ok (g, q)
    else do
      let (g1, vis) ← g.call neighbor (fun v => (v, v.isVisited))
      if !vis then
        let (g2, _) ← g1.call neighbor (fun v => (v.visit, ()))
        let (g3, next) ← g2.call front Vertex.getNextNeighbor
        bfsNeighbors fuel g3 front next (q ++ [neighbor])
      else
        let (g3, next) ← g1.call front Vertex.getNextNeighbor
        bfsNeighbors fuel g3 front next q

/-- The loop `while(!q.empty())` of `breadthFirstTraversal` (head of the list is the front
of the queue); the result lists the labels passed to `visit`, in order. -/
def bfsLoop : Nat → Graph → List String → Except Fault (Graph × List String)
  | 0, _, _ => .error Fault.outOfFuel
  | _ + 1, g, [] => .ok (g, [])
  | fuel + 1, g, front :: q => do
    let (g1, _) ← g.call front (fun v => (v.resetNeighbor, ()))
    let (g2, neighbor) ← g1.call front Vertex.getNextNeighbor
    let (g3, q1) ← bfsNeighbors fuel g2 front neighbor q
    let (g4, out) ← bfsLoop fuel g3 q1
    .ok (g4, front :: out)

/-- The method `Graph::breadthFirstTraversal`: the graph afterwards and the labels passed
to `visit`, in order. -/
def Graph.breadthFirstTraversal (fuel : Nat) (g : Graph) (startLabel : String) :
    Except Fault (Graph × List String) :=
  match g.unvisitVertices.index startLabel with
  | (g1, none) => .ok (g1, [])
  | (g1, some _) => do
    let (g2, _) ← g1.call startLabel (fun v => (v.visit, ()))
    bfsLoop fuel g2 [startLabel]

/-- The method `push` of the min-priority queue
`std::priority_queue<std::pair<int, std::string>, ..., std::greater<>>`, kept as the
ascending list of its entries, so that `top()` is the head. -/
def pqPush : List (Int × String) → Int × String → List (Int × String)
  | [], x => [x]
  | y :: rest, x => if pairLt x y then x :: y :: rest else y :: pqPush rest x

/-- The state of the shortest-path loops: graph, `weight`, `previous`, priority queue. -/
structure DijkstraState where
  graph : Graph
  weight : List (String × Int)
  previous : List (String × String)
  pq : List (Int × String)
  deriving DecidableEq, Repr

/-- The body of the relaxation loop for the edge from `curVertex` to `neighbor`:
`newCost = weight[curVertex] + edgeWeight` (a 32-bit sum), and when
`newCost < weight[neighbor]` the three updates `weight[neighbor] = newCost`,
`previous[neighbor] = curVertex`, `pq.push({newCost, neighbor})`.  Both reads of `weight`
go through `operator[]`. -/
def relaxEdge (curVertex : String) (s : DijkstraState) (neighbor : String) (edgeWeight : Int) :
    DijkstraState :=
  if wrapInt ((mapIndex s.weight curVertex 0).2 + edgeWeight)
      < (mapIndex (mapIndex s.weight curVertex 0).1 neighbor 0).2 then
    { graph := s.graph
      weight := mapAssign (mapIndex (mapIndex s.weight curVertex 0).1 neighbor 0).1 neighbor
        (wrapInt ((mapIndex s.weight curVertex 0).2 + edgeWeight))
      previous := mapAssign s.previous neighbor curVertex
      pq := pqPush s.pq (wrapInt ((mapIndex s.weight curVertex 0).2 + edgeWeight), neighbor) }
  else
    { s with weight := (mapIndex (mapIndex s.weight curVertex 0).1 neighbor 0).1 }

/-- The inner loop `while(neighbor != vertices[curVertex]->getLabel())` of
`djikstraCostToAllVertices`: the relaxation of the edges leaving `curVertex`. -/
def dijkstraRelax : Nat → DijkstraState → String → String → Except Fault DijkstraState
  | 0, _, _, _ => .error Fault.outOfFuel
  | fuel + 1, s, curVertex, neighbor => do
    let (g1, label) ← s.graph.call curVertex (fun v => (v, v.getLabel))
    if neighbor = label then .ok { s with graph := g1 }
    else
      let (g2, edgeWeight) ← g1.call curVertex (fun v => (v, v.getEdgeWeight neighbor))
      let s1 := relaxEdge curVertex { s with graph := g2 } neighbor edgeWeight
      let (g3, next) ← s1.graph.call curVertex Vertex.getNextNeighbor
      dijkstraRelax fuel { s1 with graph := g3 } curVertex next

/-- The loop `while(!pq.empty())` of `djikstraCostToAllVertices`. -/
def dijkstraLoop : Nat → DijkstraState → Except Fault DijkstraState
  | 0, _ => .error Fault.outOfFuel
  | fuel + 1, s =>
    match s.pq with
    | [] => .ok s
    | (_, curVertex) :: pq1 => do
      let (g1, vis) ← s.graph.call curVertex (fun v => (v, v.isVisited))
      if vis then dijkstraLoop fuel { s with graph := g1, pq := pq1 }
      else
        let (g2, _) ← g1.call curVertex (fun v => (v.visit, ()))
        let (g3, _) ← g2.call curVertex (fun v => (v.resetNeighbor, ()))
        let (g4, neighbor) ← g3.call curVertex Vertex.getNextNeighbor
        let s1 ← dijkstraRelax fuel { s with graph := g4, pq := pq1 } curVertex neighbor
        let (g5, _) ← s1.graph.call curVertex (fun v => (v.resetNeighbor, ()))
        dijkstraLoop fuel { s1 with graph := g5 }

/-- The loop `for(auto& v : vertices) weight[v.first] = INT_MAX`. -/
def initWeights : List String → List (String × Int) → List (String × Int)
  | [], weight => weight
  | k :: rest, weight => initWeights rest (mapAssign weight k INT_MAX)

/-- The method `Graph::djikstraCostToAllVertices`: the graph afterwards and the two output
maps `weight` and `previous`, given their contents at the call. -/
def Graph.djikstraCostToAllVertices (fuel : Nat) (g : Graph) (startLabel : String)
    (weight : List (String × Int)) (previous : List (String × String)) :
    Except Fault (Graph × List (String × Int) × List (String × String)) :=
  match g.unvisitVertices.index startLabel with
  | (g1, none) => .ok (g1, weight, previous)
  | (g1, some _) => do
    let weight1 := mapAssign (initWeights (mapKeys g1.vertices) weight) startLabel 0
    let s ← dijkstraLoop fuel
      { graph := g1, weight := weight1, previous := previous, pq := pqPush [] (0, startLabel) }
    .ok (s.graph, s.weight, s.previous)

/-! ## Well-formed graphs -/

/-- The keys of a map are strictly ascending. -/
def KeysSorted {V : Type} (m : List (String × V)) : Prop :=
  (mapKeys m).Pairwise (fun a b => strLt a b = true)

/-- The number of edges stored over all vertices of a registry. -/
def edgeTotal : List (String × Option Vertex) → Nat
  | [] => 0
  | (_, some v) :: rest => v.adjacencyList.length + edgeTotal rest
  | (_, none) :: rest => edgeTotal rest

/-- Well-formedness of the vertex held by the registry slot `k`: it carries the label `k`,
its adjacency list is ascending, has no entry for `k` itself, every entry stored under `n`
holds an edge ending at `n`, and every end label is one of `keys`. -/
structure VertexOK (keys : List String) (k : String) (v : Vertex) : Prop where
  label : v.vertexLabel = k
  sorted : KeysSorted v.adjacencyList
  noSelf : k ∉ mapKeys v.adjacencyList
  ends : ∀ n e, (n, e) ∈ v.adjacencyList → e.endVertex = n
  closed : ∀ n, n ∈ mapKeys v.adjacencyList → n ∈ keys

/-- Well-formedness of a graph: the registry is ascending, every slot holds a well-formed
vertex, and the counters count the slots and the stored edges. -/
structure Graph.Inv (g : Graph) : Prop where
  sorted : KeysSorted g.vertices
  slots : ∀ k p, (k, p) ∈ g.vertices → ∃ v, p = some v ∧ VertexOK (mapKeys g.vertices) k v
  nVertices : g.numberOfVertices = g.vertices.length
  nEdges : g.numberOfEdges = edgeTotal g.vertices

/-- Whether the graph stores an edge from `s` to `e`. -/
def Graph.hasEdge (g : Graph) (s e : String) : Bool :=
  match g.findVertex s with
  | some v => (mapFind v.adjacencyList e).isSome
  | none => false

/-- The values returned by a sequence of `add` calls, in order. -/
def Graph.addResults (g : Graph) : List (String × String × Int) → List Bool
  | [] => []
  | (s, e, w) :: rest => (g.add s e w).2 :: (g.add s e w).1.addResults rest

/-- The labels occurring as start or end of an `add` call with distinct start and end. -/
def labelsOf : List (String × String × Int) → List String
  | [] => []
  | (s, e, _) :: rest => if s = e then labelsOf rest else s :: e :: labelsOf rest

/-- The recursive depth-first search of the specification's glossary ("lexicographic
preorder"): a vertex not yet visited is visited, then the search descends into its
neighbours in ascending label order.  The result extends `seen`, the visit order so far. -/
def lexPreorderFrom (g : Graph) : Nat → String → List String → List String
  | 0, _, seen => seen
  | fuel + 1, v, seen =>
    if v ∈ seen then seen
    else
      (match g.findVertex v with
        | some x => mapKeys x.adjacencyList
        | none => []).foldl (fun acc n => lexPreorderFrom g fuel n acc) (seen ++ [v])

/-- The example graph of the specification: `A->B(1), A->C(4), B->C(2), B->D(5), C->D(1)`. -/
def exampleGraph : Graph :=
  buildGraph [("A", "B", 1), ("A", "C", 4), ("B", "C", 2), ("B", "D", 5), ("C", "D", 1)]

/-! ## Abstract view of a graph and of the two traversals -/

/-- The end labels of the edges leaving `k`, ascending. -/
def Graph.neighbors (g : Graph) (k : String) : List String :=
  match g.findVertex k with
  | some v => mapKeys v.adjacencyList
  | none => []

/-- Whether the vertex labelled `k` exists and is marked visited. -/
def Graph.isMarked (g : Graph) (k : String) : Bool :=
  match g.findVertex k with
  | some v => v.visited
  | none => false

/-- A vertex without its traversal state: unvisited, cursor at `end()`. -/
def Vertex.skel (v : Vertex) : Vertex := { v with visited := false, currentNeighbor := none }

/-- A graph without the traversal state of its vertices. -/
def Graph.skel (g : Graph) : Graph :=
  { g with vertices := g.vertices.map (fun kp => (kp.1, kp.2.map Vertex.skel)) }

/-- The graph with the vertex held by the slot `k` replaced (a write through the pointer). -/
def Graph.setVertex (g : Graph) (k : String) (v : Vertex) : Graph :=
  { g with vertices := mapSet g.vertices k (some v) }

/-- The worklist traversal that both `depthFirstTraversal` and `breadthFirstTraversal`
perform over the neighbour function `adj`: the head `x` of the worklist is visited, its
neighbours not yet in the marked list `M` are marked and put on the worklist, in front of
it (stack, depth-first) or behind it (queue, breadth-first).  `none`: out of fuel. -/
def traverse (adj : String → List String) (depthFirst : Bool) :
    Nat → List String → List String → Option (List String)
  | 0, _, _ => none
  | _ + 1, _, [] => some []
  | n + 1, M, x :: W =>
    (traverse adj depthFirst n ((adj x).filter (fun y => decide (y ∉ M)) ++ M)
      (if depthFirst then (adj x).filter (fun y => decide (y ∉ M)) ++ W
        else W ++ (adj x).filter (fun y => decide (y ∉ M)))).map (fun out => x :: out)

/-- The state of the neighbour iteration over the vertex `top`: `suf` lists the adjacency
entries still to be handled, the first of which has been fetched into `neighbor`, the
cursor standing behind it; with nothing left the own label has been fetched. -/
def CursorState (top : String) (cursor : Option String) (neighbor : String) :
    List (String × Edge) → Prop
  | [] => neighbor = top
  | (n, _) :: rest => neighbor = n ∧ cursor = mapBegin rest

/-- The properties of a run of the worklist traversal from the marked list `M` and the
worklist `W`, over a finite vertex list `V` closed under `adj`. -/
structure TraverseResult (adj : String → List String) (M W out : List String) : Prop where
  nodup : out.Nodup
  fresh : ∀ x, x ∈ out → x ∈ W ∨ x ∉ M
  work : ∀ x, x ∈ W → x ∈ out
  closed : ∀ x, x ∈ out → ∀ y, y ∈ adj x → y ∈ M ∨ y ∈ out
  reach : ∀ x, x ∈ out → ∃ s, s ∈ W ∧ Relation.ReflTransGen (fun u v => v ∈ adj u) s x


/-! ## Order of visits -/

/-- There is a walk of exactly `n` edges of `E` from `s` to `v`. -/
def HopsTo (E : String → String → Prop) (s : String) : Nat → String → Prop
  | 0, v => v = s
  | n + 1, v => ∃ u, HopsTo E s n u ∧ E u v

/-- The number `d` is the minimum number of edges on a walk from `s` to `v`. -/
def IsMinHops (E : String → String → Prop) (s v : String) (d : Nat) : Prop :=
  HopsTo E s d v ∧ ∀ n, HopsTo E s n v → d ≤ n

/-- The label `a` occurs in `l` at a position before an occurrence of `b`. -/
def Before (l : List String) (a b : String) : Prop :=
  ∃ l1 l2, l = l1 ++ a :: l2 ∧ b ∈ l2

/-- The label `x` is the first element of `l` that satisfies `p`. -/
def FirstWith (l : List String) (p : String → Prop) (x : String) : Prop :=
  ∃ l1 l2, l = l1 ++ x :: l2 ∧ p x ∧ ∀ y, y ∈ l1 → ¬ p y

/-- The state of a breadth-first run, relative to hop counts `d`: the start is marked,
marked vertices are reachable, the queue is marked, the neighbours of a marked vertex
that has left the queue are marked, and the queue is ascending in `d` and spans at most
two consecutive values of `d`. -/
structure BfsState (adj : String → List String) (start : String) (d : String → Nat)
    (M W : List String) : Prop where
  start_mem : start ∈ M
  reach : ∀ y, y ∈ M → Relation.ReflTransGen (fun u v => v ∈ adj u) start y
  queue : ∀ y, y ∈ W → y ∈ M
  closed : ∀ y, y ∈ M → y ∉ W → ∀ z, z ∈ adj y → z ∈ M
  sorted : W.Pairwise (fun a b => d a ≤ d b)
  spread : ∀ a, a ∈ W → ∀ b, b ∈ W → d b ≤ d a + 1

/-! ## Abstract view of the shortest-path loops -/

/-- The adjacency entries of the vertex labelled `k`, ascending; none without a vertex. -/
def Graph.adjOf (g : Graph) (k : String) : List (String × Edge) :=
  match g.findVertex k with
  | some v => v.adjacencyList
  | none => []

/-- The relaxation of the edges `edges` leaving `curVertex`, in order. -/
def relaxAll (curVertex : String) : List (String × Edge) → DijkstraState → DijkstraState
  | [], s => s
  | (n, e) :: rest, s => relaxAll curVertex rest (relaxEdge curVertex s n e.edgeWeight)

/-- The main shortest-path loop over the adjacency function `adj` and the list `vis` of
visited labels: the head of the queue is popped; a visited label is skipped, an unvisited
one is marked and its edges are relaxed.  The graph field of the state is not used.
`none`: out of fuel. -/
def spLoop (adj : String → List (String × Edge)) :
    Nat → List String → DijkstraState → Option DijkstraState
  | 0, _, _ => none
  | n + 1, vis, s =>
    match s.pq with
    | [] => some s
    | (_, cur) :: pq1 =>
      if cur ∈ vis then spLoop adj n vis { s with pq := pq1 }
      else spLoop adj n (cur :: vis) (relaxAll cur (adj cur) { s with pq := pq1 })

/-! ## Walks, distances and the shortest-path invariant -/

/-- The distance recorded for `k` in a `weight` map. -/
def getW (m : List (String × Int)) (k : String) : Int := (mapFind m k).getD 0

/-- A walk from `s` to a vertex along the edges of `adj`, with its total weight; a single
vertex is a walk of weight `0`. -/
inductive WalkTo (adj : String → List (String × Edge)) (s : String) : String → Int → Prop
  | refl : WalkTo adj s s 0
  | step {u v : String} {c : Int} {e : Edge} :
      WalkTo adj s u c → (v, e) ∈ adj u → WalkTo adj s v (c + e.edgeWeight)

/-- The number `d` is the minimum total weight of a walk from `s` to `v`. -/
def IsMinWeight (adj : String → List (String × Edge)) (s v : String) (d : Int) : Prop :=
  WalkTo adj s v d ∧ ∀ c, WalkTo adj s v c → d ≤ c

/-- A walk from `s` that follows the `previous` map backwards: each vertex after `s` is
entered from the vertex that `previous` records for it.  With total weight. -/
inductive PredWalk (adj : String → List (String × Edge)) (previous : List (String × String))
    (s : String) : String → Int → Prop
  | refl : PredWalk adj previous s s 0
  | step {p v : String} {c : Int} {e : Edge} :
      PredWalk adj previous s p c → mapFind previous v = some p → (v, e) ∈ adj p →
      PredWalk adj previous s v (c + e.edgeWeight)

/-- A `PredWalk` all of whose vertices before the last are in `vis`. -/
inductive PredWalkIn (adj : String → List (String × Edge)) (previous : List (String × String))
    (vis : List String) (s : String) : String → Int → Prop
  | refl : PredWalkIn adj previous vis s s 0
  | step {p v : String} {c : Int} {e : Edge} :
      PredWalkIn adj previous vis s p c → p ∈ vis → mapFind previous v = some p →
      (v, e) ∈ adj p → PredWalkIn adj previous vis s v (c + e.edgeWeight)

/-- The triple `(u, v, w)` is an edge of `adj`: `u` has an entry for `v` of weight `w`. -/
def IsEdge (adj : String → List (String × Edge)) (t : String × String × Int) : Prop :=
  ∃ e, (t.2.1, e) ∈ adj t.1 ∧ e.edgeWeight = t.2.2

/-- The sum of the weights of a list of edge triples. -/
def weightSum (L : List (String × String × Int)) : Int := (L.map (fun t => t.2.2)).sum

/-- The assumptions on the graph: `V` lists the vertices, edges end in `V` at another
vertex, weights are non-negative, a vertex has one entry per neighbour, and distinct
edges weigh less than `INT_MAX` in total. -/
structure WeightedOK (adj : String → List (String × Edge)) (V : List String) : Prop where
  closed : ∀ u n e, (n, e) ∈ adj u → n ∈ V ∧ n ≠ u
  nonneg : ∀ u n e, (n, e) ∈ adj u → 0 ≤ e.edgeWeight
  nodup : ∀ u, (mapKeys (adj u)).Nodup
  bound : ∀ L : List (String × String × Int), L.Nodup → (∀ t, t ∈ L → IsEdge adj t) →
    weightSum L < INT_MAX

/-- The invariant of the shortest-path loops.  `vis` lists the visited vertices; while the
edges of `pcur` are being relaxed, `pend` lists those still to be relaxed. -/
structure SpInv (adj : String → List (String × Edge)) (V : List String) (start : String)
    (pcur : String) (pend : List (String × Edge)) (vis : List String) (s : DijkstraState) :
    Prop where
  wkeys : ∀ k, k ∈ mapKeys s.weight ↔ k ∈ V
  wsorted : KeysSorted s.weight
  start_mem : start ∈ V
  d_start : getW s.weight start = 0
  le_max : ∀ v, v ∈ V → getW s.weight v ≤ INT_MAX
  fin_walk : ∀ v, v ∈ V → getW s.weight v < INT_MAX →
    PredWalkIn adj s.previous vis start v (getW s.weight v)
  witness : ∀ v, v ∈ V → getW s.weight v < INT_MAX →
    ∃ L : List (String × String × Int), L.Nodup ∧ (∀ t, t ∈ L → IsEdge adj t) ∧
      (∀ t, t ∈ L → t.1 ∈ vis ∧ t.1 ≠ v) ∧ getW s.weight v ≤ weightSum L
  vis_sub : ∀ u, u ∈ vis → u ∈ V
  vis_min : ∀ u, u ∈ vis → getW s.weight u < INT_MAX ∧
    ∀ c, WalkTo adj start u c → getW s.weight u ≤ c
  relaxed : ∀ u, u ∈ vis → ∀ n e, (n, e) ∈ adj u →
    (u = pcur ∧ (n, e) ∈ pend) ∨ getW s.weight n ≤ getW s.weight u + e.edgeWeight
  queued : ∀ v, v ∈ V → v ∉ vis → getW s.weight v < INT_MAX → (getW s.weight v, v) ∈ s.pq
  pq_ok : ∀ x, x ∈ s.pq → x.2 ∈ V ∧ getW s.weight x.2 ≤ x.1 ∧ x.1 < INT_MAX
  pq_sorted : s.pq.Pairwise (fun a b => a.1 ≤ b.1)
  prev_ok : ∀ v p, mapFind s.previous v = some p →
    p ∈ vis ∧ v ∈ V ∧ getW s.weight v < INT_MAX ∧
      ∃ e, (v, e) ∈ adj p ∧ getW s.weight v = getW s.weight p + e.edgeWeight
  prev_some : ∀ v, v ∈ V → v ≠ start → getW s.weight v < INT_MAX →
    (mapFind s.previous v).isSome = true
  prev_start : mapFind s.previous start = none

/-- The number of adjacency entries of the vertices of `V` that are not in `vis`. -/
def pendingEdges (adj : String → List (String × Edge)) (vis : List String) : List String → Nat
  | [] => 0
  | u :: V => (if u ∈ vis then 0 else (adj u).length) + pendingEdges adj vis V

/-- The edges stored in a registry, as triples (start label, end label, weight). -/
def edgesOf : List (String × Option Vertex) → List (String × String × Int)
  | [] => []
  | (k, some v) :: rest =>
    v.adjacencyList.map (fun ne => (k, ne.1, ne.2.edgeWeight)) ++ edgesOf rest
  | (_, none) :: rest => edgesOf rest

/-- The edges stored in a graph. -/
def Graph.edges (g : Graph) : List (String × String × Int) := edgesOf g.vertices

/-! ## Vertices built by `connect` and `disconnect` -/

/-- A call that changes the adjacency map of a vertex. -/
inductive VertexOp where
  | connect (endVertex : String) (edgeWeight : Int)
  | disconnect (endVertex : String)
  deriving DecidableEq, Repr

/-- The vertex after one `connect` or `disconnect` call. -/
def Vertex.applyOp (v : Vertex) : VertexOp → Vertex
  | .connect e w => (v.connect e w).1
  | .disconnect e => (v.disconnect e).1

/-- The vertex after a sequence of `connect` and `disconnect` calls. -/
def Vertex.applyOps (v : Vertex) : List VertexOp → Vertex
  | [] => v
  | op :: rest => (v.applyOp op).applyOps rest

/-- The labels returned by `k` successive calls of `getNextNeighbor`, with the vertex
after them. -/
def Vertex.nextNeighbors : Nat → Vertex → Vertex × List String
  | 0, v => (v, [])
  | k + 1, v =>
    (((v.getNextNeighbor).1.nextNeighbors k).1,
      (v.getNextNeighbor).2 :: ((v.getNextNeighbor).1.nextNeighbors k).2)

/-- A vertex whose adjacency map was built by `connect` and `disconnect` calls, in any
state of its `visited` flag and of its neighbour cursor. -/
def Vertex.built (label : String) (ops : List VertexOp) (visited : Bool)
    (cursor : Option String) : Vertex :=
  { (Vertex.new label).applyOps ops with visited := visited, currentNeighbor := cursor }

/-! ## Instrumented loops: what is expanded and what is pushed -/

/-- The main shortest-path loop `spLoop` with a record of its work: the final state, the
labels whose edges were relaxed, in order, and the number of entries that the relaxations
added to the priority queue. -/
def spTrace (adj : String → List (String × Edge)) :
    Nat → List String → DijkstraState → Option (DijkstraState × List String × Nat)
  | 0, _, _ => none
  | n + 1, vis, s =>
    match s.pq with
    | [] => some (s, [], 0)
    | (_, cur) :: pq1 =>
      if cur ∈ vis then spTrace adj n vis { s with pq := pq1 }
      else
        (spTrace adj n (cur :: vis) (relaxAll cur (adj cur) { s with pq := pq1 })).map
          (fun r => (r.1, cur :: r.2.1,
            r.2.2 + ((relaxAll cur (adj cur) { s with pq := pq1 }).pq.length - pq1.length)))

/-- The worklist traversal `traverse` with a record of its pushes: for each visited label,
in order, the neighbours that it marked and put on the worklist. -/
def traverseLog (adj : String → List String) (depthFirst : Bool) :
    Nat → List String → List String → Option (List (String × List String))
  | 0, _, _ => none
  | _ + 1, _, [] => some []
  | n + 1, M, x :: W =>
    (traverseLog adj depthFirst n ((adj x).filter (fun y => decide (y ∉ M)) ++ M)
      (if depthFirst then (adj x).filter (fun y => decide (y ∉ M)) ++ W
        else W ++ (adj x).filter (fun y => decide (y ∉ M)))).map
      (fun log => (x, (adj x).filter (fun y => decide (y ∉ M))) :: log)

/-- The labels pushed during a traversal, in order. -/
def pushesOf : List (String × List String) → List String
  | [] => []
  | (_, new) :: rest => new ++ pushesOf rest

/-- The state in which `djikstraCostToAllVertices` enters its main loop. -/
def dijkstraInit (g : Graph) (startLabel : String) (weight : List (String × Int))
    (previous : List (String × String)) : DijkstraState :=
  { graph := g.unvisitVertices,
    weight := mapAssign (initWeights (mapKeys g.vertices) weight) startLabel 0,
    previous := previous,
    pq := pqPush [] (0, startLabel) }

/-- The example graph after a breadth-first traversal from `C` followed by a shortest-path
call from `A`: visited flags and cursors are as those calls left them. -/
def exampleGraphUsed : Graph :=
  match exampleGraph.breadthFirstTraversal 20 "C" with
  | .ok r =>
    (match r.1.djikstraCostToAllVertices 20 "A" [] [] with
      | .ok r2 => r2.1
      | .error _ => r.1)
  | .error _ => exampleGraph

/-- A graph with a cycle and negative weights: `A->B(-3), B->A(1), B->C(-7)`. -/
def cyclicGraph : Graph :=
  buildGraph [("A", "B", -3), ("B", "A", 1), ("B", "C", -7)]

/-! ## `Graph::readFile`: the edge lines -/

/-- Whitespace as the stream extraction `iss >> token` skips it (`std::isspace` in the
default locale): space, `\t`, `\n`, `\v`, `\f`, `\r`. -/
def isSpace (c : Char) : Bool := c.toNat = 32 || (9 ≤ c.toNat && c.toNat ≤ 13)

/-- Whether the character is a decimal digit. -/
def isDigit (c : Char) : Bool := 48 ≤ c.toNat && c.toNat ≤ 57

/-- The tokens that successive extractions `iss >> token` read from the characters of a
line; `cur` holds the characters of the token being read, last first. -/
def splitTokens : List Char → List Char → List (List Char)
  | [], cur => if cur = [] then [] else [cur.reverse]
  | c :: rest, cur =>
    if isSpace c then
      (if cur = [] then splitTokens rest [] else cur.reverse :: splitTokens rest [])
    else splitTokens rest (c :: cur)

/-- The whitespace-separated tokens of a line. -/
def tokens (line : String) : List String := (splitTokens line.data []).map String.mk

/-- The value of a list of decimal digits. -/
def digitsValue (ds : List Char) : Nat := ds.foldl (fun a c => 10 * a + (c.toNat - 48)) 0

/-- The conversion of the longest prefix of optional sign and decimal digits, given the
characters after leading whitespace: `none` when there is no digit (`std::stoi` throws
`invalid_argument`) or the value does not fit an `int` (it throws `out_of_range`). -/
def stoiChars (cs : List Char) : Option Int :=
  let neg : Bool := cs.head?.map Char.toNat = some 45
  let signed : Bool := neg || cs.head?.map Char.toNat = some 43
  let ds : List Char := (if signed then cs.drop 1 else cs).takeWhile isDigit
  let x : Int := if neg then -(digitsValue ds : Int) else (digitsValue ds : Int)
  if ds = [] then none
  else if -2147483648 ≤ x ∧ x ≤ INT_MAX then some x
  else none

/-- The function `std::stoi(s)` in base 10: leading whitespace is skipped, characters
after the digits are ignored; `none` when it throws. -/
def stoi (s : String) : Option Int := stoiChars (s.data.dropWhile isSpace)

/-- One iteration of the loop `while(getline(inputF, line))` of `Graph::readFile`: the
graph afterwards and the diagnostic printed, if any.  The extraction
`iss >> start >> end >> sWeight` succeeds when the line has at least three tokens. -/
def Graph.readFileLine (g : Graph) (line : String) : Graph × Option String :=
  match tokens line with
  | start :: endLabel :: sWeight :: _ =>
    (match stoi sWeight with
      | some weight => ((g.add start endLabel weight).1, none)
      | none => (g, some ("Invalid line: " ++ line)))
  | _ => (g, some ("Malformed line: " ++ line))

/-- The loop `while(getline(inputF, line))` of `Graph::readFile` over the lines after the
first: the graph afterwards and the diagnostics printed, in order. -/
def Graph.readFileLines (g : Graph) : List String → Graph × List String
  | [] => (g, [])
  | line :: rest =>
    (((g.readFileLine line).1.readFileLines rest).1,
      (g.readFileLine line).2.toList ++ ((g.readFileLine line).1.readFileLines rest).2)

/-! # Part II: theorems -/

/-! ## The label order -/

theorem char_eq_of_toNat_eq (a b : Char) (h : a.toNat = b.toNat) : a = b := by
  apply Char.ext
  apply UInt32.ext
  simpa [Char.toNat] using h

theorem lexLt_irrefl : ∀ a : List Char, lexLt a a = false
  | [] => rfl
  | c :: cs => by simp [lexLt, lexLt_irrefl cs]

theorem lexLt_trans : ∀ a b c : List Char, lexLt a b = true → lexLt b c = true → lexLt a c = true
  | [], [], _, h, _ => by simp [lexLt] at h
  | [], _ :: _, [], _, h => by simp [lexLt] at h
  | [], _ :: _, _ :: _, _, _ => by simp [lexLt]
  | _ :: _, [], _, h, _ => by simp [lexLt] at h
  | _ :: _, _ :: _, [], _, h => by simp [lexLt] at h
  | x :: xs, y :: ys, z :: zs, h1, h2 => by
    simp only [lexLt] at h1 h2 ⊢
    split_ifs at h1 h2 ⊢ <;> first | rfl | omega | exact lexLt_trans xs ys zs h1 h2

theorem lexLt_total : ∀ a b : List Char, lexLt a b = false → a ≠ b → lexLt b a = true
  | [], [], _, h => absurd rfl h
  | [], _ :: _, h, _ => by simp [lexLt] at h
  | _ :: _, [], _, _ => by simp [lexLt]
  | x :: xs, y :: ys, h1, h2 => by
    simp only [lexLt] at h1 ⊢
    split_ifs at h1 ⊢ <;> first | rfl | omega | skip
    have hxy : x = y := char_eq_of_toNat_eq x y (by omega)
    subst hxy
    exact lexLt_total xs ys h1 (fun h => h2 (by rw [h]))

theorem strLt_irrefl (a : String) : strLt a a = false := lexLt_irrefl a.data

theorem strLt_trans {a b c : String} (h1 : strLt a b = true) (h2 : strLt b c = true) :
    strLt a c = true := lexLt_trans _ _ _ h1 h2

theorem strLt_total {a b : String} (h1 : strLt a b = false) (h2 : a ≠ b) : strLt b a = true :=
  lexLt_total _ _ h1 (fun h => h2 (String.ext h))

theorem strLt_ne {a b : String} (h : strLt a b = true) : a ≠ b := by
  rintro rfl
  rw [strLt_irrefl] at h
  exact Bool.noConfusion h

theorem strLt_asymm {a b : String} (h : strLt a b = true) : strLt b a = false := by
  cases hba : strLt b a
  · rfl
  · have := strLt_trans h hba
    rw [strLt_irrefl] at this
    exact Bool.noConfusion this

/-! ## Lemmas on maps -/

theorem mapFind_eq_none_iff {V : Type} (m : List (String × V)) (k : String) :
    mapFind m k = none ↔ k ∉ mapKeys m := by
  induction m with
  | nil => simp [mapFind, mapKeys]
  | cons x rest ih =>
    obtain ⟨k', v⟩ := x
    by_cases h : k' = k
    · simp [mapFind, mapKeys, h]
    · simp only [mapFind, h, if_false, ih, mapKeys, List.map_cons, List.mem_cons, not_or]
      constructor
      · intro h1
        exact ⟨fun h2 => h h2.symm, h1⟩
      · intro h1
        exact h1.2

theorem mapFind_some_mem {V : Type} {m : List (String × V)} {k : String} {v : V}
    (h : mapFind m k = some v) : (k, v) ∈ m := by
  induction m with
  | nil => simp [mapFind] at h
  | cons x rest ih =>
    obtain ⟨k', v'⟩ := x
    by_cases hk : k' = k
    · simp [mapFind, hk] at h
      simp [hk, h]
    · simp only [mapFind, hk, if_false] at h
      exact List.mem_cons_of_mem _ (ih h)

theorem mem_mapKeys_of_mem {V : Type} {m : List (String × V)} {k : String} {v : V}
    (h : (k, v) ∈ m) : k ∈ mapKeys m :=
  List.mem_map.mpr ⟨(k, v), h, rfl⟩

theorem mapFind_some_key {V : Type} {m : List (String × V)} {k : String} {v : V}
    (h : mapFind m k = some v) : k ∈ mapKeys m :=
  mem_mapKeys_of_mem (mapFind_some_mem h)

theorem mapFind_isSome_of_key {V : Type} {m : List (String × V)} {k : String}
    (h : k ∈ mapKeys m) : ∃ v, mapFind m k = some v := by
  cases hf : mapFind m k with
  | none => exact absurd h ((mapFind_eq_none_iff m k).mp hf)
  | some v => exact ⟨v, rfl⟩

theorem KeysSorted.tail {V : Type} {x : String × V} {m : List (String × V)}
    (h : KeysSorted (x :: m)) : KeysSorted m := by
  unfold KeysSorted mapKeys at *
  exact (List.pairwise_cons.mp h).2

theorem KeysSorted.head_lt {V : Type} {x : String × V} {m : List (String × V)}
    (h : KeysSorted (x :: m)) : ∀ k, k ∈ mapKeys m → strLt x.1 k = true := by
  unfold KeysSorted mapKeys at h
  exact (List.pairwise_cons.mp h).1

theorem KeysSorted.nodup {V : Type} {m : List (String × V)} (h : KeysSorted m) :
    (mapKeys m).Nodup := by
  unfold KeysSorted at h
  exact h.imp (fun hab => strLt_ne hab)

theorem mapFind_of_mem {V : Type} {m : List (String × V)} (hs : KeysSorted m) {k : String}
    {v : V} (h : (k, v) ∈ m) : mapFind m k = some v := by
  induction m with
  | nil => simp at h
  | cons x rest ih =>
    obtain ⟨k', v'⟩ := x
    rcases List.mem_cons.mp h with h1 | h1
    · cases h1
      simp [mapFind]
    · have hlt := hs.head_lt k (mem_mapKeys_of_mem h1)
      have hne : k' ≠ k := strLt_ne hlt
      simp only [mapFind, hne, if_false]
      exact ih hs.tail h1

theorem mapFind_mapInsertNew_self {V : Type} (m : List (String × V)) (k : String) (v : V)
    (h : mapFind m k = none) : mapFind (mapInsertNew m k v) k = some v := by
  induction m with
  | nil => simp [mapInsertNew, mapFind]
  | cons x rest ih =>
    obtain ⟨k', v'⟩ := x
    by_cases hk : k' = k
    · simp [mapFind, hk] at h
    · simp only [mapFind, hk, if_false] at h
      simp only [mapInsertNew]
      split
      · simp [mapFind]
      · simp only [mapFind, hk, if_false]
        exact ih h

theorem mapFind_mapInsertNew_ne {V : Type} (m : List (String × V)) (k k' : String) (v : V)
    (h : k' ≠ k) : mapFind (mapInsertNew m k v) k' = mapFind m k' := by
  induction m with
  | nil => simp [mapInsertNew, mapFind, h.symm]
  | cons x rest ih =>
    obtain ⟨k₁, v₁⟩ := x
    simp only [mapInsertNew]
    split
    · simp [mapFind, h.symm]
    · simp only [mapFind, ih]

theorem mapInsertNew_perm {V : Type} (m : List (String × V)) (k : String) (v : V) :
    (mapInsertNew m k v).Perm ((k, v) :: m) := by
  induction m with
  | nil => simp [mapInsertNew]
  | cons x rest ih =>
    obtain ⟨k₁, v₁⟩ := x
    simp only [mapInsertNew]
    split
    · exact List.Perm.refl _
    · exact (List.Perm.cons _ ih).trans (List.Perm.swap _ _ _)

theorem mem_mapInsertNew {V : Type} (m : List (String × V)) (k : String) (v : V)
    (x : String × V) : x ∈ mapInsertNew m k v ↔ x = (k, v) ∨ x ∈ m := by
  rw [(mapInsertNew_perm m k v).mem_iff, List.mem_cons]

theorem mapKeys_mapInsertNew_perm {V : Type} (m : List (String × V)) (k : String) (v : V) :
    (mapKeys (mapInsertNew m k v)).Perm (k :: mapKeys m) := by
  unfold mapKeys
  exact (mapInsertNew_perm m k v).map Prod.fst

theorem mem_mapKeys_mapInsertNew {V : Type} (m : List (String × V)) (k : String) (v : V)
    (k' : String) : k' ∈ mapKeys (mapInsertNew m k v) ↔ k' = k ∨ k' ∈ mapKeys m := by
  rw [(mapKeys_mapInsertNew_perm m k v).mem_iff, List.mem_cons]

theorem length_mapInsertNew {V : Type} (m : List (String × V)) (k : String) (v : V) :
    (mapInsertNew m k v).length = m.length + 1 := by
  rw [(mapInsertNew_perm m k v).length_eq, List.length_cons]

theorem keysSorted_mapInsertNew {V : Type} (m : List (String × V)) (k : String) (v : V)
    (hs : KeysSorted m) (hk : k ∉ mapKeys m) : KeysSorted (mapInsertNew m k v) := by
  induction m with
  | nil => simp [mapInsertNew, KeysSorted, mapKeys]
  | cons x rest ih =>
    obtain ⟨k₁, v₁⟩ := x
    have hne : k ≠ k₁ := fun h => hk (by simp [mapKeys, h])
    have hk' : k ∉ mapKeys rest := fun h => hk (by
      simp only [mapKeys, List.map_cons, List.mem_cons]
      exact Or.inr h)
    simp only [mapInsertNew]
    split
    · rename_i hlt
      unfold KeysSorted mapKeys
      simp only [List.map_cons, List.pairwise_cons, List.mem_cons]
      refine ⟨?_, ?_⟩
      · intro a ha
        rcases ha with ha | ha
        · rw [ha]; exact hlt
        · exact strLt_trans hlt (hs.head_lt a ha)
      · exact List.pairwise_cons.mp hs
    · rename_i hlt
      have hlt' : strLt k₁ k = true := strLt_total (by simpa using hlt) hne
      have ih' := ih hs.tail hk'
      unfold KeysSorted mapKeys
      simp only [List.map_cons, List.pairwise_cons]
      refine ⟨?_, ih'⟩
      intro a ha
      rcases (mem_mapKeys_mapInsertNew rest k v a).mp ha with ha | ha
      · rw [ha]; exact hlt'
      · exact hs.head_lt a ha

theorem mapKeys_mapSet {V : Type} (m : List (String × V)) (k : String) (v : V) :
    mapKeys (mapSet m k v) = mapKeys m := by
  induction m with
  | nil => rfl
  | cons x rest ih =>
    obtain ⟨k₁, v₁⟩ := x
    simp only [mapSet]
    split
    · simp [mapKeys]
    · simp only [mapKeys, List.map_cons] at ih ⊢
      rw [ih]

theorem mapFind_mapSet {V : Type} (m : List (String × V)) (k k' : String) (v : V) :
    mapFind (mapSet m k v) k' =
      if k' = k then (mapFind m k).map (fun _ => v) else mapFind m k' := by
  induction m with
  | nil => simp [mapSet, mapFind]
  | cons x rest ih =>
    obtain ⟨k₁, v₁⟩ := x
    simp only [mapSet]
    by_cases h1 : k₁ = k
    · subst h1
      by_cases h2 : k' = k₁
      · simp [mapFind, h2]
      · have h3 : ¬ k₁ = k' := fun h => h2 h.symm
        simp [mapFind, h2, h3]
    · simp only [h1, if_false, mapFind, ih]
      by_cases h2 : k' = k
      · subst h2
        simp [h1]
      · simp [h2]

theorem mem_mapSet {V : Type} {m : List (String × V)} {k : String} {v : V} {x : String × V}
    (h : x ∈ mapSet m k v) : x = (k, v) ∨ x ∈ m := by
  induction m with
  | nil => simp [mapSet] at h
  | cons y rest ih =>
    obtain ⟨k₁, v₁⟩ := y
    simp only [mapSet] at h
    by_cases h1 : k₁ = k
    · simp only [h1, if_true, List.mem_cons] at h
      rcases h with h | h
      · exact Or.inl h
      · exact Or.inr (List.mem_cons_of_mem _ h)
    · simp only [h1, if_false, List.mem_cons] at h
      rcases h with h | h
      · exact Or.inr (by simp [h])
      · rcases ih h with h2 | h2
        · exact Or.inl h2
        · exact Or.inr (List.mem_cons_of_mem _ h2)

theorem keysSorted_mapSet {V : Type} {m : List (String × V)} (k : String) (v : V)
    (h : KeysSorted m) : KeysSorted (mapSet m k v) := by
  unfold KeysSorted at *
  rw [mapKeys_mapSet]
  exact h

theorem length_mapSet {V : Type} (m : List (String × V)) (k : String) (v : V) :
    (mapSet m k v).length = m.length := by
  have h := congrArg List.length (mapKeys_mapSet m k v)
  simpa [mapKeys] using h

/-! ## Construction preserves well-formedness -/

theorem edgeTotal_mapInsertNew (m : List (String × Option Vertex)) (k : String) (v : Vertex) :
    edgeTotal (mapInsertNew m k (some v)) = edgeTotal m + v.adjacencyList.length := by
  induction m with
  | nil => simp [mapInsertNew, edgeTotal]
  | cons x rest ih =>
    obtain ⟨k₁, p₁⟩ := x
    simp only [mapInsertNew]
    split
    · cases p₁ <;> simp [edgeTotal] <;> omega
    · cases p₁ <;> simp [edgeTotal, ih] <;> omega

theorem edgeTotal_mapSet (m : List (String × Option Vertex)) (k : String) (old v : Vertex)
    (h : mapFind m k = some (some old)) :
    edgeTotal (mapSet m k (some v)) + old.adjacencyList.length
      = edgeTotal m + v.adjacencyList.length := by
  induction m with
  | nil => simp [mapFind] at h
  | cons x rest ih =>
    obtain ⟨k₁, p₁⟩ := x
    by_cases h1 : k₁ = k
    · simp only [mapFind, h1, if_true, Option.some.injEq] at h
      subst h
      simp only [mapSet, h1, if_true, edgeTotal]
      omega
    · simp only [mapFind, h1, if_false] at h
      have ih' := ih h
      cases p₁ <;> simp only [mapSet, h1, if_false, edgeTotal] <;> omega

theorem VertexOK.mono {keys keys' : List String} {k : String} {v : Vertex}
    (h : VertexOK keys k v) (hsub : ∀ n, n ∈ keys → n ∈ keys') : VertexOK keys' k v :=
  { label := h.label, sorted := h.sorted, noSelf := h.noSelf, ends := h.ends,
    closed := fun n hn => hsub n (h.closed n hn) }

theorem vertexOK_new (keys : List String) (k : String) : VertexOK keys k (Vertex.new k) :=
  { label := rfl
    sorted := by simp [Vertex.new, KeysSorted, mapKeys]
    noSelf := by simp [Vertex.new, mapKeys]
    ends := by simp [Vertex.new]
    closed := by simp [Vertex.new, mapKeys] }

theorem inv_empty : Graph.empty.Inv :=
  { sorted := by simp [Graph.empty, KeysSorted, mapKeys]
    slots := by simp [Graph.empty]
    nVertices := by simp [Graph.empty]
    nEdges := by simp [Graph.empty, edgeTotal] }

theorem Graph.Inv.find {g : Graph} (hg : g.Inv) {k : String} (hk : k ∈ mapKeys g.vertices) :
    ∃ v, mapFind g.vertices k = some (some v) ∧ VertexOK (mapKeys g.vertices) k v := by
  obtain ⟨p, hp⟩ := mapFind_isSome_of_key hk
  obtain ⟨v, hv, hok⟩ := hg.slots k p (mapFind_some_mem hp)
  exact ⟨v, by rw [hp, hv], hok⟩

theorem Graph.Inv.find_cases {g : Graph} (hg : g.Inv) (k : String) :
    (mapFind g.vertices k = none ∧ k ∉ mapKeys g.vertices) ∨
    (∃ v, mapFind g.vertices k = some (some v) ∧ VertexOK (mapKeys g.vertices) k v) := by
  by_cases hk : k ∈ mapKeys g.vertices
  · exact Or.inr (hg.find hk)
  · exact Or.inl ⟨(mapFind_eq_none_iff _ _).mpr hk, hk⟩

theorem Graph.Inv.ok_of_find {g : Graph} (hg : g.Inv) {k : String} {v : Vertex}
    (h : mapFind g.vertices k = some (some v)) : VertexOK (mapKeys g.vertices) k v := by
  obtain ⟨v', hv', hok⟩ := hg.slots k (some v) (mapFind_some_mem h)
  cases hv'
  exact hok

theorem findOrCreateVertex_absent {g : Graph} {k : String} (h : mapFind g.vertices k = none) :
    g.findOrCreateVertex k =
      ({ g with
          numberOfVertices := g.numberOfVertices + 1,
          vertices := mapInsertNew g.vertices k (some (Vertex.new k)) },
        Vertex.new k, true) := by
  have hfv : g.findVertex k = none := by simp [Graph.findVertex, h]
  simp [Graph.findOrCreateVertex, hfv, mapInsert, h]

theorem findOrCreateVertex_present {g : Graph} {k : String} {v : Vertex}
    (h : mapFind g.vertices k = some (some v)) : g.findOrCreateVertex k = (g, v, true) := by
  have hfv : g.findVertex k = some v := by simp [Graph.findVertex, h]
  simp [Graph.findOrCreateVertex, hfv]

/-- The effect of `findOrCreateVertex` on a well-formed graph. -/
theorem findOrCreateVertex_spec {g : Graph} (hg : g.Inv) (k : String) :
    (g.findOrCreateVertex k).1.Inv ∧
    mapFind (g.findOrCreateVertex k).1.vertices k = some (some (g.findOrCreateVertex k).2.1) ∧
    (g.findOrCreateVertex k).2.2 = true ∧
    (∀ k', k' ≠ k →
      mapFind (g.findOrCreateVertex k).1.vertices k' = mapFind g.vertices k') ∧
    (∀ k', k' ∈ mapKeys (g.findOrCreateVertex k).1.vertices ↔ k' = k ∨ k' ∈ mapKeys g.vertices) ∧
    (g.findOrCreateVertex k).1.numberOfEdges = g.numberOfEdges ∧
    (k ∈ mapKeys g.vertices → (g.findOrCreateVertex k).1 = g) ∧
    (k ∉ mapKeys g.vertices → (g.findOrCreateVertex k).2.1 = Vertex.new k) := by
  rcases hg.find_cases k with ⟨hnone, hk⟩ | ⟨v, hv, hok⟩
  · rw [findOrCreateVertex_absent hnone]
    refine ⟨?_, mapFind_mapInsertNew_self _ _ _ hnone, rfl,
      fun k' hk' => mapFind_mapInsertNew_ne _ _ _ _ hk', mem_mapKeys_mapInsertNew _ _ _, rfl,
      fun h => absurd h hk, fun _ => rfl⟩
    refine ⟨keysSorted_mapInsertNew _ _ _ hg.sorted hk, ?_, ?_, ?_⟩
    · intro k₁ p hp
      rcases (mem_mapInsertNew _ _ _ _).mp hp with hp | hp
      · cases hp
        exact ⟨_, rfl, vertexOK_new _ _⟩
      · obtain ⟨v, hv, hok⟩ := hg.slots k₁ p hp
        exact ⟨v, hv, hok.mono (fun n hn => (mem_mapKeys_mapInsertNew _ _ _ _).mpr (Or.inr hn))⟩
    · simp only [length_mapInsertNew, hg.nVertices]
      push_cast
      rfl
    · simp only [edgeTotal_mapInsertNew, hg.nEdges, Vertex.new, List.length_nil, Nat.add_zero]
  · rw [findOrCreateVertex_present hv]
    exact ⟨hg, hv, rfl, fun _ _ => rfl,
      fun k' => ⟨fun h => Or.inr h, fun h => h.elim (fun h => h ▸ mapFind_some_key hv) id⟩,
      rfl, fun _ => rfl, fun h => absurd (mapFind_some_key hv) h⟩

theorem vertexOK_connect {keys : List String} {k : String} {v : Vertex} (h : VertexOK keys k v)
    {e : String} (w : Int) (hne : e ≠ k) (he : e ∈ keys)
    (hnone : mapFind v.adjacencyList e = none) :
    VertexOK keys k
      { v with adjacencyList :=
          mapInsertNew v.adjacencyList e { endVertex := e, edgeWeight := w } } :=
  { label := h.label
    sorted := keysSorted_mapInsertNew _ _ _ h.sorted ((mapFind_eq_none_iff _ _).mp hnone)
    noSelf := by
      intro hk
      rcases (mem_mapKeys_mapInsertNew _ _ _ _).mp hk with hk | hk
      · exact hne hk.symm
      · exact h.noSelf hk
    ends := by
      intro n x hx
      rcases (mem_mapInsertNew _ _ _ _).mp hx with hx | hx
      · cases hx
        rfl
      · exact h.ends n x hx
    closed := by
      intro n hn
      rcases (mem_mapKeys_mapInsertNew _ _ _ _).mp hn with hn | hn
      · rw [hn]; exact he
      · exact h.closed n hn }

theorem connect_absent {v : Vertex} {e : String} (w : Int) (hne : e ≠ v.vertexLabel)
    (h : mapFind v.adjacencyList e = none) :
    v.connect e w =
      ({ v with adjacencyList :=
          mapInsertNew v.adjacencyList e { endVertex := e, edgeWeight := w } }, true) := by
  simp [Vertex.connect, hne, h, mapInsert]

theorem connect_present {v : Vertex} {e : String} (w : Int)
    (h : (mapFind v.adjacencyList e).isSome = true) : v.connect e w = (v, false) := by
  obtain ⟨x, hx⟩ := Option.isSome_iff_exists.mp h
  simp only [Vertex.connect, hx]
  split <;> rfl

theorem vertexOK_connect_fst {keys : List String} {k : String} {v : Vertex}
    (h : VertexOK keys k v) {e : String} (w : Int) (hne : e ≠ k) (he : e ∈ keys) :
    VertexOK keys k (v.connect e w).1 := by
  cases hf : mapFind v.adjacencyList e with
  | none =>
    rw [connect_absent w (by rw [h.label]; exact hne) hf]
    exact vertexOK_connect h w hne he hf
  | some x =>
    rw [connect_present w (by simp [hf])]
    exact h

/-- The two outcomes of `add` on a well-formed graph, for distinct labels: with `g2` the
graph after both `findOrCreateVertex` calls and `vert` the vertex of `s`, either the edge is
stored in `vert` or `vert` already has an edge to `e` and `g2` is returned. -/
theorem add_cases {g : Graph} (hg : g.Inv) {s e : String} (hne : s ≠ e) (w : Int) :
    ∃ g2 vert, g2.Inv ∧ mapFind g2.vertices s = some (some vert) ∧
      (∀ k, k ∈ mapKeys g2.vertices ↔ k = s ∨ k = e ∨ k ∈ mapKeys g.vertices) ∧
      g2.numberOfEdges = g.numberOfEdges ∧
      (s ∈ mapKeys g.vertices → e ∈ mapKeys g.vertices → g2 = g) ∧
      (∀ v, mapFind g.vertices s = some (some v) → vert = v) ∧
      (s ∉ mapKeys g.vertices → vert = Vertex.new s) ∧
      (∀ k, k ≠ s → k ≠ e → mapFind g2.vertices k = mapFind g.vertices k) ∧
      ((mapFind vert.adjacencyList e = none ∧
        g.add s e w =
          ({ g2 with
              vertices := mapSet g2.vertices s (some (vert.connect e w).1),
              numberOfEdges := g2.numberOfEdges + 1 }, true)) ∨
       ((mapFind vert.adjacencyList e).isSome = true ∧ g.add s e w = (g2, false))) := by
  obtain ⟨h1inv, h1find, h1held, h1other, h1keys, h1edges, h1same, h1new⟩ :=
    findOrCreateVertex_spec hg s
  obtain ⟨h2inv, h2find, -, h2other, h2keys, h2edges, h2same, -⟩ :=
    findOrCreateVertex_spec h1inv e
  have hs : mapFind ((g.findOrCreateVertex s).1.findOrCreateVertex e).1.vertices s
      = some (some (g.findOrCreateVertex s).2.1) := by
    rw [h2other s hne, h1find]
  have hok := h2inv.ok_of_find hs
  refine ⟨_, _, h2inv, hs, ?_, by rw [h2edges, h1edges], ?_, ?_, h1new, ?_, ?_⟩
  · intro k
    rw [h2keys, h1keys]
    tauto
  · intro hs' he'
    have e1 := h1same hs'
    rw [e1] at h2same ⊢
    exact h2same he'
  · intro v hv
    rw [findOrCreateVertex_present hv]
  · intro k hks hke
    rw [h2other k hke, h1other k hks]
  · have hlabel : e ≠ (g.findOrCreateVertex s).2.1.vertexLabel := by
      rw [hok.label]; exact fun h => hne h.symm
    cases hf : mapFind (g.findOrCreateVertex s).2.1.adjacencyList e with
    | none =>
      left
      refine ⟨rfl, ?_⟩
      simp only [Graph.add, hne, if_false, Vertex.connect, hlabel, hf, mapInsert, h1held, if_true]
    | some x =>
      right
      refine ⟨rfl, ?_⟩
      simp only [Graph.add, hne, if_false, Vertex.connect, hlabel, hf]

theorem add_self (g : Graph) (s : String) (w : Int) : g.add s s w = (g, false) := by
  simp [Graph.add]

theorem add_inv {g : Graph} (hg : g.Inv) (s e : String) (w : Int) : (g.add s e w).1.Inv := by
  by_cases hne : s = e
  · subst hne
    rw [add_self]
    exact hg
  · obtain ⟨g2, vert, h2inv, hs, hkeys, -, -, -, -, -, h⟩ := add_cases hg hne w
    have he : e ∈ mapKeys g2.vertices := (hkeys e).mpr (Or.inr (Or.inl rfl))
    rcases h with ⟨hnone, heq⟩ | ⟨hsome, heq⟩
    · rw [heq]
      have hok := h2inv.ok_of_find hs
      have hnew := vertexOK_connect_fst hok w (fun h => hne h.symm) he
      refine ⟨keysSorted_mapSet _ _ h2inv.sorted, ?_, ?_, ?_⟩
      · intro k p hp
        simp only [mapKeys_mapSet]
        rcases mem_mapSet hp with hp | hp
        · cases hp
          exact ⟨_, rfl, hnew⟩
        · exact h2inv.slots k p hp
      · simp only [length_mapSet]
        exact h2inv.nVertices
      · have := edgeTotal_mapSet g2.vertices s vert (vert.connect e w).1 hs
        rw [connect_absent w (by rw [hok.label]; exact fun h => hne h.symm) hnone] at this
        simp only [length_mapInsertNew] at this
        rw [connect_absent w (by rw [hok.label]; exact fun h => hne h.symm) hnone]
        simp only [h2inv.nEdges]
        omega
    · rw [heq]
      exact h2inv

theorem addAll_inv {g : Graph} (hg : g.Inv) (calls : List (String × String × Int)) :
    (g.addAll calls).Inv := by
  induction calls generalizing g with
  | nil => exact hg
  | cons c rest ih =>
    obtain ⟨s, e, w⟩ := c
    exact ih (add_inv hg s e w)

theorem buildGraph_inv (calls : List (String × String × Int)) : (buildGraph calls).Inv :=
  addAll_inv inv_empty calls

/-! ## `add` and `getEdgeWeight` -/

theorem mapFind_mapInsert_ne {V : Type} (m : List (String × V)) (k k' : String) (v : V)
    (h : k' ≠ k) : mapFind (mapInsert m k v) k' = mapFind m k' := by
  unfold mapInsert
  split
  · rfl
  · exact mapFind_mapInsertNew_ne m k k' v h

theorem findOrCreateVertex_find_ne (g : Graph) (k k' : String) (h : k' ≠ k) :
    mapFind (g.findOrCreateVertex k).1.vertices k' = mapFind g.vertices k' := by
  unfold Graph.findOrCreateVertex
  split
  · rfl
  · exact mapFind_mapInsert_ne _ _ _ _ h

theorem findOrCreateVertex_held (g : Graph) (k : String)
    (hnull : mapFind g.vertices k ≠ some none) :
    (g.findOrCreateVertex k).2.2 = true ∧
    mapFind (g.findOrCreateVertex k).1.vertices k = some (some (g.findOrCreateVertex k).2.1) := by
  cases hf : mapFind g.vertices k with
  | none =>
    rw [findOrCreateVertex_absent hf]
    exact ⟨rfl, mapFind_mapInsertNew_self _ _ _ hf⟩
  | some p =>
    cases p with
    | none => exact absurd hf hnull
    | some v =>
      rw [findOrCreateVertex_present hf]
      exact ⟨rfl, hf⟩

theorem connect_true_find (v : Vertex) (e : String) (w : Int) (h : (v.connect e w).2 = true) :
    mapFind (v.connect e w).1.adjacencyList e = some { endVertex := e, edgeWeight := w } := by
  unfold Vertex.connect at h ⊢
  split at h
  · exact absurd h (by simp)
  · rename_i hne
    simp only [hne, if_false]
    cases hf : mapFind v.adjacencyList e with
    | none =>
      simp only [mapInsert, hf]
      exact mapFind_mapInsertNew_self _ _ _ hf
    | some x =>
      rw [hf] at h
      exact absurd h (by simp)

theorem add_true_eq (g : Graph) (a b : String) (w : Int) (h : (g.add a b w).2 = true) :
    a ≠ b ∧
    ((g.findOrCreateVertex a).2.1.connect b w).2 = true ∧
    g.add a b w =
      ({ ((g.findOrCreateVertex a).1.findOrCreateVertex b).1 with
          vertices :=
            if (g.findOrCreateVertex a).2.2 then
              mapSet ((g.findOrCreateVertex a).1.findOrCreateVertex b).1.vertices a
                (some ((g.findOrCreateVertex a).2.1.connect b w).1)
            else ((g.findOrCreateVertex a).1.findOrCreateVertex b).1.vertices,
          numberOfEdges :=
            ((g.findOrCreateVertex a).1.findOrCreateVertex b).1.numberOfEdges + 1 }, true) := by
  by_cases hab : a = b
  · subst hab
    rw [add_self] at h
    exact absurd h (by simp)
  · refine ⟨hab, ?_⟩
    unfold Graph.add at h ⊢
    simp only [hab, if_false] at h ⊢
    cases hc : (g.findOrCreateVertex a).2.1.connect b w with
    | mk vert1 ok =>
      cases ok with
      | true => simp [hc]
      | false =>
        rw [hc] at h
        exact absurd h (by simp)

/-- After a successful `add(a, b, w)` with `w` different from the sentinel `-1`, on a graph
whose registry does not bind `a` to a null pointer, `getEdgeWeight(a, b)` returns `w`. -/
theorem getEdgeWeight_add_of_true (g : Graph) (a b : String) (w : Int) (hw : w ≠ -1)
    (hnull : mapFind g.vertices a ≠ some none) (hadd : (g.add a b w).2 = true) :
    (g.add a b w).1.getEdgeWeight a b = .ok w := by
  obtain ⟨hab, hc, heq⟩ := add_true_eq g a b w hadd
  obtain ⟨hheld, hfind⟩ := findOrCreateVertex_held g a hnull
  have hfind2 : mapFind ((g.findOrCreateVertex a).1.findOrCreateVertex b).1.vertices a
      = some (some (g.findOrCreateVertex a).2.1) := by
    rw [findOrCreateVertex_find_ne _ _ _ hab, hfind]
  have hw' := connect_true_find _ b w hc
  rw [heq]
  simp only [hheld, if_true, Graph.getEdgeWeight, mapFind_mapSet, hfind2, Option.map_some',
    Vertex.getEdgeWeight, hw', Edge.getWeight]
  simp [hw]

/-! ## Failing `add` calls -/

theorem hasEdge_eq_of_find {g : Graph} {s : String} {v : Vertex}
    (h : mapFind g.vertices s = some (some v)) (e : String) :
    g.hasEdge s e = (mapFind v.adjacencyList e).isSome := by
  simp [Graph.hasEdge, Graph.findVertex, h]

theorem hasEdge_eq_false_of_absent {g : Graph} {s : String}
    (h : mapFind g.vertices s = none) (e : String) : g.hasEdge s e = false := by
  simp [Graph.hasEdge, Graph.findVertex, h]

/-- On a well-formed graph `add` fails exactly on equal labels and on an existing edge, and
a failing `add` returns the graph it was given. -/
theorem add_false_spec {g : Graph} (hg : g.Inv) (s e : String) (w : Int) :
    ((g.add s e w).2 = false ↔ (s = e ∨ g.hasEdge s e = true)) ∧
    ((g.add s e w).2 = false → (g.add s e w).1 = g) := by
  by_cases hne : s = e
  · subst hne
    rw [add_self]
    simp
  · obtain ⟨g2, vert, h2inv, hs, hkeys, -, hsame, hold, hnew, -, h⟩ := add_cases hg hne w
    have hedge : g.hasEdge s e = (mapFind vert.adjacencyList e).isSome := by
      rcases hg.find_cases s with ⟨h1, h2⟩ | ⟨v, h1, -⟩
      · rw [hasEdge_eq_false_of_absent h1, hnew h2]
        rfl
      · rw [hasEdge_eq_of_find h1, hold v h1]
    rcases h with ⟨hnone, heq⟩ | ⟨hsome, heq⟩
    · rw [heq, hedge, hnone]
      simp [hne]
    · rw [heq, hedge, hsome]
      simp only [or_true, true_iff, forall_true_left, true_and]
      rcases hg.find_cases s with ⟨h1, h2⟩ | ⟨v, h1, hok⟩
      · rw [hnew h2] at hsome
        simp [Vertex.new, mapFind] at hsome
      · rw [hold v h1] at hsome
        obtain ⟨x, hx⟩ := Option.isSome_iff_exists.mp hsome
        exact hsame (mapFind_some_key h1) (hok.closed e (mapFind_some_key hx))

theorem hasEdge_add {g : Graph} (hg : g.Inv) {s e : String} (hne : s ≠ e) (w : Int) :
    (g.add s e w).1.hasEdge s e = true := by
  obtain ⟨g2, vert, h2inv, hs, -, -, -, -, -, -, h⟩ := add_cases hg hne w
  rcases h with ⟨hnone, heq⟩ | ⟨hsome, heq⟩
  · have hf : mapFind (mapSet g2.vertices s (some (vert.connect e w).1)) s
        = some (some (vert.connect e w).1) := by
      rw [mapFind_mapSet, hs]
      simp
    rw [heq]
    rw [hasEdge_eq_of_find (g := { g2 with
          vertices := mapSet g2.vertices s (some (vert.connect e w).1),
          numberOfEdges := g2.numberOfEdges + 1 }) hf]
    have hok := h2inv.ok_of_find hs
    rw [connect_absent w (by rw [hok.label]; exact fun h => hne h.symm) hnone]
    simp [mapFind_mapInsertNew_self _ _ _ hnone]
  · rw [heq, hasEdge_eq_of_find hs, hsome]

/-! ## The counters -/

theorem add_numberOfEdges {g : Graph} (hg : g.Inv) (s e : String) (w : Int) :
    (g.add s e w).1.numberOfEdges = g.numberOfEdges + (if (g.add s e w).2 then 1 else 0) := by
  by_cases hne : s = e
  · subst hne
    rw [add_self]
    simp
  · obtain ⟨g2, vert, -, -, -, hedges, -, -, -, -, h⟩ := add_cases hg hne w
    rcases h with ⟨-, heq⟩ | ⟨-, heq⟩
    · rw [heq]
      simp [hedges]
    · rw [heq]
      simp [hedges]

theorem addAll_numberOfEdges {g : Graph} (hg : g.Inv) (calls : List (String × String × Int)) :
    (g.addAll calls).numberOfEdges = g.numberOfEdges + ((g.addResults calls).count true : Nat) := by
  induction calls generalizing g with
  | nil => simp [Graph.addAll, Graph.addResults]
  | cons c rest ih =>
    obtain ⟨s, e, w⟩ := c
    simp only [Graph.addAll, Graph.addResults]
    rw [ih (add_inv hg s e w), add_numberOfEdges hg]
    cases h : (g.add s e w).2
    · simp
    · simp
      omega

theorem add_keys {g : Graph} (hg : g.Inv) {s e : String} (hne : s ≠ e) (w : Int) (k : String) :
    k ∈ mapKeys (g.add s e w).1.vertices ↔ k = s ∨ k = e ∨ k ∈ mapKeys g.vertices := by
  obtain ⟨g2, vert, -, -, hkeys, -, -, -, -, -, h⟩ := add_cases hg hne w
  rcases h with ⟨-, heq⟩ | ⟨-, heq⟩
  · rw [heq]
    simp only [mapKeys_mapSet]
    exact hkeys k
  · rw [heq]
    exact hkeys k

theorem addAll_keys {g : Graph} (hg : g.Inv) (calls : List (String × String × Int))
    (k : String) :
    k ∈ mapKeys (g.addAll calls).vertices ↔ k ∈ mapKeys g.vertices ∨ k ∈ labelsOf calls := by
  induction calls generalizing g with
  | nil => simp [Graph.addAll, labelsOf]
  | cons c rest ih =>
    obtain ⟨s, e, w⟩ := c
    simp only [Graph.addAll, labelsOf]
    rw [ih (add_inv hg s e w)]
    by_cases hne : s = e
    · subst hne
      rw [add_self]
      simp
    · rw [add_keys hg hne]
      simp only [hne, if_false, List.mem_cons]
      tauto

theorem buildGraph_keys (calls : List (String × String × Int)) (k : String) :
    k ∈ mapKeys (buildGraph calls).vertices ↔ k ∈ labelsOf calls := by
  unfold buildGraph
  rw [addAll_keys inv_empty]
  simp [Graph.empty, mapKeys]

theorem buildGraph_length (calls : List (String × String × Int)) :
    (buildGraph calls).vertices.length = (labelsOf calls).dedup.length := by
  have hnd := (buildGraph_inv calls).sorted.nodup
  have h1 : (mapKeys (buildGraph calls).vertices).toFinset = (labelsOf calls).toFinset := by
    ext k
    simp only [List.mem_toFinset]
    exact buildGraph_keys calls k
  have h2 := List.toFinset_card_of_nodup hnd
  rw [h1, List.card_toFinset] at h2
  rw [h2]
  simp [mapKeys]

/-! ## Claims on construction -/

/-- C5, the claim as stated, refuted: `add("A", "B", -1)` on the empty graph returns true,
and `getEdgeWeight("A", "B")` then returns `INT_MAX`, not the weight `-1`. -/
theorem c5_add_then_getEdgeWeight_counterexample :
    ("A" : String) ≠ "B" ∧ (Graph.empty.add "A" "B" (-1)).2 = true ∧
    (Graph.empty.add "A" "B" (-1)).1.getEdgeWeight "A" "B" = .ok INT_MAX ∧
    (Graph.empty.add "A" "B" (-1)).1.getEdgeWeight "A" "B" ≠ .ok (-1) := by
  decide

/-- C5, amended: for every graph whose registry does not bind `a` to a null pointer, all
labels `a ≠ b` and every weight `w` other than `-1`, if `add(a, b, w)` returns true then
`getEdgeWeight(a, b)` called on the resulting graph returns `w`. -/
theorem c5_add_then_getEdgeWeight (g : Graph) (a b : String) (w : Int) (_hab : a ≠ b)
    (hw : w ≠ -1) (hnull : mapFind g.vertices a ≠ some none)
    (hadd : (g.add a b w).2 = true) :
    (g.add a b w).1.getEdgeWeight a b = .ok w :=
  getEdgeWeight_add_of_true g a b w hw hnull hadd

/-- Witness for C5: the edge `A -> B` of weight 7 added to the graph holding `B -> C`. -/
theorem c5_add_then_getEdgeWeight_witness :
    ((buildGraph [("B", "C", 2)]).add "A" "B" 7).1.getEdgeWeight "A" "B" = .ok 7 :=
  c5_add_then_getEdgeWeight (buildGraph [("B", "C", 2)]) "A" "B" 7 (by decide) (by decide)
    (by decide) (by decide)

/-- C6: on a graph built from the empty graph by `add` calls, `add(s, e, w)` returns false
exactly when `s = e` or the edge from `s` to `e` is already stored; a call returning false
returns the graph unchanged (registry, adjacency lists, both counters); in particular
`add(s, s, w)` changes nothing, and a second `add(s, e, w2)` right after `add(s, e, w)`
returns false and changes nothing. -/
theorem c6_add_fails_iff_and_unchanged (calls : List (String × String × Int)) (s e : String)
    (w w2 : Int) :
    (((buildGraph calls).add s e w).2 = false ↔ (s = e ∨ (buildGraph calls).hasEdge s e = true)) ∧
    (((buildGraph calls).add s e w).2 = false →
      ((buildGraph calls).add s e w).1 = buildGraph calls) ∧
    (buildGraph calls).add s s w = (buildGraph calls, false) ∧
    (((buildGraph calls).add s e w).1.add s e w2 = (((buildGraph calls).add s e w).1, false)) := by
  have hg := buildGraph_inv calls
  refine ⟨(add_false_spec hg s e w).1, (add_false_spec hg s e w).2, add_self _ s w, ?_⟩
  have hg' := add_inv hg s e w
  have hfalse : (((buildGraph calls).add s e w).1.add s e w2).2 = false := by
    rw [(add_false_spec hg' s e w2).1]
    by_cases hne : s = e
    · exact Or.inl hne
    · exact Or.inr (hasEdge_add hg hne w)
  exact Prod.ext ((add_false_spec hg' s e w2).2 hfalse) hfalse

/-- C7: after any sequence of `add` calls on the empty graph, `getNumVertices()` is the
number of distinct labels that occurred in a call with distinct start and end, which is
the size of the registry, and `getNumEdges()` is the number of calls that returned true,
which is the number of edges stored over all adjacency lists. -/
theorem c7_counters (calls : List (String × String × Int)) :
    (buildGraph calls).getNumVertices = ((labelsOf calls).dedup.length : Nat) ∧
    (buildGraph calls).getNumVertices = ((buildGraph calls).vertices.length : Nat) ∧
    (buildGraph calls).getNumEdges = ((Graph.empty.addResults calls).count true : Nat) ∧
    (buildGraph calls).getNumEdges = (edgeTotal (buildGraph calls).vertices : Nat) := by
  have hg := buildGraph_inv calls
  refine ⟨?_, hg.nVertices, ?_, hg.nEdges⟩
  · rw [← buildGraph_length]
    exact hg.nVertices
  · have h := addAll_numberOfEdges inv_empty calls
    simpa [Graph.empty, buildGraph, Graph.getNumEdges] using h

/-! ## Unknown start labels -/

theorem mapFind_map_snd {V W : Type} (f : V → W) (m : List (String × V)) (k : String) :
    mapFind (m.map (fun kp => (kp.1, f kp.2))) k = (mapFind m k).map f := by
  induction m with
  | nil => rfl
  | cons x rest ih =>
    obtain ⟨k₁, v₁⟩ := x
    simp only [List.map_cons, mapFind]
    split
    · rfl
    · exact ih

theorem mapFind_unvisitVertices (g : Graph) (k : String) :
    mapFind g.unvisitVertices.vertices k = (mapFind g.vertices k).map (Option.map Vertex.unvisit) :=
  mapFind_map_snd _ _ _

theorem index_unvisit_of_findVertex_none (g : Graph) (k : String) (h : g.findVertex k = none) :
    (g.unvisitVertices.index k).2 = none := by
  unfold Graph.findVertex at h
  unfold Graph.index
  rw [mapFind_unvisitVertices]
  cases hf : mapFind g.vertices k with
  | none => simp
  | some p =>
    rw [hf] at h
    simp only at h
    subst h
    simp

/-- On a start label without a vertex the shortest-path method returns before it writes
to the output maps. -/
theorem dijkstra_unknown_start (fuel : Nat) (g : Graph) (start : String)
    (weight : List (String × Int)) (previous : List (String × String))
    (h : g.findVertex start = none) :
    g.djikstraCostToAllVertices fuel start weight previous
      = .ok ((g.unvisitVertices.index start).1, weight, previous) := by
  have h2 := index_unvisit_of_findVertex_none g start h
  unfold Graph.djikstraCostToAllVertices
  cases hi : g.unvisitVertices.index start with
  | mk g1 p =>
    rw [hi] at h2
    simp only at h2
    subst h2
    rfl

/-! ## Claims on unknown start labels and on the depth-first order -/

/-- C9, the claim as stated, refuted: on the graph with the single edge `A -> B`, the
shortest-path method called for the unknown label `X` with empty maps leaves the distance
map empty, so the vertex `A` of the graph is not mapped to `INT_MAX`. -/
theorem c9_unknown_start_counterexample :
    (buildGraph [("A", "B", 1)]).findVertex "X" = none ∧
    "A" ∈ mapKeys (buildGraph [("A", "B", 1)]).vertices ∧
    ((buildGraph [("A", "B", 1)]).djikstraCostToAllVertices 3 "X" [] []).map (fun r => r.2)
      = .ok ([], []) ∧
    mapFind ([] : List (String × Int)) "A" ≠ some INT_MAX := by
  decide

/-- C9, amended: for every graph and every start label that has no vertex in the graph
(unbound, or bound to a null pointer), the shortest-path method returns without a fault
and leaves both output maps as they were passed; called with empty maps it yields an
empty distance map and an empty predecessor map. -/
theorem c9_unknown_start_leaves_maps (fuel : Nat) (g : Graph) (start : String)
    (weight : List (String × Int)) (previous : List (String × String))
    (h : g.findVertex start = none) :
    (g.djikstraCostToAllVertices fuel start weight previous).map (fun r => r.2)
        = .ok (weight, previous) ∧
    (g.djikstraCostToAllVertices fuel start [] []).map (fun r => r.2) = .ok ([], []) := by
  rw [dijkstra_unknown_start fuel g start weight previous h,
    dijkstra_unknown_start fuel g start [] [] h]
  exact ⟨rfl, rfl⟩

/-- Witness for C9: the unknown label `X` on the graph with the single edge `A -> B`. -/
theorem c9_unknown_start_leaves_maps_witness :
    ((buildGraph [("A", "B", 1)]).djikstraCostToAllVertices 3 "X" [("Q", 5)] [("Q", "R")]).map
        (fun r => r.2) = .ok ([("Q", 5)], [("Q", "R")]) ∧
    ((buildGraph [("A", "B", 1)]).djikstraCostToAllVertices 3 "X" [] []).map (fun r => r.2)
      = .ok ([], []) :=
  c9_unknown_start_leaves_maps 3 (buildGraph [("A", "B", 1)]) "X" [("Q", 5)] [("Q", "R")]
    (by decide)

/-- C10, the code at the failing input: a traversal from the unknown label `X` calls
`visit` zero times and keeps both counters, but `vertices[startLabel]` binds `X` to a null
pointer in the registry.  Afterwards `getEdgeWeight("X", "Y")` dereferences that null
pointer where it returned `INT_MAX` before, and `add("X", "Y", 1)` returns true a first and
a second time, raising both counters each time, while the edge is never stored. -/
theorem c10_unknown_start_binds_null :
    Graph.empty.depthFirstTraversal 1 "X"
      = .ok ({ vertices := [("X", none)], numberOfVertices := 0, numberOfEdges := 0 }, []) ∧
    Graph.empty.breadthFirstTraversal 1 "X"
      = .ok ({ vertices := [("X", none)], numberOfVertices := 0, numberOfEdges := 0 }, []) ∧
    Graph.empty.getEdgeWeight "X" "Y" = .ok INT_MAX ∧
    ({ vertices := [("X", none)], numberOfVertices := 0, numberOfEdges := 0 } : Graph).getEdgeWeight
      "X" "Y" = .error Fault.nullDeref ∧
    (Graph.empty.add "X" "Y" 1).1.getNumVertices = 2 ∧
    (Graph.empty.add "X" "Y" 1).1.getEdgeWeight "X" "Y" = .ok 1 ∧
    ((Graph.empty.add "X" "Y" 1).1.add "X" "Y" 1).2 = false ∧
    (({ vertices := [("X", none)], numberOfVertices := 0, numberOfEdges := 0 } : Graph).add
      "X" "Y" 1).2 = true ∧
    ((({ vertices := [("X", none)], numberOfVertices := 0, numberOfEdges := 0 } : Graph).add
      "X" "Y" 1).1.add "X" "Y" 1)
      = ({ vertices := [("X", none), ("Y", some (Vertex.new "Y"))],
           numberOfVertices := 3, numberOfEdges := 2 }, true) := by
  decide

/-- C2, the code at the failing input: on the example graph of the specification the
traversal from `A` passes `A, B, D, C` to `visit`, while the lexicographic depth-first
preorder is `A, B, C, D`; on the graph `A->B, A->C, A->D, B->D` it passes `A, B, C, D`,
which no depth-first search produces (the preorder is `A, B, D, C`). -/
theorem c2_depthFirstTraversal_order :
    (exampleGraph.depthFirstTraversal 10 "A").map (fun r => r.2) = .ok ["A", "B", "D", "C"] ∧
    lexPreorderFrom exampleGraph 10 "A" [] = ["A", "B", "C", "D"] ∧
    ((buildGraph [("A", "B", 1), ("A", "C", 1), ("A", "D", 1), ("B", "D", 1)]).depthFirstTraversal
      10 "A").map (fun r => r.2) = .ok ["A", "B", "C", "D"] ∧
    lexPreorderFrom (buildGraph [("A", "B", 1), ("A", "C", 1), ("A", "D", 1), ("B", "D", 1)])
      10 "A" [] = ["A", "B", "D", "C"] := by
  decide

/-! ## Method calls on a well-formed graph -/

theorem mapSet_same {V : Type} {m : List (String × V)} {k : String} {v : V}
    (h : mapFind m k = some v) : mapSet m k v = m := by
  induction m with
  | nil => rfl
  | cons x rest ih =>
    obtain ⟨k₁, v₁⟩ := x
    by_cases h1 : k₁ = k
    · simp only [mapFind, h1, if_true, Option.some.injEq] at h
      simp [mapSet, h1, h]
    · simp only [mapFind, h1, if_false] at h
      simp [mapSet, h1, ih h]

theorem call_ok {α : Type} {g : Graph} {k : String} {v : Vertex}
    (h : mapFind g.vertices k = some (some v)) (f : Vertex → Vertex × α) :
    g.call k f = .ok (g.setVertex k (f v).1, (f v).2) := by
  simp [Graph.call, Graph.index, h, Graph.setVertex]

theorem call_read {α : Type} {g : Graph} {k : String} {v : Vertex}
    (h : mapFind g.vertices k = some (some v)) (f : Vertex → α) :
    g.call k (fun x => (x, f x)) = .ok (g, f v) := by
  rw [call_ok h]
  simp [Graph.setVertex, mapSet_same h]

theorem map_mapSet {V W : Type} (f : V → W) (m : List (String × V)) (k : String) (v : V) :
    (mapSet m k v).map (fun kp => (kp.1, f kp.2))
      = mapSet (m.map (fun kp => (kp.1, f kp.2))) k (f v) := by
  induction m with
  | nil => rfl
  | cons x rest ih =>
    obtain ⟨k₁, v₁⟩ := x
    simp only [mapSet, List.map_cons]
    split
    · simp
    · simp [ih]

theorem skel_set {g : Graph} {k : String} {v v' : Vertex}
    (h : mapFind g.vertices k = some (some v)) (hv : v'.skel = v.skel) :
    (g.setVertex k v').skel = g.skel := by
  unfold Graph.skel Graph.setVertex
  simp only
  congr 1
  rw [map_mapSet (Option.map Vertex.skel)]
  apply mapSet_same
  rw [mapFind_map_snd, h]
  simp [hv]

theorem mapFind_skel (g : Graph) (k : String) :
    mapFind g.skel.vertices k = (mapFind g.vertices k).map (Option.map Vertex.skel) :=
  mapFind_map_snd _ _ _

theorem mapKeys_map_snd {V W : Type} (f : V → W) (m : List (String × V)) :
    mapKeys (m.map (fun kp => (kp.1, f kp.2))) = mapKeys m := by
  simp [mapKeys, List.map_map, Function.comp_def]

theorem mapKeys_skel (g : Graph) : mapKeys g.skel.vertices = mapKeys g.vertices :=
  mapKeys_map_snd _ _

theorem edgeTotal_skel (m : List (String × Option Vertex)) :
    edgeTotal (m.map (fun kp => (kp.1, kp.2.map Vertex.skel))) = edgeTotal m := by
  induction m with
  | nil => rfl
  | cons x rest ih =>
    obtain ⟨k₁, p₁⟩ := x
    cases p₁ with
    | none => simpa [edgeTotal] using ih
    | some v => simp [edgeTotal, ih, Vertex.skel]

theorem skel_eq_fields {v v' : Vertex} (h : v'.skel = v.skel) :
    v'.vertexLabel = v.vertexLabel ∧ v'.adjacencyList = v.adjacencyList := by
  unfold Vertex.skel at h
  injection h with h1 h2 h3 h4
  exact ⟨h1, h3⟩

theorem find_of_skel_eq {g g' : Graph} (h : g'.skel = g.skel) {k : String} {v : Vertex}
    (hf : mapFind g.vertices k = some (some v)) :
    ∃ v', mapFind g'.vertices k = some (some v') ∧ v'.skel = v.skel := by
  have h1 := mapFind_skel g' k
  rw [h, mapFind_skel, hf] at h1
  cases hf' : mapFind g'.vertices k with
  | none => rw [hf'] at h1; simp at h1
  | some p =>
    cases p with
    | none => rw [hf'] at h1; simp at h1
    | some v' =>
      rw [hf'] at h1
      simp only [Option.map_some', Option.some.injEq] at h1
      exact ⟨v', rfl, h1.symm⟩

theorem VertexOK.of_skel {keys : List String} {k : String} {v v' : Vertex}
    (h : VertexOK keys k v) (hv : v'.skel = v.skel) : VertexOK keys k v' := by
  obtain ⟨h1, h2⟩ := skel_eq_fields hv
  exact
    { label := by rw [h1]; exact h.label
      sorted := by rw [h2]; exact h.sorted
      noSelf := by rw [h2]; exact h.noSelf
      ends := by rw [h2]; exact h.ends
      closed := by rw [h2]; exact h.closed }

theorem vertexOK_skel {keys : List String} {k : String} {v : Vertex} (h : VertexOK keys k v) :
    VertexOK keys k v.skel :=
  { label := h.label, sorted := h.sorted, noSelf := h.noSelf, ends := h.ends, closed := h.closed }

theorem inv_skel {g : Graph} (hg : g.Inv) : g.skel.Inv := by
  refine ⟨?_, ?_, ?_, ?_⟩
  · unfold KeysSorted
    rw [mapKeys_skel]
    exact hg.sorted
  · intro k p hp
    rw [mapKeys_skel]
    simp only [Graph.skel, List.mem_map] at hp
    obtain ⟨⟨k₀, p₀⟩, hmem, heq⟩ := hp
    simp only [Prod.mk.injEq] at heq
    obtain ⟨v, hv, hok⟩ := hg.slots k₀ p₀ hmem
    subst hv
    rw [← heq.1, ← heq.2]
    exact ⟨v.skel, rfl, vertexOK_skel hok⟩
  · simp only [Graph.skel, List.length_map]
    exact hg.nVertices
  · simp only [Graph.skel, edgeTotal_skel]
    exact hg.nEdges

theorem inv_of_skel_inv {g : Graph} (hg : g.skel.Inv) : g.Inv := by
  refine ⟨?_, ?_, ?_, ?_⟩
  · have := hg.sorted
    unfold KeysSorted at this ⊢
    rwa [mapKeys_skel] at this
  · intro k p hp
    have hmem : (k, p.map Vertex.skel) ∈ g.skel.vertices := by
      simp only [Graph.skel, List.mem_map]
      exact ⟨(k, p), hp, rfl⟩
    obtain ⟨v, hv, hok⟩ := hg.slots _ _ hmem
    rw [mapKeys_skel] at hok
    cases p with
    | none => simp at hv
    | some v' =>
      simp only [Option.map_some', Option.some.injEq] at hv
      exact ⟨v', rfl, hok.of_skel (v := v) (by rw [← hv]; simp [Vertex.skel])⟩
  · have := hg.nVertices
    simpa [Graph.skel] using this
  · have := hg.nEdges
    simpa [Graph.skel, edgeTotal_skel] using this

theorem inv_of_skel_eq {g g' : Graph} (h : g'.skel = g.skel) (hg : g.Inv) : g'.Inv :=
  inv_of_skel_inv (h ▸ inv_skel hg)

theorem neighbors_of_find {g : Graph} {k : String} {v : Vertex}
    (h : mapFind g.vertices k = some (some v)) : g.neighbors k = mapKeys v.adjacencyList := by
  simp [Graph.neighbors, Graph.findVertex, h]

theorem isMarked_of_find {g : Graph} {k : String} {v : Vertex}
    (h : mapFind g.vertices k = some (some v)) : g.isMarked k = v.visited := by
  simp [Graph.isMarked, Graph.findVertex, h]

theorem neighbors_of_absent {g : Graph} {k : String} (h : mapFind g.vertices k = none) :
    g.neighbors k = [] := by
  simp [Graph.neighbors, Graph.findVertex, h]

theorem isMarked_of_absent {g : Graph} {k : String} (h : mapFind g.vertices k = none) :
    g.isMarked k = false := by
  simp [Graph.isMarked, Graph.findVertex, h]

theorem keys_of_skel_eq {g g' : Graph} (h : g'.skel = g.skel) :
    mapKeys g'.vertices = mapKeys g.vertices := by
  rw [← mapKeys_skel g', h, mapKeys_skel]

theorem neighbors_of_skel_eq {g g' : Graph} (h : g'.skel = g.skel) (hg : g.Inv) (k : String) :
    g'.neighbors k = g.neighbors k := by
  rcases hg.find_cases k with ⟨hnone, hk⟩ | ⟨v, hv, -⟩
  · rw [neighbors_of_absent hnone, neighbors_of_absent]
    rw [mapFind_eq_none_iff, keys_of_skel_eq h]
    exact hk
  · obtain ⟨v', hv', hs⟩ := find_of_skel_eq h hv
    rw [neighbors_of_find hv, neighbors_of_find hv', (skel_eq_fields hs).2]

theorem Graph.Inv.neighbors_closed {g : Graph} (hg : g.Inv) {k n : String}
    (h : n ∈ g.neighbors k) : n ∈ mapKeys g.vertices := by
  rcases hg.find_cases k with ⟨hnone, -⟩ | ⟨v, hv, hok⟩
  · rw [neighbors_of_absent hnone] at h
    simp at h
  · rw [neighbors_of_find hv] at h
    exact hok.closed n h

theorem isMarked_set {g : Graph} {k : String} {v : Vertex}
    (h : mapFind g.vertices k = some (some v)) (v' : Vertex) (k' : String) :
    (g.setVertex k v').isMarked k' = if k' = k then v'.visited else g.isMarked k' := by
  unfold Graph.isMarked Graph.findVertex Graph.setVertex
  simp only [mapFind_mapSet, h]
  by_cases hk : k' = k
  · simp [hk]
  · simp [hk]

theorem find_set_self {g : Graph} {k : String} {v : Vertex}
    (h : mapFind g.vertices k = some (some v)) (v' : Vertex) :
    mapFind (g.setVertex k v').vertices k = some (some v') := by
  simp [Graph.setVertex, mapFind_mapSet, h]

theorem find_set_ne (g : Graph) {k k' : String} (h : k' ≠ k) (v' : Vertex) :
    mapFind (g.setVertex k v').vertices k' = mapFind g.vertices k' := by
  simp [Graph.setVertex, mapFind_mapSet, h]

/-! ## The neighbour cursor -/

theorem mapNext_append {V : Type} (pre : List (String × V)) (k : String) (e : V)
    (rest : List (String × V)) (h : k ∉ mapKeys pre) :
    mapNext (pre ++ (k, e) :: rest) k = mapBegin rest := by
  induction pre with
  | nil => simp [mapNext]
  | cons x pre ih =>
    obtain ⟨k₁, v₁⟩ := x
    have h1 : k₁ ≠ k := fun hk => h (by simp [mapKeys, hk])
    have h2 : k ∉ mapKeys pre := fun hk => h (by
      simp only [mapKeys, List.map_cons, List.mem_cons]
      exact Or.inr hk)
    simp only [List.cons_append, mapNext, h1, if_false]
    exact ih h2

theorem mapKeys_append {V : Type} (a b : List (String × V)) :
    mapKeys (a ++ b) = mapKeys a ++ mapKeys b := by
  simp [mapKeys]

theorem getNextNeighbor_at_end {v : Vertex} (h : v.currentNeighbor = none) :
    v.getNextNeighbor = (v, v.vertexLabel) := by
  simp [Vertex.getNextNeighbor, h]

/-- One call of `getNextNeighbor` with the cursor at the start of the entries `suf` that
follow the entries `pre`: the state of the iteration over `suf` is established. -/
theorem getNextNeighbor_step {keys : List String} {top : String} {v : Vertex}
    (hok : VertexOK keys top v) (pre suf : List (String × Edge))
    (hadj : v.adjacencyList = pre ++ suf) (hcur : v.currentNeighbor = mapBegin suf) :
    v.getNextNeighbor.1.skel = v.skel ∧ v.getNextNeighbor.1.visited = v.visited ∧
    CursorState top v.getNextNeighbor.1.currentNeighbor v.getNextNeighbor.2 suf := by
  cases suf with
  | nil =>
    simp only [mapBegin] at hcur
    rw [getNextNeighbor_at_end hcur]
    exact ⟨rfl, rfl, hok.label⟩
  | cons x rest =>
    obtain ⟨n, e⟩ := x
    simp only [mapBegin] at hcur
    have hnd := hok.sorted.nodup
    rw [hadj, mapKeys_append] at hnd
    have hn : n ∉ mapKeys pre := by
      intro hmem
      have := (List.nodup_append.mp hnd).2.2
      exact this hmem (by simp [mapKeys])
    have hget : v.getNextNeighbor = ({ v with currentNeighbor := mapBegin rest }, n) := by
      simp only [Vertex.getNextNeighbor, hcur, hadj, mapNext_append pre n e rest hn]
    rw [hget]
    exact ⟨rfl, rfl, rfl, rfl⟩

/-! ## The inner loops of the traversals -/

theorem decide_mem_keys_snoc_ne {k n : String} (pre : List (String × Edge)) (e : Edge)
    (h : k ≠ n) :
    decide (k ∈ List.map Prod.fst (pre ++ [(n, e)])) = decide (k ∈ List.map Prod.fst pre) := by
  simp [h]

theorem decide_mem_keys_snoc_self (n : String) (pre : List (String × Edge)) (e : Edge) :
    decide (n ∈ List.map Prod.fst (pre ++ [(n, e)])) = true := by
  simp

theorem except_bind_ok {ε α β : Type} (a : α) (f : α → Except ε β) :
    (Except.ok a >>= f) = f a := rfl

theorem Graph.Inv.find_neighbor {g : Graph} (hg : g.Inv) {top : String} {vt : Vertex}
    (h : mapFind g.vertices top = some (some vt)) {n : String}
    (hn : n ∈ mapKeys vt.adjacencyList) :
    n ≠ top ∧ ∃ vn, mapFind g.vertices n = some (some vn) := by
  have hok := hg.ok_of_find h
  refine ⟨fun heq => hok.noSelf (heq ▸ hn), ?_⟩
  obtain ⟨vn, hvn, -⟩ := hg.find (hok.closed n hn)
  exact ⟨vn, hvn⟩

theorem dfsNeighbors_run {g : Graph} (hg : g.Inv) {top : String} (suf : List (String × Edge)) :
    ∀ (pre : List (String × Edge)) (fuel : Nat) (g1 : Graph) (vt : Vertex) (neighbor : String)
      (neiSt : List String),
      g1.skel = g.skel → (∀ k, g1.isMarked k = g.isMarked k) →
      mapFind g1.vertices top = some (some vt) → vt.adjacencyList = pre ++ suf →
      CursorState top vt.currentNeighbor neighbor suf → suf.length < fuel →
      ∃ g2, dfsNeighbors fuel g1 top neighbor neiSt
          = .ok (g2, ((mapKeys suf).filter (fun n => !g.isMarked n)).reverse ++ neiSt) ∧
        g2.skel = g.skel ∧ ∀ k, g2.isMarked k = g.isMarked k := by
  induction suf with
  | nil =>
    intro pre fuel g1 vt neighbor neiSt hskel hmark hfind hadj hcur hfuel
    cases fuel with
    | zero => exact absurd hfuel (by simp)
    | succ f =>
      simp only [CursorState] at hcur
      refine ⟨g1, ?_, hskel, hmark⟩
      simp [dfsNeighbors, hcur, mapKeys]
  | cons x rest ih =>
    obtain ⟨n, e⟩ := x
    intro pre fuel g1 vt neighbor neiSt hskel hmark hfind hadj hcur hfuel
    cases fuel with
    | zero => exact absurd hfuel (by simp)
    | succ f =>
      obtain ⟨hnb, hcursor⟩ := hcur
      subst hnb
      have g1inv := inv_of_skel_eq hskel hg
      have hok := g1inv.ok_of_find hfind
      have hmem : neighbor ∈ mapKeys vt.adjacencyList := by
        rw [hadj, mapKeys_append]
        simp [mapKeys]
      obtain ⟨hne, vn, hvn⟩ := g1inv.find_neighbor hfind hmem
      have hvis : vn.visited = g.isMarked neighbor := by
        rw [← hmark, isMarked_of_find hvn]
      have hadj' : vt.adjacencyList = (pre ++ [(neighbor, e)]) ++ rest := by
        rw [hadj]; simp
      obtain ⟨hs1, hs2, hs3⟩ := getNextNeighbor_step hok (pre ++ [(neighbor, e)]) rest hadj' hcursor
      have hskel2 : (g1.setVertex top vt.getNextNeighbor.1).skel = g.skel := by
        rw [skel_set hfind hs1, hskel]
      have hmark2 : ∀ k, (g1.setVertex top vt.getNextNeighbor.1).isMarked k
            = g.isMarked k := by
        intro k
        rw [isMarked_set hfind]
        split
        · rename_i hk
          rw [hs2, hk, ← hmark, isMarked_of_find hfind]
        · exact hmark k
      have hadj2 : vt.getNextNeighbor.1.adjacencyList = (pre ++ [(neighbor, e)]) ++ rest := by
        rw [(skel_eq_fields hs1).2, hadj']
      obtain ⟨g2, hrun, hg2s, hg2m⟩ := ih (pre ++ [(neighbor, e)]) f _ vt.getNextNeighbor.1
        vt.getNextNeighbor.2 (if !vn.visited then neighbor :: neiSt else neiSt)
        hskel2 hmark2 (find_set_self hfind _) hadj2 hs3 (by simpa using hfuel)
      refine ⟨g2, ?_, hg2s, hg2m⟩
      simp only [dfsNeighbors, hne, if_false, Vertex.isVisited]
      rw [call_read hvn (fun v => v.visited)]
      simp only [except_bind_ok]
      rw [call_ok hfind]
      simp only [except_bind_ok]
      rw [hrun]
      congr 2
      simp only [mapKeys, List.map_cons, List.filter_cons, hvis]
      cases g.isMarked neighbor <;> simp

theorem dfsPush_run {g : Graph} (hg : g.Inv) (neiSt : List String) :
    ∀ (g1 : Graph) (st : List String), g1.skel = g.skel →
      (∀ n, n ∈ neiSt → n ∈ mapKeys g.vertices) →
      ∃ g2, dfsPush g1 neiSt st = .ok (g2, neiSt.reverse ++ st) ∧ g2.skel = g.skel ∧
        ∀ k, g2.isMarked k = (g1.isMarked k || decide (k ∈ neiSt)) := by
  induction neiSt with
  | nil =>
    intro g1 st hskel _
    exact ⟨g1, by simp [dfsPush], hskel, by simp⟩
  | cons n rest ih =>
    intro g1 st hskel hreg
    have g1inv := inv_of_skel_eq hskel hg
    have hn : n ∈ mapKeys g1.vertices := by
      rw [keys_of_skel_eq hskel]
      exact hreg n (by simp)
    obtain ⟨vn, hvn, -⟩ := g1inv.find hn
    have hskel2 : (g1.setVertex n vn.visit).skel
        = g.skel := by
      rw [skel_set hvn (by simp [Vertex.skel, Vertex.visit]), hskel]
    obtain ⟨g2, hrun, hg2s, hg2m⟩ := ih _ (n :: st) hskel2
      (fun m hm => hreg m (List.mem_cons_of_mem _ hm))
    refine ⟨g2, ?_, hg2s, ?_⟩
    · simp only [dfsPush]
      rw [call_ok hvn]
      simp only [except_bind_ok]
      rw [hrun]
      simp
    · intro k
      rw [hg2m k, isMarked_set hvn]
      by_cases hk : k = n
      · simp [hk, Vertex.visit]
      · simp [hk]

theorem bfsNeighbors_run {g : Graph} (hg : g.Inv) {front : String}
    (suf : List (String × Edge)) :
    ∀ (pre : List (String × Edge)) (fuel : Nat) (g1 : Graph) (vt : Vertex) (neighbor : String)
      (q : List String),
      g1.skel = g.skel →
      (∀ k, g1.isMarked k = (g.isMarked k || decide (k ∈ mapKeys pre))) →
      mapFind g1.vertices front = some (some vt) → vt.adjacencyList = pre ++ suf →
      CursorState front vt.currentNeighbor neighbor suf → suf.length < fuel →
      ∃ g2, bfsNeighbors fuel g1 front neighbor q
          = .ok (g2, q ++ (mapKeys suf).filter (fun n => !g.isMarked n)) ∧
        g2.skel = g.skel ∧
        ∀ k, g2.isMarked k = (g.isMarked k || decide (k ∈ mapKeys vt.adjacencyList)) := by
  induction suf with
  | nil =>
    intro pre fuel g1 vt neighbor q hskel hmark hfind hadj hcur hfuel
    cases fuel with
    | zero => exact absurd hfuel (by simp)
    | succ f =>
      simp only [CursorState] at hcur
      refine ⟨g1, ?_, hskel, ?_⟩
      · simp [bfsNeighbors, hcur, mapKeys]
      · intro k
        rw [hmark k, hadj]
        simp
  | cons x rest ih =>
    obtain ⟨n, e⟩ := x
    intro pre fuel g1 vt neighbor q hskel hmark hfind hadj hcur hfuel
    cases fuel with
    | zero => exact absurd hfuel (by simp)
    | succ f =>
      obtain ⟨hnb, hcursor⟩ := hcur
      subst hnb
      have g1inv := inv_of_skel_eq hskel hg
      have hok := g1inv.ok_of_find hfind
      have hmem : neighbor ∈ mapKeys vt.adjacencyList := by
        rw [hadj, mapKeys_append]
        simp [mapKeys]
      obtain ⟨hne, vn, hvn⟩ := g1inv.find_neighbor hfind hmem
      have hnpre : neighbor ∉ mapKeys pre := by
        have hnd := hok.sorted.nodup
        rw [hadj, mapKeys_append] at hnd
        intro hmem'
        exact (List.nodup_append.mp hnd).2.2 hmem' (by simp [mapKeys])
      have hvis : vn.visited = g.isMarked neighbor := by
        rw [← isMarked_of_find hvn, hmark]
        simp [hnpre]
      have hadj' : vt.adjacencyList = (pre ++ [(neighbor, e)]) ++ rest := by
        rw [hadj]; simp
      obtain ⟨hs1, hs2, hs3⟩ := getNextNeighbor_step hok (pre ++ [(neighbor, e)]) rest hadj' hcursor
      have hadj2 : vt.getNextNeighbor.1.adjacencyList = (pre ++ [(neighbor, e)]) ++ rest := by
        rw [(skel_eq_fields hs1).2, hadj']
      have hadjeq : vt.getNextNeighbor.1.adjacencyList = vt.adjacencyList := (skel_eq_fields hs1).2
      have hfn : front ≠ neighbor := fun h => hne h.symm
      cases hm : g.isMarked neighbor with
      | true =>
        -- already visited: the queue is left alone
        have hskel2 : (g1.setVertex front vt.getNextNeighbor.1).skel = g.skel := by
          rw [skel_set hfind hs1, hskel]
        have hmark2 : ∀ k, (g1.setVertex front vt.getNextNeighbor.1).isMarked k
              = (g.isMarked k || decide (k ∈ mapKeys (pre ++ [(neighbor, e)]))) := by
          intro k
          rw [isMarked_set hfind]
          by_cases hk : k = front
          · rw [if_pos hk, hs2, ← isMarked_of_find hfind, hk, hmark front]
            unfold mapKeys
            rw [decide_mem_keys_snoc_ne pre e hfn]
          · rw [if_neg hk]
            by_cases hkn : k = neighbor
            · rw [hkn, hm, hmark neighbor, hm]
              rfl
            · rw [hmark k]
              unfold mapKeys
              rw [decide_mem_keys_snoc_ne pre e hkn]
        obtain ⟨g2, hrun, hg2s, hg2m⟩ := ih (pre ++ [(neighbor, e)]) f _ vt.getNextNeighbor.1
          vt.getNextNeighbor.2 q hskel2 hmark2 (find_set_self hfind _) hadj2 hs3
          (by simpa using hfuel)
        refine ⟨g2, ?_, hg2s, ?_⟩
        · simp only [bfsNeighbors, hne, if_false, Vertex.isVisited]
          rw [call_read hvn (fun v => v.visited)]
          simp only [except_bind_ok, hvis, hm]
          simp only [Bool.not_true, Bool.false_eq_true, if_false]
          rw [call_ok hfind]
          simp only [except_bind_ok]
          rw [hrun]
          simp [mapKeys, List.filter_cons, hm]
        · intro k
          rw [hg2m k, hadjeq]
      | false =>
        -- unvisited: marked and appended to the queue
        have hfind1 : mapFind (g1.setVertex neighbor vn.visit).vertices front
              = some (some vt) := by
          rw [find_set_ne g1 (fun h : front = neighbor => hne h.symm)]
          exact hfind
        have hskel1 : (g1.setVertex neighbor vn.visit).skel = g.skel := by
          rw [skel_set hvn (by simp [Vertex.skel, Vertex.visit]), hskel]
        have hskel2 : ((g1.setVertex neighbor vn.visit).setVertex front vt.getNextNeighbor.1).skel = g.skel := by
          rw [skel_set hfind1 hs1, hskel1]
        have hmark2 : ∀ k, ((g1.setVertex neighbor vn.visit).setVertex front vt.getNextNeighbor.1).isMarked k
              = (g.isMarked k || decide (k ∈ mapKeys (pre ++ [(neighbor, e)]))) := by
          intro k
          rw [isMarked_set hfind1, isMarked_set hvn]
          by_cases hk : k = front
          · rw [if_pos hk, hs2, ← isMarked_of_find hfind, hk, hmark front]
            unfold mapKeys
            rw [decide_mem_keys_snoc_ne pre e hfn]
          · rw [if_neg hk]
            by_cases hkn : k = neighbor
            · rw [if_pos hkn, hkn]
              unfold mapKeys
              rw [decide_mem_keys_snoc_self]
              simp [Vertex.visit]
            · rw [if_neg hkn, hmark k]
              unfold mapKeys
              rw [decide_mem_keys_snoc_ne pre e hkn]
        obtain ⟨g2, hrun, hg2s, hg2m⟩ := ih (pre ++ [(neighbor, e)]) f _ vt.getNextNeighbor.1
          vt.getNextNeighbor.2 (q ++ [neighbor]) hskel2 hmark2 (find_set_self hfind1 _) hadj2 hs3
          (by simpa using hfuel)
        refine ⟨g2, ?_, hg2s, ?_⟩
        · simp only [bfsNeighbors, hne, if_false, Vertex.isVisited]
          rw [call_read hvn (fun v => v.visited)]
          simp only [except_bind_ok, hvis, hm]
          simp only [Bool.not_false, if_true]
          rw [call_ok hvn]
          simp only [except_bind_ok]
          rw [call_ok hfind1]
          simp only [except_bind_ok]
          rw [hrun]
          simp [mapKeys, List.filter_cons, hm]
        · intro k
          rw [hg2m k, hadjeq]

/-! ## The worklist traversal: termination, no repetition, reachability -/

/-- The number of vertices of `V` that are not in `M`. -/
theorem unmarked_card_step (V M new : List String) (hsub : ∀ y, y ∈ new → y ∈ V)
    (hdisj : ∀ y, y ∈ new → y ∉ M) (hnd : new.Nodup) :
    (V.toFinset \ (new ++ M).toFinset).card + new.length = (V.toFinset \ M.toFinset).card := by
  have h1 : V.toFinset \ (new ++ M).toFinset = (V.toFinset \ M.toFinset) \ new.toFinset := by
    ext y
    simp only [Finset.mem_sdiff, List.mem_toFinset, List.mem_append, not_or]
    tauto
  have h2 : new.toFinset ⊆ V.toFinset \ M.toFinset := by
    intro y hy
    simp only [Finset.mem_sdiff, List.mem_toFinset] at hy ⊢
    exact ⟨hsub y hy, hdisj y hy⟩
  rw [h1, Finset.card_sdiff h2, List.toFinset_card_of_nodup hnd]
  have h3 := Finset.card_le_card h2
  rw [List.toFinset_card_of_nodup hnd] at h3
  omega

theorem traverse_spec (adj : String → List String) (depthFirst : Bool) (V : List String)
    (hV : ∀ x, x ∈ V → ∀ y, y ∈ adj x → y ∈ V) (hadj : ∀ x, (adj x).Nodup) :
    ∀ (n : Nat) (M W : List String), (∀ x, x ∈ M → x ∈ V) → (∀ x, x ∈ W → x ∈ M) → W.Nodup →
      (V.toFinset \ M.toFinset).card + W.length < n →
      ∃ out, traverse adj depthFirst n M W = some out ∧ TraverseResult adj M W out := by
  intro n
  induction n with
  | zero =>
    intro M W _ _ _ h
    exact absurd h (by simp)
  | succ n ih =>
    intro M W hM hW hnd hn
    cases W with
    | nil =>
      refine ⟨[], rfl, ?_⟩
      exact
        { nodup := List.nodup_nil
          fresh := by simp
          work := by simp
          closed := by simp
          reach := by simp }
    | cons x W' =>
      have hxM : x ∈ M := hW x (by simp)
      have hnew_sub : ∀ y, y ∈ (adj x).filter (fun y => decide (y ∉ M)) → y ∈ V := by
        intro y hy
        exact hV x (hM x hxM) y (List.mem_filter.mp hy).1
      have hnew_disj : ∀ y, y ∈ (adj x).filter (fun y => decide (y ∉ M)) → y ∉ M := by
        intro y hy
        simpa using (List.mem_filter.mp hy).2
      have hnew_nd : ((adj x).filter (fun y => decide (y ∉ M))).Nodup := (hadj x).filter _
      have hcard := unmarked_card_step V M _ hnew_sub hnew_disj hnew_nd
      have hx' : x ∉ W' := (List.nodup_cons.mp hnd).1
      have hW'nd : W'.Nodup := (List.nodup_cons.mp hnd).2
      have hdisj : ∀ y, y ∈ (adj x).filter (fun y => decide (y ∉ M)) → y ∉ W' := by
        intro y hy hyW
        exact hnew_disj y hy (hW y (List.mem_cons_of_mem _ hyW))
      have hM' : ∀ y, y ∈ (adj x).filter (fun y => decide (y ∉ M)) ++ M → y ∈ V := by
        intro y hy
        rcases List.mem_append.mp hy with h | h
        · exact hnew_sub y h
        · exact hM y h
      -- the next worklist
      have key : ∀ W'' : List String,
          (∀ y, y ∈ W'' ↔ y ∈ (adj x).filter (fun y => decide (y ∉ M)) ∨ y ∈ W') →
          W''.Nodup →
          W''.length = ((adj x).filter (fun y => decide (y ∉ M))).length + W'.length →
          ∃ out, (traverse adj depthFirst n ((adj x).filter (fun y => decide (y ∉ M)) ++ M)
              W'').map (fun out => x :: out) = some out ∧
            TraverseResult adj M (x :: W') out := by
        intro W'' hmem hnd'' hlen
        have hW'' : ∀ y, y ∈ W'' → y ∈ (adj x).filter (fun y => decide (y ∉ M)) ++ M := by
          intro y hy
          rcases (hmem y).mp hy with h | h
          · exact List.mem_append.mpr (Or.inl h)
          · exact List.mem_append.mpr (Or.inr (hW y (List.mem_cons_of_mem _ h)))
        obtain ⟨out', hrun, hres⟩ := ih _ W'' hM' hW'' hnd'' (by
          simp only [List.length_cons] at hn
          omega)
        refine ⟨x :: out', by rw [hrun]; rfl, ?_⟩
        refine
          { nodup := ?_, fresh := ?_, work := ?_, closed := ?_, reach := ?_ }
        · refine List.nodup_cons.mpr ⟨?_, hres.nodup⟩
          intro hx
          rcases hres.fresh x hx with h | h
          · rcases (hmem x).mp h with h1 | h1
            · exact hnew_disj x h1 hxM
            · exact hx' h1
          · exact h (List.mem_append.mpr (Or.inr hxM))
        · intro y hy
          rcases List.mem_cons.mp hy with h | h
          · exact Or.inl (by simp [h])
          · rcases hres.fresh y h with h1 | h1
            · rcases (hmem y).mp h1 with h2 | h2
              · exact Or.inr (hnew_disj y h2)
              · exact Or.inl (List.mem_cons_of_mem _ h2)
            · exact Or.inr (fun hyM => h1 (List.mem_append.mpr (Or.inr hyM)))
        · intro y hy
          rcases List.mem_cons.mp hy with h | h
          · simp [h]
          · exact List.mem_cons_of_mem _ (hres.work y ((hmem y).mpr (Or.inr h)))
        · intro y hy z hz
          rcases List.mem_cons.mp hy with h | h
          · subst h
            by_cases hzM : z ∈ M
            · exact Or.inl hzM
            · right
              refine List.mem_cons_of_mem _ (hres.work z ((hmem z).mpr (Or.inl ?_)))
              exact List.mem_filter.mpr ⟨hz, by simpa using hzM⟩
          · rcases hres.closed y h z hz with h1 | h1
            · rcases List.mem_append.mp h1 with h2 | h2
              · exact Or.inr (List.mem_cons_of_mem _ (hres.work z ((hmem z).mpr (Or.inl h2))))
              · exact Or.inl h2
            · exact Or.inr (List.mem_cons_of_mem _ h1)
        · intro y hy
          rcases List.mem_cons.mp hy with h | h
          · exact ⟨x, by simp, by rw [h]⟩
          · obtain ⟨s, hs, hreach⟩ := hres.reach y h
            rcases (hmem s).mp hs with h1 | h1
            · refine ⟨x, by simp, Relation.ReflTransGen.head ?_ hreach⟩
              exact (List.mem_filter.mp h1).1
            · exact ⟨s, List.mem_cons_of_mem _ h1, hreach⟩
      cases depthFirst with
      | true =>
        simp only [traverse, if_true]
        refine key _ (fun y => List.mem_append) ?_ (List.length_append _ _)
        exact List.nodup_append.mpr ⟨hnew_nd, hW'nd, fun y h1 h2 => hdisj y h1 h2⟩
      | false =>
        simp only [traverse, Bool.false_eq_true, if_false]
        refine key _ (fun y => by rw [List.mem_append]; exact Or.comm) ?_
          (by rw [List.length_append]; omega)
        exact List.nodup_append.mpr ⟨hW'nd, hnew_nd, fun y h1 h2 => hdisj y h2 h1⟩

/-- From a single marked start vertex the traversal outputs exactly the vertices reachable
from it, each once. -/
theorem traverse_start (adj : String → List String) (depthFirst : Bool) (V : List String)
    (hV : ∀ x, x ∈ V → ∀ y, y ∈ adj x → y ∈ V) (hadj : ∀ x, (adj x).Nodup) (start : String)
    (hs : start ∈ V) (n : Nat) (hn : V.length + 1 < n) :
    ∃ out, traverse adj depthFirst n [start] [start] = some out ∧ out.Nodup ∧
      ∀ v, v ∈ out ↔ Relation.ReflTransGen (fun u v => v ∈ adj u) start v := by
  have hcard : (V.toFinset \ [start].toFinset).card ≤ V.length :=
    (Finset.card_le_card Finset.sdiff_subset).trans (List.toFinset_card_le V)
  obtain ⟨out, hrun, hres⟩ := traverse_spec adj depthFirst V hV hadj n [start] [start]
    (by simpa using hs) (by simp) (by simp) (by simp only [List.length_singleton]; omega)
  refine ⟨out, hrun, hres.nodup, fun v => ⟨?_, ?_⟩⟩
  · intro hv
    obtain ⟨s, hs', hreach⟩ := hres.reach v hv
    rw [List.mem_singleton.mp hs'] at hreach
    exact hreach
  · intro hreach
    induction hreach with
    | refl => exact hres.work start (by simp)
    | tail _ hstep ih =>
      rcases hres.closed _ ih _ hstep with h | h
      · rw [List.mem_singleton.mp h]
        exact hres.work start (by simp)
      · exact h

/-! ## The traversals refine the worklist traversal -/

theorem length_le_edgeTotal {m : List (String × Option Vertex)} {k : String} {v : Vertex}
    (h : mapFind m k = some (some v)) : v.adjacencyList.length ≤ edgeTotal m := by
  induction m with
  | nil => simp [mapFind] at h
  | cons x rest ih =>
    obtain ⟨k₁, p₁⟩ := x
    by_cases h1 : k₁ = k
    · simp only [mapFind, h1, if_true, Option.some.injEq] at h
      subst h
      simp [edgeTotal]
    · simp only [mapFind, h1, if_false] at h
      have := ih h
      cases p₁ <;> simp only [edgeTotal] <;> omega

theorem edgeTotal_of_skel_eq {g g' : Graph} (h : g'.skel = g.skel) :
    edgeTotal g'.vertices = edgeTotal g.vertices := by
  have h1 : edgeTotal g'.skel.vertices = edgeTotal g.skel.vertices := by rw [h]
  simpa [Graph.skel, edgeTotal_skel] using h1

theorem unvisit_skel (g : Graph) : g.unvisitVertices.skel = g.skel := by
  unfold Graph.skel Graph.unvisitVertices
  simp only [List.map_map]
  congr 1
  apply List.map_congr_left
  intro kp _
  obtain ⟨k, p⟩ := kp
  cases p <;> simp [Vertex.skel, Vertex.unvisit]

theorem isMarked_unvisit (g : Graph) (k : String) : g.unvisitVertices.isMarked k = false := by
  unfold Graph.isMarked Graph.findVertex
  rw [mapFind_unvisitVertices]
  cases hf : mapFind g.vertices k with
  | none => rfl
  | some p => cases p <;> simp [Vertex.unvisit]

theorem filter_unmarked_congr {g : Graph} {M : List String}
    (hmark : ∀ k, g.isMarked k = decide (k ∈ M)) (l : List String) :
    l.filter (fun n => !g.isMarked n) = l.filter (fun y => decide (y ∉ M)) := by
  apply List.filter_congr
  intro y _
  rw [hmark y]
  simp

/-- The start of the neighbour iteration: `resetNeighbor` followed by `getNextNeighbor`. -/
theorem reset_getNext {g1 : Graph} (hg1 : g1.Inv) {x : String} {vx : Vertex}
    (hvx : mapFind g1.vertices x = some (some vx)) :
    ∃ g2 vt nb, g2.skel = g1.skel ∧ (∀ k, g2.isMarked k = g1.isMarked k) ∧
      mapFind g2.vertices x = some (some vt) ∧ vt.adjacencyList = [] ++ vx.adjacencyList ∧
      CursorState x vt.currentNeighbor nb vx.adjacencyList ∧
      (g1.call x (fun v => (v.resetNeighbor, ())) >>= fun r =>
        r.1.call x Vertex.getNextNeighbor) = .ok (g2, nb) := by
  have hok := hg1.ok_of_find hvx
  have hok' : VertexOK (mapKeys g1.vertices) x vx.resetNeighbor :=
    hok.of_skel (by simp [Vertex.skel, Vertex.resetNeighbor])
  obtain ⟨hs1, hs2, hs3⟩ := getNextNeighbor_step hok' [] vx.adjacencyList
    (by simp [Vertex.resetNeighbor]) (by simp [Vertex.resetNeighbor])
  have hfind1 := find_set_self hvx vx.resetNeighbor
  have hsk1 : (g1.setVertex x vx.resetNeighbor).skel = g1.skel :=
    skel_set hvx (by simp [Vertex.skel, Vertex.resetNeighbor])
  refine ⟨(g1.setVertex x vx.resetNeighbor).setVertex x vx.resetNeighbor.getNextNeighbor.1,
    vx.resetNeighbor.getNextNeighbor.1, vx.resetNeighbor.getNextNeighbor.2, ?_, ?_,
    find_set_self hfind1 _, ?_, hs3, ?_⟩
  · rw [skel_set hfind1 hs1, hsk1]
  · intro k
    rw [isMarked_set hfind1, isMarked_set hvx]
    by_cases hk : k = x
    · simp only [hk, if_true, hs2]
      rw [isMarked_of_find hvx]
      rfl
    · simp [hk]
  · rw [(skel_eq_fields hs1).2]
    simp [Vertex.resetNeighbor]
  · rw [call_ok hvx]
    simp only [except_bind_ok]
    rw [call_ok hfind1]

theorem dfs_step {g : Graph} (hg : g.Inv) {g1 : Graph} (hskel : g1.skel = g.skel) {x : String}
    (hx : x ∈ mapKeys g.vertices) (M W : List String)
    (hmark : ∀ k, g1.isMarked k = decide (k ∈ M)) (fuel : Nat)
    (hfuel : edgeTotal g.vertices < fuel) :
    ∃ g4, g4.skel = g.skel ∧
      (∀ k, g4.isMarked k
        = decide (k ∈ (g.neighbors x).filter (fun y => decide (y ∉ M)) ++ M)) ∧
      dfsLoop (fuel + 1) g1 (x :: W) =
        match dfsLoop fuel g4 ((g.neighbors x).filter (fun y => decide (y ∉ M)) ++ W) with
        | .ok r => .ok (r.1, x :: r.2)
        | .error e => .error e := by
  have hg1 := inv_of_skel_eq hskel hg
  have hx1 : x ∈ mapKeys g1.vertices := by rw [keys_of_skel_eq hskel]; exact hx
  obtain ⟨vx, hvx, hok⟩ := hg1.find hx1
  have hnb : g.neighbors x = mapKeys vx.adjacencyList := by
    rw [← neighbors_of_skel_eq hskel hg, neighbors_of_find hvx]
  obtain ⟨g2, vt, nb, hsk2, hmk2, hfind2, hadj2, hcur2, hrun2⟩ := reset_getNext hg1 hvx
  have hg2 := inv_of_skel_eq hsk2 hg1
  have hdeg : vx.adjacencyList.length < fuel := by
    have := length_le_edgeTotal hvx
    rw [edgeTotal_of_skel_eq hskel] at this
    omega
  obtain ⟨g3, hrun3, hsk3, hmk3⟩ := dfsNeighbors_run hg2 vx.adjacencyList [] fuel g2 vt nb []
    rfl (fun _ => rfl) hfind2 hadj2 hcur2 hdeg
  have hg3 := inv_of_skel_eq hsk3 hg2
  have hmk3' : ∀ k, g3.isMarked k = decide (k ∈ M) := fun k => by
    rw [hmk3, hmk2, hmark]
  have hmk2' : ∀ k, g2.isMarked k = decide (k ∈ M) := fun k => by rw [hmk2, hmark]
  rw [filter_unmarked_congr hmk2'] at hrun3
  have hreg : ∀ n, n ∈ ((mapKeys vx.adjacencyList).filter (fun y => decide (y ∉ M))).reverse
      → n ∈ mapKeys g3.vertices := by
    intro n hn
    rw [List.mem_reverse] at hn
    rw [keys_of_skel_eq hsk3, keys_of_skel_eq hsk2]
    exact hok.closed n (List.mem_filter.mp hn).1
  obtain ⟨g4, hrun4, hsk4, hmk4⟩ := dfsPush_run hg3 _ g3 W rfl hreg
  refine ⟨g4, by rw [hsk4, hsk3, hsk2, hskel], ?_, ?_⟩
  · intro k
    rw [hmk4, hmk3', hnb]
    simp only [List.mem_reverse, List.mem_append]
    by_cases h1 : k ∈ M <;> simp [h1]
  · have hbind : dfsLoop (fuel + 1) g1 (x :: W) =
        ((g1.call x (fun v => (v.resetNeighbor, ())) >>= fun r =>
          r.1.call x Vertex.getNextNeighbor) >>= fun r2 =>
            dfsNeighbors fuel r2.1 x r2.2 [] >>= fun r3 =>
              dfsPush r3.1 r3.2 W >>= fun r4 =>
                dfsLoop fuel r4.1 r4.2 >>= fun r5 => .ok (r5.1, x :: r5.2)) := by
      simp only [dfsLoop]
      cases g1.call x (fun v => (v.resetNeighbor, ())) with
      | error e => rfl
      | ok r => rfl
    rw [hbind, hrun2]
    simp only [except_bind_ok]
    rw [hrun3]
    simp only [except_bind_ok, List.append_nil]
    rw [hrun4]
    simp only [except_bind_ok, List.reverse_reverse, hnb]
    cases dfsLoop fuel g4 ((mapKeys vx.adjacencyList).filter (fun y => decide (y ∉ M)) ++ W) with
    | error e => rfl
    | ok r => rfl

theorem bfs_step {g : Graph} (hg : g.Inv) {g1 : Graph} (hskel : g1.skel = g.skel) {x : String}
    (hx : x ∈ mapKeys g.vertices) (M W : List String)
    (hmark : ∀ k, g1.isMarked k = decide (k ∈ M)) (fuel : Nat)
    (hfuel : edgeTotal g.vertices < fuel) :
    ∃ g3, g3.skel = g.skel ∧
      (∀ k, g3.isMarked k
        = decide (k ∈ (g.neighbors x).filter (fun y => decide (y ∉ M)) ++ M)) ∧
      bfsLoop (fuel + 1) g1 (x :: W) =
        match bfsLoop fuel g3 (W ++ (g.neighbors x).filter (fun y => decide (y ∉ M))) with
        | .ok r => .ok (r.1, x :: r.2)
        | .error e => .error e := by
  have hg1 := inv_of_skel_eq hskel hg
  have hx1 : x ∈ mapKeys g1.vertices := by rw [keys_of_skel_eq hskel]; exact hx
  obtain ⟨vx, hvx, hok⟩ := hg1.find hx1
  have hnb : g.neighbors x = mapKeys vx.adjacencyList := by
    rw [← neighbors_of_skel_eq hskel hg, neighbors_of_find hvx]
  obtain ⟨g2, vt, nb, hsk2, hmk2, hfind2, hadj2, hcur2, hrun2⟩ := reset_getNext hg1 hvx
  have hg2 := inv_of_skel_eq hsk2 hg1
  have hdeg : vx.adjacencyList.length < fuel := by
    have := length_le_edgeTotal hvx
    rw [edgeTotal_of_skel_eq hskel] at this
    omega
  obtain ⟨g3, hrun3, hsk3, hmk3⟩ := bfsNeighbors_run hg2 vx.adjacencyList [] fuel g2 vt nb W
    rfl (fun k => by simp [mapKeys]) hfind2 hadj2 hcur2 hdeg
  have hmk2' : ∀ k, g2.isMarked k = decide (k ∈ M) := fun k => by rw [hmk2, hmark]
  rw [filter_unmarked_congr hmk2'] at hrun3
  have hadjeq : vt.adjacencyList = vx.adjacencyList := by simpa using hadj2
  refine ⟨g3, by rw [hsk3, hsk2, hskel], ?_, ?_⟩
  · intro k
    rw [hmk3, hmk2', hnb, hadjeq]
    simp only [List.mem_append, List.mem_filter]
    by_cases h1 : k ∈ M <;> simp [h1]
  · have hbind : bfsLoop (fuel + 1) g1 (x :: W) =
        ((g1.call x (fun v => (v.resetNeighbor, ())) >>= fun r =>
          r.1.call x Vertex.getNextNeighbor) >>= fun r2 =>
            bfsNeighbors fuel r2.1 x r2.2 W >>= fun r3 =>
              bfsLoop fuel r3.1 r3.2 >>= fun r5 => .ok (r5.1, x :: r5.2)) := by
      simp only [bfsLoop]
      cases g1.call x (fun v => (v.resetNeighbor, ())) with
      | error e => rfl
      | ok r => rfl
    rw [hbind, hrun2]
    simp only [except_bind_ok]
    rw [hrun3]
    simp only [except_bind_ok, hnb]
    cases bfsLoop fuel g3 (W ++ (mapKeys vx.adjacencyList).filter (fun y => decide (y ∉ M))) with
    | error e => rfl
    | ok r => rfl

theorem Graph.Inv.neighbors_nodup {g : Graph} (hg : g.Inv) (k : String) :
    (g.neighbors k).Nodup := by
  rcases hg.find_cases k with ⟨hnone, -⟩ | ⟨v, hv, hok⟩
  · rw [neighbors_of_absent hnone]
    exact List.nodup_nil
  · rw [neighbors_of_find hv]
    exact hok.sorted.nodup

theorem dfsLoop_refines {g : Graph} (hg : g.Inv) :
    ∀ (n : Nat) (g1 : Graph) (M W out : List String), g1.skel = g.skel →
      (∀ k, g1.isMarked k = decide (k ∈ M)) → (∀ x, x ∈ W → x ∈ mapKeys g.vertices) →
      traverse g.neighbors true n M W = some out →
      ∀ fuel, n + edgeTotal g.vertices < fuel →
        ∃ g2, dfsLoop fuel g1 W = .ok (g2, out) ∧ g2.skel = g.skel := by
  intro n
  induction n with
  | zero =>
    intro g1 M W out _ _ _ h
    simp [traverse] at h
  | succ n ih =>
    intro g1 M W out hskel hmark hW hrun fuel hfuel
    cases fuel with
    | zero => exact absurd hfuel (by omega)
    | succ f =>
      cases W with
      | nil =>
        simp only [traverse, Option.some.injEq] at hrun
        subst hrun
        exact ⟨g1, rfl, hskel⟩
      | cons x W' =>
        simp only [traverse, if_true, Option.map_eq_some'] at hrun
        obtain ⟨out', hrun', hout⟩ := hrun
        subst hout
        obtain ⟨g4, hsk4, hmk4, hstep⟩ := dfs_step hg hskel (hW x (by simp)) M W' hmark f
          (by omega)
        have hW'' : ∀ y, y ∈ (g.neighbors x).filter (fun y => decide (y ∉ M)) ++ W' →
            y ∈ mapKeys g.vertices := by
          intro y hy
          rcases List.mem_append.mp hy with h | h
          · exact hg.neighbors_closed (List.mem_filter.mp h).1
          · exact hW y (List.mem_cons_of_mem _ h)
        obtain ⟨g5, hrun5, hsk5⟩ := ih g4 _ _ out' hsk4 hmk4 hW'' hrun' f (by omega)
        refine ⟨g5, ?_, hsk5⟩
        rw [hstep, hrun5]

theorem bfsLoop_refines {g : Graph} (hg : g.Inv) :
    ∀ (n : Nat) (g1 : Graph) (M W out : List String), g1.skel = g.skel →
      (∀ k, g1.isMarked k = decide (k ∈ M)) → (∀ x, x ∈ W → x ∈ mapKeys g.vertices) →
      traverse g.neighbors false n M W = some out →
      ∀ fuel, n + edgeTotal g.vertices < fuel →
        ∃ g2, bfsLoop fuel g1 W = .ok (g2, out) ∧ g2.skel = g.skel := by
  intro n
  induction n with
  | zero =>
    intro g1 M W out _ _ _ h
    simp [traverse] at h
  | succ n ih =>
    intro g1 M W out hskel hmark hW hrun fuel hfuel
    cases fuel with
    | zero => exact absurd hfuel (by omega)
    | succ f =>
      cases W with
      | nil =>
        simp only [traverse, Option.some.injEq] at hrun
        subst hrun
        exact ⟨g1, rfl, hskel⟩
      | cons x W' =>
        simp only [traverse, Bool.false_eq_true, if_false, Option.map_eq_some'] at hrun
        obtain ⟨out', hrun', hout⟩ := hrun
        subst hout
        obtain ⟨g4, hsk4, hmk4, hstep⟩ := bfs_step hg hskel (hW x (by simp)) M W' hmark f
          (by omega)
        have hW'' : ∀ y, y ∈ W' ++ (g.neighbors x).filter (fun y => decide (y ∉ M)) →
            y ∈ mapKeys g.vertices := by
          intro y hy
          rcases List.mem_append.mp hy with h | h
          · exact hW y (List.mem_cons_of_mem _ h)
          · exact hg.neighbors_closed (List.mem_filter.mp h).1
        obtain ⟨g5, hrun5, hsk5⟩ := ih g4 _ _ out' hsk4 hmk4 hW'' hrun' f (by omega)
        refine ⟨g5, ?_, hsk5⟩
        rw [hstep, hrun5]

/-- The prologue shared by the traversals on a registered start label: all vertices are
unvisited, then the start vertex is marked. -/
theorem traversal_prologue {g : Graph} (hg : g.Inv) {start : String}
    (hs : start ∈ mapKeys g.vertices) :
    ∃ v g2, g.unvisitVertices.index start = (g.unvisitVertices, some v) ∧
      g.unvisitVertices.call start (fun v => (v.visit, ())) = .ok (g2, ()) ∧
      g2.skel = g.skel ∧ ∀ k, g2.isMarked k = decide (k ∈ [start]) := by
  have hgu : g.unvisitVertices.Inv := inv_of_skel_eq (unvisit_skel g) hg
  have hs' : start ∈ mapKeys g.unvisitVertices.vertices := by
    rw [keys_of_skel_eq (unvisit_skel g)]; exact hs
  obtain ⟨v, hv, -⟩ := hgu.find hs'
  refine ⟨v, g.unvisitVertices.setVertex start v.visit, ?_, call_ok hv _, ?_, ?_⟩
  · simp [Graph.index, hv]
  · rw [skel_set hv (by simp [Vertex.skel, Vertex.visit]), unvisit_skel]
  · intro k
    rw [isMarked_set hv, isMarked_unvisit]
    by_cases hk : k = start <;> simp [hk, Vertex.visit]

theorem depthFirstTraversal_refines {g : Graph} (hg : g.Inv) {start : String}
    (hs : start ∈ mapKeys g.vertices) {n : Nat} {out : List String}
    (hrun : traverse g.neighbors true n [start] [start] = some out) (fuel : Nat)
    (hfuel : n + edgeTotal g.vertices < fuel) :
    ∃ g2, g.depthFirstTraversal fuel start = .ok (g2, out) ∧ g2.skel = g.skel := by
  obtain ⟨v, g2, hidx, hcall, hsk, hmk⟩ := traversal_prologue hg hs
  obtain ⟨g3, hrun3, hsk3⟩ := dfsLoop_refines hg n g2 [start] [start] out hsk hmk
    (by simpa using hs) hrun fuel hfuel
  refine ⟨g3, ?_, hsk3⟩
  unfold Graph.depthFirstTraversal
  rw [hidx]
  simp only [hcall, except_bind_ok]
  exact hrun3

theorem breadthFirstTraversal_refines {g : Graph} (hg : g.Inv) {start : String}
    (hs : start ∈ mapKeys g.vertices) {n : Nat} {out : List String}
    (hrun : traverse g.neighbors false n [start] [start] = some out) (fuel : Nat)
    (hfuel : n + edgeTotal g.vertices < fuel) :
    ∃ g2, g.breadthFirstTraversal fuel start = .ok (g2, out) ∧ g2.skel = g.skel := by
  obtain ⟨v, g2, hidx, hcall, hsk, hmk⟩ := traversal_prologue hg hs
  obtain ⟨g3, hrun3, hsk3⟩ := bfsLoop_refines hg n g2 [start] [start] out hsk hmk
    (by simpa using hs) hrun fuel hfuel
  refine ⟨g3, ?_, hsk3⟩
  unfold Graph.breadthFirstTraversal
  rw [hidx]
  simp only [hcall, except_bind_ok]
  exact hrun3

theorem traverse_fuel_mono (adj : String → List String) (depthFirst : Bool) :
    ∀ (n : Nat) (M W out : List String), traverse adj depthFirst n M W = some out →
      ∀ m, n ≤ m → traverse adj depthFirst m M W = some out := by
  intro n
  induction n with
  | zero =>
    intro M W out h
    simp [traverse] at h
  | succ n ih =>
    intro M W out h m hm
    cases m with
    | zero => exact absurd hm (by omega)
    | succ m =>
      cases W with
      | nil => simpa [traverse] using h
      | cons x W' =>
        simp only [traverse, Option.map_eq_some'] at h ⊢
        obtain ⟨out', h1, h2⟩ := h
        exact ⟨out', ih _ _ _ h1 m (by omega), h2⟩

theorem hasEdge_iff_mem_neighbors (g : Graph) (u v : String) :
    g.hasEdge u v = true ↔ v ∈ g.neighbors u := by
  unfold Graph.hasEdge Graph.neighbors
  cases g.findVertex u with
  | none => simp
  | some x =>
    simp only
    cases hf : mapFind x.adjacencyList v with
    | none =>
      simp only [Option.isSome_none, Bool.false_eq_true, false_iff]
      exact (mapFind_eq_none_iff _ _).mp hf
    | some e =>
      simp only [Option.isSome_some, true_iff]
      exact mapFind_some_key hf

theorem reachable_iff (g : Graph) (s v : String) :
    Relation.ReflTransGen (fun u v => g.hasEdge u v = true) s v ↔
      Relation.ReflTransGen (fun u v => v ∈ g.neighbors u) s v := by
  have h : (fun u v => g.hasEdge u v = true) = (fun u v => v ∈ g.neighbors u) := by
    funext u v
    exact propext (hasEdge_iff_mem_neighbors g u v)
  rw [h]

/-- Both traversals of a well-formed graph from a registered start label terminate and
pass to `visit` exactly the labels reachable from the start, each once. -/
theorem traversal_visits_reachable {g : Graph} (hg : g.Inv) {start : String}
    (hs : start ∈ mapKeys g.vertices) (depthFirst : Bool) (fuel : Nat)
    (hfuel : g.vertices.length + edgeTotal g.vertices + 2 < fuel) :
    ∃ g2 out,
      (if depthFirst then g.depthFirstTraversal fuel start
        else g.breadthFirstTraversal fuel start) = .ok (g2, out) ∧
      g2.skel = g.skel ∧ out.Nodup ∧
      (∀ v, v ∈ out ↔ Relation.ReflTransGen (fun u v => g.hasEdge u v = true) start v) ∧
      traverse g.neighbors depthFirst (g.vertices.length + 2) [start] [start] = some out := by
  have hlen : (mapKeys g.vertices).length = g.vertices.length := by simp [mapKeys]
  obtain ⟨out, hrun, hnd, hreach⟩ := traverse_start g.neighbors depthFirst (mapKeys g.vertices)
    (fun x _ y hy => hg.neighbors_closed hy) hg.neighbors_nodup start hs
    (g.vertices.length + 2) (by omega)
  cases depthFirst with
  | true =>
    obtain ⟨g2, h2, hsk⟩ := depthFirstTraversal_refines hg hs hrun fuel (by omega)
    exact ⟨g2, out, by simpa using h2, hsk, hnd, fun v => by rw [reachable_iff]; exact hreach v,
      hrun⟩
  | false =>
    obtain ⟨g2, h2, hsk⟩ := breadthFirstTraversal_refines hg hs hrun fuel (by omega)
    exact ⟨g2, out, by simpa using h2, hsk, hnd, fun v => by rw [reachable_iff]; exact hreach v,
      hrun⟩

/-! ## Claim on the set of visited labels -/

theorem length_eq_card_of_nodup {out : List String} (hnd : out.Nodup) {P : String → Prop}
    (hmem : ∀ v, v ∈ out ↔ P v) (S : Finset String) (hS : ∀ v, v ∈ S ↔ P v) :
    out.length = S.card := by
  have h : out.toFinset = S := by
    ext v
    rw [List.mem_toFinset, hmem, hS]
  rw [← h, List.toFinset_card_of_nodup hnd]

/-- C3: on a graph built by `add` calls and a start label registered in it, with enough
fuel `depthFirstTraversal` and `breadthFirstTraversal` each return, and the labels passed
to `visit` contain no label twice and are exactly the labels reachable from the start by
directed edges (the start included); so `visit` is called as many times as the reachable
set has elements. -/
theorem c3_traversals_visit_reachable_once (calls : List (String × String × Int))
    (start : String) (hs : start ∈ mapKeys (buildGraph calls).vertices) :
    ∃ N, ∀ fuel, N ≤ fuel →
      (∃ g2 out, (buildGraph calls).depthFirstTraversal fuel start = .ok (g2, out) ∧
        out.Nodup ∧
        (∀ v, v ∈ out ↔
          Relation.ReflTransGen (fun u v => (buildGraph calls).hasEdge u v = true) start v) ∧
        ∀ S : Finset String,
          (∀ v, v ∈ S ↔
            Relation.ReflTransGen (fun u v => (buildGraph calls).hasEdge u v = true) start v) →
          out.length = S.card) ∧
      (∃ g2 out, (buildGraph calls).breadthFirstTraversal fuel start = .ok (g2, out) ∧
        out.Nodup ∧
        (∀ v, v ∈ out ↔
          Relation.ReflTransGen (fun u v => (buildGraph calls).hasEdge u v = true) start v) ∧
        ∀ S : Finset String,
          (∀ v, v ∈ S ↔
            Relation.ReflTransGen (fun u v => (buildGraph calls).hasEdge u v = true) start v) →
          out.length = S.card) := by
  have hg := buildGraph_inv calls
  refine ⟨(buildGraph calls).vertices.length + edgeTotal (buildGraph calls).vertices + 3, ?_⟩
  intro fuel hfuel
  constructor
  · obtain ⟨g2, out, hrun, -, hnd, hmem, -⟩ :=
      traversal_visits_reachable hg hs true fuel (by omega)
    exact ⟨g2, out, by simpa using hrun, hnd, hmem, length_eq_card_of_nodup hnd hmem⟩
  · obtain ⟨g2, out, hrun, -, hnd, hmem, -⟩ :=
      traversal_visits_reachable hg hs false fuel (by omega)
    exact ⟨g2, out, by simpa using hrun, hnd, hmem, length_eq_card_of_nodup hnd hmem⟩

/-- Witness for C3: the example graph of the specification, traversed from `B`. -/
theorem c3_traversals_visit_reachable_once_witness :
    ∃ N, ∀ fuel, N ≤ fuel →
      (∃ g2 out, exampleGraph.depthFirstTraversal fuel "B" = .ok (g2, out) ∧
        out.Nodup ∧
        (∀ v, v ∈ out ↔
          Relation.ReflTransGen (fun u v => exampleGraph.hasEdge u v = true) "B" v) ∧
        ∀ S : Finset String,
          (∀ v, v ∈ S ↔
            Relation.ReflTransGen (fun u v => exampleGraph.hasEdge u v = true) "B" v) →
          out.length = S.card) ∧
      (∃ g2 out, exampleGraph.breadthFirstTraversal fuel "B" = .ok (g2, out) ∧
        out.Nodup ∧
        (∀ v, v ∈ out ↔
          Relation.ReflTransGen (fun u v => exampleGraph.hasEdge u v = true) "B" v) ∧
        ∀ S : Finset String,
          (∀ v, v ∈ S ↔
            Relation.ReflTransGen (fun u v => exampleGraph.hasEdge u v = true) "B" v) →
          out.length = S.card) :=
  c3_traversals_visit_reachable_once
    [("A", "B", 1), ("A", "C", 4), ("B", "C", 2), ("B", "D", 5), ("C", "D", 1)] "B" (by decide)

/-! ## Breadth-first order -/

theorem hopsTo_reach {E : String → String → Prop} {s : String} :
    ∀ (n : Nat) (v : String), HopsTo E s n v → Relation.ReflTransGen E s v := by
  intro n
  induction n with
  | zero =>
    intro v h
    simp only [HopsTo] at h
    rw [h]
  | succ n ih =>
    intro v h
    obtain ⟨u, hu, huv⟩ := h
    exact Relation.ReflTransGen.tail (ih u hu) huv

theorem reach_hopsTo {E : String → String → Prop} {s v : String}
    (h : Relation.ReflTransGen E s v) : ∃ n, HopsTo E s n v := by
  induction h with
  | refl => exact ⟨0, rfl⟩
  | tail _ hstep ih =>
    obtain ⟨n, hn⟩ := ih
    exact ⟨n + 1, _, hn, hstep⟩

theorem exists_isMinHops {E : String → String → Prop} {s v : String}
    (h : Relation.ReflTransGen E s v) : ∃ d, IsMinHops E s v d := by
  classical
  have hex := reach_hopsTo h
  exact ⟨Nat.find hex, Nat.find_spec hex, fun n hn => Nat.find_min' hex hn⟩

theorem isMinHops_unique {E : String → String → Prop} {s v : String} {d d' : Nat}
    (h : IsMinHops E s v d) (h' : IsMinHops E s v d') : d = d' :=
  Nat.le_antisymm (h.2 d' h'.1) (h'.2 d h.1)

theorem exists_hops_fun (E : String → String → Prop) (s : String) :
    ∃ d : String → Nat, ∀ v, Relation.ReflTransGen E s v → IsMinHops E s v (d v) := by
  classical
  have h : ∀ v, ∃ k, Relation.ReflTransGen E s v → IsMinHops E s v k := by
    intro v
    by_cases hv : Relation.ReflTransGen E s v
    · obtain ⟨k, hk⟩ := exists_isMinHops hv
      exact ⟨k, fun _ => hk⟩
    · exact ⟨0, fun h => absurd h hv⟩
  choose d hd using h
  exact ⟨d, hd⟩

theorem traverse_bfs_prefix (adj : String → List String) :
    ∀ (n : Nat) (M W out : List String), traverse adj false n M W = some out →
      ∃ rest, out = W ++ rest := by
  intro n
  induction n with
  | zero =>
    intro M W out h
    simp [traverse] at h
  | succ n ih =>
    intro M W out h
    cases W with
    | nil => exact ⟨out, rfl⟩
    | cons x W' =>
      simp only [traverse, Bool.false_eq_true, if_false, Option.map_eq_some'] at h
      obtain ⟨out', h1, h2⟩ := h
      obtain ⟨rest, hrest⟩ := ih _ _ _ h1
      refine ⟨(adj x).filter (fun y => decide (y ∉ M)) ++ rest, ?_⟩
      rw [← h2, hrest]
      simp

/-- While `x` is at the front of the queue, every vertex within `d x` hops is marked. -/
theorem bfs_within_marked (adj : String → List String) (start : String) (d : String → Nat)
    (hd : ∀ v, Relation.ReflTransGen (fun u v => v ∈ adj u) start v →
      IsMinHops (fun u v => v ∈ adj u) start v (d v))
    {M W : List String} {x : String} (hS : BfsState adj start d M (x :: W)) :
    ∀ (k : Nat) (y : String), HopsTo (fun u v => v ∈ adj u) start k y → k ≤ d x → y ∈ M := by
  intro k
  induction k with
  | zero =>
    intro y hy _
    simp only [HopsTo] at hy
    rw [hy]
    exact hS.start_mem
  | succ k ih =>
    intro y hy hk
    obtain ⟨u, hu, huy⟩ := hy
    have huM := ih u hu (by omega)
    have hdu : d u ≤ k := (hd u (hopsTo_reach k u hu)).2 k hu
    have huW : u ∉ x :: W := by
      intro hmem
      rcases List.mem_cons.mp hmem with h | h
      · rw [h] at hdu
        omega
      · have := (List.pairwise_cons.mp hS.sorted).1 u h
        omega
    exact hS.closed u huM huW y huy

theorem bfs_new_level (adj : String → List String) (start : String) (d : String → Nat)
    (hd : ∀ v, Relation.ReflTransGen (fun u v => v ∈ adj u) start v →
      IsMinHops (fun u v => v ∈ adj u) start v (d v))
    {M W : List String} {x : String} (hS : BfsState adj start d M (x :: W)) {y : String}
    (hy : y ∈ (adj x).filter (fun y => decide (y ∉ M))) : d y = d x + 1 := by
  have hyadj : y ∈ adj x := (List.mem_filter.mp hy).1
  have hyM : y ∉ M := by simpa using (List.mem_filter.mp hy).2
  have hxr := hS.reach x (hS.queue x (by simp))
  have hyr : Relation.ReflTransGen (fun u v => v ∈ adj u) start y :=
    Relation.ReflTransGen.tail hxr hyadj
  have h1 : d y ≤ d x + 1 := (hd y hyr).2 (d x + 1) ⟨x, (hd x hxr).1, hyadj⟩
  have h2 : ¬ d y ≤ d x := fun hle =>
    hyM (bfs_within_marked adj start d hd hS (d y) y (hd y hyr).1 hle)
  omega

theorem bfs_state_step (adj : String → List String) (start : String) (d : String → Nat)
    (hd : ∀ v, Relation.ReflTransGen (fun u v => v ∈ adj u) start v →
      IsMinHops (fun u v => v ∈ adj u) start v (d v))
    {M W : List String} {x : String} (hS : BfsState adj start d M (x :: W)) :
    BfsState adj start d ((adj x).filter (fun y => decide (y ∉ M)) ++ M)
      (W ++ (adj x).filter (fun y => decide (y ∉ M))) := by
  have hxM : x ∈ M := hS.queue x (by simp)
  have hlevel := fun y hy => bfs_new_level adj start d hd hS (y := y) hy
  have hWlo : ∀ w, w ∈ W → d x ≤ d w := (List.pairwise_cons.mp hS.sorted).1
  have hWhi : ∀ w, w ∈ W → d w ≤ d x + 1 := fun w hw =>
    hS.spread x (by simp) w (List.mem_cons_of_mem _ hw)
  refine
    { start_mem := List.mem_append.mpr (Or.inr hS.start_mem)
      reach := ?_, queue := ?_, closed := ?_, sorted := ?_, spread := ?_ }
  · intro y hy
    rcases List.mem_append.mp hy with h | h
    · exact Relation.ReflTransGen.tail (hS.reach x hxM) (List.mem_filter.mp h).1
    · exact hS.reach y h
  · intro y hy
    rcases List.mem_append.mp hy with h | h
    · exact List.mem_append.mpr (Or.inr (hS.queue y (List.mem_cons_of_mem _ h)))
    · exact List.mem_append.mpr (Or.inl h)
  · intro y hy hyW z hz
    have hyW' : y ∉ W := fun h => hyW (List.mem_append.mpr (Or.inl h))
    have hynew : y ∉ (adj x).filter (fun y => decide (y ∉ M)) :=
      fun h => hyW (List.mem_append.mpr (Or.inr h))
    rcases List.mem_append.mp hy with h | h
    · exact absurd h hynew
    · by_cases hyx : y = x
      · subst hyx
        by_cases hzM : z ∈ M
        · exact List.mem_append.mpr (Or.inr hzM)
        · exact List.mem_append.mpr (Or.inl (List.mem_filter.mpr ⟨hz, by simpa using hzM⟩))
      · have : y ∉ x :: W := by
          intro hmem
          rcases List.mem_cons.mp hmem with h1 | h1
          · exact hyx h1
          · exact hyW' h1
        exact List.mem_append.mpr (Or.inr (hS.closed y h this z hz))
  · rw [List.pairwise_append]
    refine ⟨(List.pairwise_cons.mp hS.sorted).2, ?_, ?_⟩
    · rw [List.pairwise_iff_forall_sublist]
      intro a b hab
      have ha := hlevel a (hab.subset (by simp))
      have hb := hlevel b (hab.subset (by simp))
      omega
    · intro a ha b hb
      have := hWhi a ha
      have := hlevel b hb
      omega
  · intro a ha b hb
    have hrange : ∀ c, c ∈ W ++ (adj x).filter (fun y => decide (y ∉ M)) →
        d x ≤ d c ∧ d c ≤ d x + 1 := by
      intro c hc
      rcases List.mem_append.mp hc with h | h
      · exact ⟨hWlo c h, hWhi c h⟩
      · have := hlevel c h
        omega
    have := hrange a ha
    have := hrange b hb
    omega

theorem bfs_sorted (adj : String → List String) (start : String) (d : String → Nat)
    (hd : ∀ v, Relation.ReflTransGen (fun u v => v ∈ adj u) start v →
      IsMinHops (fun u v => v ∈ adj u) start v (d v)) :
    ∀ (n : Nat) (M W out : List String), BfsState adj start d M W →
      traverse adj false n M W = some out →
      out.Pairwise (fun a b => d a ≤ d b) ∧
      ∀ lo, (∀ a, a ∈ W → lo ≤ d a) → ∀ b, b ∈ out → lo ≤ d b := by
  intro n
  induction n with
  | zero =>
    intro M W out _ h
    simp [traverse] at h
  | succ n ih =>
    intro M W out hS h
    cases W with
    | nil =>
      simp only [traverse, Option.some.injEq] at h
      subst h
      exact ⟨List.Pairwise.nil, by simp⟩
    | cons x W' =>
      simp only [traverse, Bool.false_eq_true, if_false, Option.map_eq_some'] at h
      obtain ⟨out', h1, h2⟩ := h
      subst h2
      have hS' := bfs_state_step adj start d hd hS
      obtain ⟨hpw, hlo⟩ := ih _ _ _ hS' h1
      have hWlo : ∀ w, w ∈ W' → d x ≤ d w := (List.pairwise_cons.mp hS.sorted).1
      have hnext : ∀ lo, lo ≤ d x → ∀ a,
          a ∈ W' ++ (adj x).filter (fun y => decide (y ∉ M)) → lo ≤ d a := by
        intro lo hle a ha
        rcases List.mem_append.mp ha with h | h
        · have := hWlo a h
          omega
        · have := bfs_new_level adj start d hd hS h
          omega
      refine ⟨List.pairwise_cons.mpr ⟨?_, hpw⟩, ?_⟩
      · intro b hb
        exact hlo (d x) (hnext (d x) (Nat.le_refl _)) b hb
      · intro lo hW b hb
        have hx := hW x (by simp)
        rcases List.mem_cons.mp hb with h | h
        · rw [h]; exact hx
        · exact hlo lo (hnext lo hx) b h

theorem before_of_pairwise {R : String → String → Prop} {l : List String} {a b : String}
    (hpw : l.Pairwise R) (h : Before l a b) : R a b := by
  obtain ⟨l1, l2, hl, hb⟩ := h
  rw [hl, List.pairwise_append] at hpw
  exact (List.pairwise_cons.mp hpw.2.1).1 b hb

theorem before_cons {l : List String} {a b : String} (x : String) (h : Before l a b) :
    Before (x :: l) a b := by
  obtain ⟨l1, l2, hl, hb⟩ := h
  exact ⟨x :: l1, l2, by rw [hl]; rfl, hb⟩

theorem before_append_left {l : List String} {a b : String} (l' : List String)
    (h : Before l a b) : Before (l' ++ l) a b := by
  obtain ⟨l1, l2, hl, hb⟩ := h
  exact ⟨l' ++ l1, l2, by rw [hl]; simp, hb⟩

theorem before_append_right {l : List String} {a b : String} (l' : List String)
    (h : Before l a b) : Before (l ++ l') a b := by
  obtain ⟨l1, l2, hl, hb⟩ := h
  exact ⟨l1, l2 ++ l', by rw [hl]; simp, List.mem_append.mpr (Or.inl hb)⟩

theorem before_of_sorted {l : List String} (hl : l.Pairwise (fun a b => strLt a b = true))
    {a b : String} (ha : a ∈ l) (hb : b ∈ l) (hab : strLt a b = true) : Before l a b := by
  induction l with
  | nil => simp at ha
  | cons x l ih =>
    obtain ⟨hx, hl'⟩ := List.pairwise_cons.mp hl
    rcases List.mem_cons.mp ha with h1 | h1
    · rcases List.mem_cons.mp hb with h2 | h2
      · rw [h1, h2, strLt_irrefl] at hab
        exact absurd hab (by simp)
      · exact ⟨[], l, by rw [h1]; rfl, h2⟩
    · rcases List.mem_cons.mp hb with h2 | h2
      · have := hx a h1
        rw [h2, strLt_asymm this] at hab
        exact absurd hab (by simp)
      · exact before_cons x (ih hl' h1 h2)

theorem firstWith_cons {l : List String} {p : String → Prop} {x d : String}
    (h : FirstWith (x :: l) p d) : (d = x ∧ p x) ∨ (¬ p x ∧ FirstWith l p d) := by
  obtain ⟨l1, l2, hl, hp, hfirst⟩ := h
  cases l1 with
  | nil =>
    simp only [List.nil_append, List.cons.injEq] at hl
    exact Or.inl ⟨hl.1.symm, hl.1 ▸ hp⟩
  | cons y l1 =>
    simp only [List.cons_append, List.cons.injEq] at hl
    right
    refine ⟨?_, l1, l2, hl.2, hp, fun z hz => hfirst z (List.mem_cons_of_mem _ hz)⟩
    rw [hl.1]
    exact hfirst y (by simp)

/-- In a breadth-first run, two unmarked vertices that are first reached from the same
visited vertex are visited in ascending label order. -/
theorem bfs_siblings (adj : String → List String)
    (hadj : ∀ x, (adj x).Pairwise (fun a b => strLt a b = true)) :
    ∀ (n : Nat) (M W out : List String), traverse adj false n M W = some out →
      ∀ x u v, FirstWith out (fun y => u ∈ adj y) x → FirstWith out (fun y => v ∈ adj y) x →
        u ∉ M → v ∉ M → strLt u v = true → Before out u v := by
  intro n
  induction n with
  | zero =>
    intro M W out h
    simp [traverse] at h
  | succ n ih =>
    intro M W out h x u v hu hv huM hvM huv
    cases W with
    | nil =>
      simp only [traverse, Option.some.injEq] at h
      subst h
      obtain ⟨l1, l2, hl, -⟩ := hu
      simp at hl
    | cons w W' =>
      simp only [traverse, Bool.false_eq_true, if_false, Option.map_eq_some'] at h
      obtain ⟨out', h1, h2⟩ := h
      subst h2
      rcases firstWith_cons hu with ⟨hxw, huw⟩ | ⟨huw, hu'⟩
      · rcases firstWith_cons hv with ⟨-, hvw⟩ | ⟨hvw, -⟩
        · -- both are discovered from the head of the queue
          obtain ⟨rest, hrest⟩ := traverse_bfs_prefix adj _ _ _ _ h1
          have hun : u ∈ (adj w).filter (fun y => decide (y ∉ M)) :=
            List.mem_filter.mpr ⟨huw, by simpa using huM⟩
          have hvn : v ∈ (adj w).filter (fun y => decide (y ∉ M)) :=
            List.mem_filter.mpr ⟨hvw, by simpa using hvM⟩
          have hb := before_of_sorted ((hadj w).filter _) hun hvn huv
          rw [hrest]
          exact before_cons w (before_append_right rest (before_append_left W' hb))
        · obtain ⟨l1, l2, hl, hp, -⟩ := hv
          rw [hxw] at hp
          exact absurd hp hvw
      · rcases firstWith_cons hv with ⟨hxw, hvw⟩ | ⟨hvw, hv'⟩
        · obtain ⟨l1, l2, hl, hp, -⟩ := hu
          rw [hxw] at hp
          exact absurd hp huw
        · have huM' : u ∉ (adj w).filter (fun y => decide (y ∉ M)) ++ M := by
            intro hmem
            rcases List.mem_append.mp hmem with h | h
            · exact huw (List.mem_filter.mp h).1
            · exact huM h
          have hvM' : v ∉ (adj w).filter (fun y => decide (y ∉ M)) ++ M := by
            intro hmem
            rcases List.mem_append.mp hmem with h | h
            · exact hvw (List.mem_filter.mp h).1
            · exact hvM h
          exact before_cons w (ih _ _ _ h1 x u v hu' hv' huM' hvM' huv)

theorem bfsState_init (adj : String → List String) (start : String) (d : String → Nat) :
    BfsState adj start d [start] [start] :=
  { start_mem := by simp
    reach := by
      intro y hy
      rw [List.mem_singleton.mp hy]
    queue := fun _ h => h
    closed := fun y h1 h2 => absurd h1 h2
    sorted := List.pairwise_singleton _ _
    spread := by
      intro a ha b hb
      rw [List.mem_singleton.mp ha, List.mem_singleton.mp hb]
      omega }

theorem Graph.Inv.neighbors_sorted {g : Graph} (hg : g.Inv) (k : String) :
    (g.neighbors k).Pairwise (fun a b => strLt a b = true) := by
  rcases hg.find_cases k with ⟨hnone, -⟩ | ⟨v, hv, hok⟩
  · rw [neighbors_of_absent hnone]
    exact List.Pairwise.nil
  · rw [neighbors_of_find hv]
    exact hok.sorted

theorem before_mem {l : List String} {a b : String} (h : Before l a b) : a ∈ l ∧ b ∈ l := by
  obtain ⟨l1, l2, hl, hb⟩ := h
  rw [hl]
  exact ⟨by simp, by simp [hb]⟩

theorem edge_rel_eq (g : Graph) :
    (fun u v => g.hasEdge u v = true) = (fun u v => v ∈ g.neighbors u) := by
  funext u v
  exact propext (hasEdge_iff_mem_neighbors g u v)

/-- The breadth-first traversal of a well-formed graph visits in level order, and visits
the vertices first reached from one vertex in ascending label order. -/
theorem breadthFirst_order {g : Graph} (hg : g.Inv) {start : String}
    (hs : start ∈ mapKeys g.vertices) (fuel : Nat)
    (hfuel : g.vertices.length + edgeTotal g.vertices + 2 < fuel) :
    ∃ g2 out, g.breadthFirstTraversal fuel start = .ok (g2, out) ∧
      (∀ u v, Before out u v → ∃ du dv,
        IsMinHops (fun a b => g.hasEdge a b = true) start u du ∧
        IsMinHops (fun a b => g.hasEdge a b = true) start v dv ∧ du ≤ dv) ∧
      (∀ x u v, FirstWith out (fun y => g.hasEdge y u = true) x →
        FirstWith out (fun y => g.hasEdge y v = true) x → u ≠ start → v ≠ start →
        strLt u v = true → Before out u v) := by
  obtain ⟨g2, out, hrun, -, -, hmem, htr⟩ := traversal_visits_reachable hg hs false fuel hfuel
  refine ⟨g2, out, by simpa using hrun, ?_, ?_⟩
  · obtain ⟨d, hd⟩ := exists_hops_fun (fun u v => v ∈ g.neighbors u) start
    have hsorted := (bfs_sorted g.neighbors start d hd _ _ _ _
      (bfsState_init g.neighbors start d) htr).1
    intro u v huv
    obtain ⟨hu, hv⟩ := before_mem huv
    rw [edge_rel_eq]
    refine ⟨d u, d v, hd u ?_, hd v ?_, before_of_pairwise hsorted huv⟩
    · rw [← reachable_iff]; exact (hmem u).mp hu
    · rw [← reachable_iff]; exact (hmem v).mp hv
  · intro x u v hu hv hus hvs huv
    have hu' : FirstWith out (fun y => u ∈ g.neighbors y) x := by
      obtain ⟨l1, l2, hl, hp, hfirst⟩ := hu
      exact ⟨l1, l2, hl, (hasEdge_iff_mem_neighbors g x u).mp hp,
        fun y hy h => hfirst y hy ((hasEdge_iff_mem_neighbors g y u).mpr h)⟩
    have hv' : FirstWith out (fun y => v ∈ g.neighbors y) x := by
      obtain ⟨l1, l2, hl, hp, hfirst⟩ := hv
      exact ⟨l1, l2, hl, (hasEdge_iff_mem_neighbors g x v).mp hp,
        fun y hy h => hfirst y hy ((hasEdge_iff_mem_neighbors g y v).mpr h)⟩
    exact bfs_siblings g.neighbors hg.neighbors_sorted _ _ _ _ htr x u v hu' hv'
      (by simpa using hus) (by simpa using hvs) huv

/-! ## Claim on the breadth-first order -/

/-- C4: on a graph built by `add` calls and a start label registered in it, with enough
fuel `breadthFirstTraversal` returns and visits in level order: when `u` is visited before
`v`, the minimum number of edges on a path from the start to `u` is at most that to `v`;
and two vertices first discovered from the same dequeued vertex `x` (the first visited
vertex with an edge to them; the start is discovered from no vertex) are visited in
ascending label order.  On the example graph the traversal from `A` visits `A, B, C, D`. -/
theorem c4_breadthFirst_level_order (calls : List (String × String × Int)) (start : String)
    (hs : start ∈ mapKeys (buildGraph calls).vertices) :
    (∃ N, ∀ fuel, N ≤ fuel →
      ∃ g2 out, (buildGraph calls).breadthFirstTraversal fuel start = .ok (g2, out) ∧
        (∀ u v, Before out u v → ∃ du dv,
          IsMinHops (fun a b => (buildGraph calls).hasEdge a b = true) start u du ∧
          IsMinHops (fun a b => (buildGraph calls).hasEdge a b = true) start v dv ∧ du ≤ dv) ∧
        (∀ x u v, FirstWith out (fun y => (buildGraph calls).hasEdge y u = true) x →
          FirstWith out (fun y => (buildGraph calls).hasEdge y v = true) x →
          u ≠ start → v ≠ start → strLt u v = true → Before out u v)) ∧
    (exampleGraph.breadthFirstTraversal 10 "A").map (fun r => r.2)
      = .ok ["A", "B", "C", "D"] := by
  refine ⟨⟨(buildGraph calls).vertices.length + edgeTotal (buildGraph calls).vertices + 3, ?_⟩,
    by decide⟩
  intro fuel hfuel
  exact breadthFirst_order (buildGraph_inv calls) hs fuel (by omega)

/-- Witness for C4: the example graph of the specification, traversed from `A`. -/
theorem c4_breadthFirst_level_order_witness :
    (∃ N, ∀ fuel, N ≤ fuel →
      ∃ g2 out, exampleGraph.breadthFirstTraversal fuel "A" = .ok (g2, out) ∧
        (∀ u v, Before out u v → ∃ du dv,
          IsMinHops (fun a b => exampleGraph.hasEdge a b = true) "A" u du ∧
          IsMinHops (fun a b => exampleGraph.hasEdge a b = true) "A" v dv ∧ du ≤ dv) ∧
        (∀ x u v, FirstWith out (fun y => exampleGraph.hasEdge y u = true) x →
          FirstWith out (fun y => exampleGraph.hasEdge y v = true) x →
          u ≠ "A" → v ≠ "A" → strLt u v = true → Before out u v)) ∧
    (exampleGraph.breadthFirstTraversal 10 "A").map (fun r => r.2)
      = .ok ["A", "B", "C", "D"] :=
  c4_breadthFirst_level_order
    [("A", "B", 1), ("A", "C", 4), ("B", "C", 2), ("B", "D", 5), ("C", "D", 1)] "A" (by decide)

/-! ## The shortest-path loops refine `spLoop` -/

theorem relaxEdge_graph (cur : String) (s : DijkstraState) (n : String) (w : Int) :
    (relaxEdge cur s n w).graph = s.graph := by
  unfold relaxEdge
  split <;> rfl

theorem relaxEdge_with_graph (cur : String) (s : DijkstraState) (g' : Graph) (n : String)
    (w : Int) :
    relaxEdge cur { s with graph := g' } n w = { relaxEdge cur s n w with graph := g' } := by
  unfold relaxEdge
  simp only
  split <;> rfl

theorem relaxAll_graph (cur : String) (edges : List (String × Edge)) :
    ∀ s : DijkstraState, (relaxAll cur edges s).graph = s.graph := by
  induction edges with
  | nil => intro s; rfl
  | cons x rest ih =>
    obtain ⟨n, e⟩ := x
    intro s
    simp only [relaxAll]
    rw [ih, relaxEdge_graph]

theorem relaxAll_with_graph (cur : String) (edges : List (String × Edge)) :
    ∀ (s : DijkstraState) (g' : Graph),
      relaxAll cur edges { s with graph := g' } = { relaxAll cur edges s with graph := g' } := by
  induction edges with
  | nil => intro s g'; rfl
  | cons x rest ih =>
    obtain ⟨n, e⟩ := x
    intro s g'
    simp only [relaxAll]
    rw [relaxEdge_with_graph, ih]

theorem mapFind_append_of_not_mem {V : Type} (pre : List (String × V)) (k : String) (e : V)
    (rest : List (String × V)) (h : k ∉ mapKeys pre) :
    mapFind (pre ++ (k, e) :: rest) k = some e := by
  induction pre with
  | nil => simp [mapFind]
  | cons x pre ih =>
    obtain ⟨k₁, v₁⟩ := x
    have h1 : k₁ ≠ k := fun hk => h (by simp [mapKeys, hk])
    have h2 : k ∉ mapKeys pre := fun hk => h (by
      simp only [mapKeys, List.map_cons, List.mem_cons]
      exact Or.inr hk)
    simp only [List.cons_append, mapFind, h1, if_false]
    exact ih h2

theorem adjOf_of_find {g : Graph} {k : String} {v : Vertex}
    (h : mapFind g.vertices k = some (some v)) : g.adjOf k = v.adjacencyList := by
  simp [Graph.adjOf, Graph.findVertex, h]

theorem adjOf_of_absent {g : Graph} {k : String} (h : mapFind g.vertices k = none) :
    g.adjOf k = [] := by
  simp [Graph.adjOf, Graph.findVertex, h]

theorem neighbors_eq_keys_adjOf (g : Graph) (k : String) :
    g.neighbors k = mapKeys (g.adjOf k) := by
  unfold Graph.neighbors Graph.adjOf
  cases g.findVertex k <;> rfl

theorem adjOf_of_skel_eq {g g' : Graph} (h : g'.skel = g.skel) (hg : g.Inv) (k : String) :
    g'.adjOf k = g.adjOf k := by
  rcases hg.find_cases k with ⟨hnone, hk⟩ | ⟨v, hv, -⟩
  · rw [adjOf_of_absent hnone, adjOf_of_absent]
    rw [mapFind_eq_none_iff, keys_of_skel_eq h]
    exact hk
  · obtain ⟨v', hv', hs⟩ := find_of_skel_eq h hv
    rw [adjOf_of_find hv, adjOf_of_find hv', (skel_eq_fields hs).2]

theorem dijkstraRelax_run {g : Graph} (hg : g.Inv) {cur : String}
    (suf : List (String × Edge)) :
    ∀ (pre : List (String × Edge)) (fuel : Nat) (s1 : DijkstraState) (vt : Vertex)
      (neighbor : String),
      s1.graph.skel = g.skel →
      mapFind s1.graph.vertices cur = some (some vt) → vt.adjacencyList = pre ++ suf →
      CursorState cur vt.currentNeighbor neighbor suf → suf.length < fuel →
      ∃ g2, dijkstraRelax fuel s1 cur neighbor = .ok { relaxAll cur suf s1 with graph := g2 } ∧
        g2.skel = g.skel ∧ ∀ k, g2.isMarked k = s1.graph.isMarked k := by
  induction suf with
  | nil =>
    intro pre fuel s1 vt neighbor hskel hfind hadj hcur hfuel
    cases fuel with
    | zero => exact absurd hfuel (by simp)
    | succ f =>
      simp only [CursorState] at hcur
      have hok := (inv_of_skel_eq hskel hg).ok_of_find hfind
      refine ⟨s1.graph, ?_, hskel, fun _ => rfl⟩
      simp only [dijkstraRelax, Vertex.getLabel]
      rw [call_read hfind (fun v => v.vertexLabel)]
      simp [except_bind_ok, hok.label, hcur, relaxAll]
  | cons x rest ih =>
    obtain ⟨n, e⟩ := x
    intro pre fuel s1 vt neighbor hskel hfind hadj hcur hfuel
    cases fuel with
    | zero => exact absurd hfuel (by simp)
    | succ f =>
      obtain ⟨hnb, hcursor⟩ := hcur
      subst hnb
      have g1inv := inv_of_skel_eq hskel hg
      have hok := g1inv.ok_of_find hfind
      have hmem : neighbor ∈ mapKeys vt.adjacencyList := by
        rw [hadj, mapKeys_append]
        simp [mapKeys]
      obtain ⟨hne, -⟩ := g1inv.find_neighbor hfind hmem
      have hnpre : neighbor ∉ mapKeys pre := by
        have hnd := hok.sorted.nodup
        rw [hadj, mapKeys_append] at hnd
        intro hmem'
        exact (List.nodup_append.mp hnd).2.2 hmem' (by simp [mapKeys])
      have hew : vt.getEdgeWeight neighbor = e.edgeWeight := by
        simp [Vertex.getEdgeWeight, hadj, mapFind_append_of_not_mem pre neighbor e rest hnpre,
          Edge.getWeight]
      have hadj' : vt.adjacencyList = (pre ++ [(neighbor, e)]) ++ rest := by
        rw [hadj]; simp
      obtain ⟨hs1, hs2, hs3⟩ := getNextNeighbor_step hok (pre ++ [(neighbor, e)]) rest hadj' hcursor
      have hadj2 : vt.getNextNeighbor.1.adjacencyList = (pre ++ [(neighbor, e)]) ++ rest := by
        rw [(skel_eq_fields hs1).2, hadj']
      have hskel2 : (s1.graph.setVertex cur vt.getNextNeighbor.1).skel = g.skel := by
        rw [skel_set hfind hs1, hskel]
      obtain ⟨g2, hrun, hg2s, hg2m⟩ := ih (pre ++ [(neighbor, e)]) f
        { relaxEdge cur s1 neighbor e.edgeWeight with
          graph := s1.graph.setVertex cur vt.getNextNeighbor.1 }
        vt.getNextNeighbor.1 vt.getNextNeighbor.2 hskel2 (find_set_self hfind _) hadj2 hs3
        (by simpa using hfuel)
      refine ⟨g2, ?_, hg2s, ?_⟩
      · simp only [dijkstraRelax, Vertex.getLabel]
        rw [call_read hfind (fun v => v.vertexLabel)]
        simp only [except_bind_ok, hok.label, hne, if_false]
        rw [call_read hfind (fun v => v.getEdgeWeight neighbor)]
        simp only [except_bind_ok, hew]
        have hsame : ({ s1 with graph := s1.graph } : DijkstraState) = s1 := rfl
        rw [hsame, relaxEdge_graph, call_ok hfind]
        simp only [except_bind_ok]
        rw [hrun, relaxAll_with_graph]
        rfl
      · intro k
        rw [hg2m k]
        simp only
        rw [isMarked_set hfind]
        by_cases hk : k = cur
        · rw [if_pos hk, hs2, hk, isMarked_of_find hfind]
        · rw [if_neg hk]

theorem mem_pqPush (pq : List (Int × String)) (x y : Int × String) :
    y ∈ pqPush pq x ↔ y = x ∨ y ∈ pq := by
  induction pq with
  | nil => simp [pqPush]
  | cons z rest ih =>
    simp only [pqPush]
    split
    · simp
    · simp only [List.mem_cons, ih]
      tauto

theorem length_pqPush (pq : List (Int × String)) (x : Int × String) :
    (pqPush pq x).length = pq.length + 1 := by
  induction pq with
  | nil => simp [pqPush]
  | cons z rest ih =>
    simp only [pqPush]
    split
    · simp
    · simp [ih]

theorem relaxEdge_pq_mem (cur : String) (s : DijkstraState) (n : String) (w : Int)
    (x : Int × String) (hx : x ∈ (relaxEdge cur s n w).pq) : x ∈ s.pq ∨ x.2 = n := by
  unfold relaxEdge at hx
  split at hx
  · simp only [mem_pqPush] at hx
    rcases hx with h | h
    · exact Or.inr (by rw [h])
    · exact Or.inl h
  · exact Or.inl hx

theorem relaxAll_pq_mem (cur : String) (edges : List (String × Edge)) :
    ∀ (s : DijkstraState) (x : Int × String), x ∈ (relaxAll cur edges s).pq →
      x ∈ s.pq ∨ x.2 ∈ mapKeys edges := by
  induction edges with
  | nil =>
    intro s x hx
    exact Or.inl hx
  | cons y rest ih =>
    obtain ⟨n, e⟩ := y
    intro s x hx
    simp only [relaxAll] at hx
    rcases ih _ x hx with h | h
    · rcases relaxEdge_pq_mem cur s n e.edgeWeight x h with h1 | h1
      · exact Or.inl h1
      · exact Or.inr (by simp [mapKeys, h1])
    · exact Or.inr (by
        simp only [mapKeys, List.map_cons, List.mem_cons]
        exact Or.inr h)

theorem spLoop_with_graph (adj : String → List (String × Edge)) (g' : Graph) :
    ∀ (n : Nat) (vis : List String) (s : DijkstraState),
      spLoop adj n vis { s with graph := g' }
        = (spLoop adj n vis s).map (fun o => { o with graph := g' }) := by
  intro n
  induction n with
  | zero => intro vis s; rfl
  | succ n ih =>
    intro vis s
    obtain ⟨gr, w, p, pq⟩ := s
    cases pq with
    | nil => simp [spLoop]
    | cons x pq1 =>
      obtain ⟨c, cur⟩ := x
      simp only [spLoop]
      split
      · exact ih vis { graph := gr, weight := w, previous := p, pq := pq1 }
      · have := relaxAll_with_graph cur (adj cur)
          { graph := gr, weight := w, previous := p, pq := pq1 } g'
        simp only at this
        rw [this]
        exact ih _ _

theorem dijkstraLoop_refines {g : Graph} (hg : g.Inv) :
    ∀ (n : Nat) (s1 : DijkstraState) (vis : List String) (out : DijkstraState),
      s1.graph.skel = g.skel → (∀ k, s1.graph.isMarked k = decide (k ∈ vis)) →
      (∀ x, x ∈ s1.pq → x.2 ∈ mapKeys g.vertices) →
      spLoop g.adjOf n vis s1 = some out →
      ∀ fuel, n + edgeTotal g.vertices < fuel →
      ∃ g2, dijkstraLoop fuel s1 = .ok { out with graph := g2 } ∧ g2.skel = g.skel := by
  intro n
  induction n with
  | zero =>
    intro s1 vis out _ _ _ h
    simp [spLoop] at h
  | succ n ih =>
    intro s1 vis out hskel hmark hpqreg hrun fuel hfuel
    cases fuel with
    | zero => exact absurd hfuel (by omega)
    | succ f =>
      cases hpq : s1.pq with
      | nil =>
        simp only [spLoop, hpq, Option.some.injEq] at hrun
        subst hrun
        refine ⟨s1.graph, ?_, hskel⟩
        simp only [dijkstraLoop, hpq]
        congr 1
        cases s1
        simp only at hpq
        simp [hpq]
      | cons x pq1 =>
        obtain ⟨c, cur⟩ := x
        simp only [spLoop, hpq] at hrun
        have hg1 := inv_of_skel_eq hskel hg
        have hcur : cur ∈ mapKeys s1.graph.vertices := by
          rw [keys_of_skel_eq hskel]
          exact hpqreg (c, cur) (by rw [hpq]; simp)
        obtain ⟨vc, hvc, hok⟩ := hg1.find hcur
        have hvis : vc.visited = decide (cur ∈ vis) := by
          rw [← isMarked_of_find hvc, hmark]
        have hpq1reg : ∀ x, x ∈ pq1 → x.2 ∈ mapKeys g.vertices :=
          fun x hx => hpqreg x (by rw [hpq]; exact List.mem_cons_of_mem _ hx)
        by_cases hcv : cur ∈ vis
        · -- a stale entry
          rw [if_pos hcv] at hrun
          obtain ⟨g2, hrun2, hsk2⟩ := ih { s1 with pq := pq1 } vis out hskel hmark hpq1reg hrun
            f (by omega)
          refine ⟨g2, ?_, hsk2⟩
          simp only [dijkstraLoop, hpq, Vertex.isVisited]
          rw [call_read hvc (fun v => v.visited)]
          simp only [except_bind_ok, hvis, hcv, decide_True, if_true]
          exact hrun2
        · -- the vertex is visited now and its edges are relaxed
          rw [if_neg hcv] at hrun
          have hfindv := find_set_self hvc vc.visit
          have hskv : (s1.graph.setVertex cur vc.visit).skel = g.skel := by
            rw [skel_set hvc (by simp [Vertex.skel, Vertex.visit]), hskel]
          have hgv := inv_of_skel_eq hskv hg
          obtain ⟨g4, vt, nb, hsk4, hmk4, hfind4, hadj4, hcur4, hrun4⟩ := reset_getNext hgv hfindv
          have hsk4' : g4.skel = g.skel := by rw [hsk4, hskv]
          have hadjv : vc.visit.adjacencyList = g.adjOf cur := by
            rw [← adjOf_of_skel_eq hskv hg, adjOf_of_find hfindv]
          rw [hadjv] at hadj4 hcur4
          have hdeg : (g.adjOf cur).length < f := by
            have := length_le_edgeTotal hfindv
            rw [hadjv, edgeTotal_of_skel_eq hskv] at this
            omega
          obtain ⟨g5, hrun5, hsk5, hmk5⟩ := dijkstraRelax_run hg (g.adjOf cur) [] f
            { s1 with graph := g4, pq := pq1 } vt nb hsk4' hfind4 hadj4 hcur4 hdeg
          have hg5 := inv_of_skel_eq hsk5 hg
          have hcur5 : cur ∈ mapKeys g5.vertices := by
            rw [keys_of_skel_eq hsk5, ← keys_of_skel_eq hskel]
            exact hcur
          obtain ⟨v5, hv5, -⟩ := hg5.find hcur5
          have hsk6 : (g5.setVertex cur v5.resetNeighbor).skel = g.skel := by
            rw [skel_set hv5 (by simp [Vertex.skel, Vertex.resetNeighbor]), hsk5]
          have hmk6 : ∀ k, (g5.setVertex cur v5.resetNeighbor).isMarked k
              = decide (k ∈ cur :: vis) := by
            intro k
            rw [isMarked_set hv5]
            have h5 : g5.isMarked k = decide (k ∈ cur :: vis) := by
              rw [hmk5 k]
              simp only
              rw [hmk4 k, isMarked_set hvc, hmark k]
              by_cases hk : k = cur <;> simp [hk, Vertex.visit]
            by_cases hk : k = cur
            · subst hk
              rw [if_pos rfl]
              simp only [Vertex.resetNeighbor]
              rw [← isMarked_of_find hv5, h5]
            · rw [if_neg hk, h5]
          have hrelax := relaxAll_with_graph cur (g.adjOf cur) { s1 with pq := pq1 } g4
          simp only at hrelax
          have hpqreg' : ∀ x, x ∈ ({ relaxAll cur (g.adjOf cur) { s1 with pq := pq1 } with
              graph := g5.setVertex cur v5.resetNeighbor } : DijkstraState).pq →
              x.2 ∈ mapKeys g.vertices := by
            intro x hx
            simp only at hx
            rcases relaxAll_pq_mem cur (g.adjOf cur) _ x hx with h | h
            · exact hpq1reg x h
            · rw [← neighbors_eq_keys_adjOf] at h
              exact hg.neighbors_closed h
          have hrun' : spLoop g.adjOf n (cur :: vis)
              { relaxAll cur (g.adjOf cur) { s1 with pq := pq1 } with
                graph := g5.setVertex cur v5.resetNeighbor }
              = some { out with graph := g5.setVertex cur v5.resetNeighbor } := by
            rw [spLoop_with_graph, hrun]
            rfl
          obtain ⟨g7, hrun7, hsk7⟩ := ih _ (cur :: vis) _ hsk6 hmk6 hpqreg' hrun' f (by omega)
          refine ⟨g7, ?_, hsk7⟩
          have hbind : dijkstraLoop (f + 1) s1 =
              (s1.graph.call cur (fun v => (v, v.isVisited)) >>= fun r =>
                if r.2 then dijkstraLoop f { s1 with graph := r.1, pq := pq1 }
                else
                  r.1.call cur (fun v => (v.visit, ())) >>= fun r2 =>
                  (r2.1.call cur (fun v => (v.resetNeighbor, ())) >>= fun r3 =>
                    r3.1.call cur Vertex.getNextNeighbor) >>= fun r4 =>
                  dijkstraRelax f { s1 with graph := r4.1, pq := pq1 } cur r4.2 >>= fun s2 =>
                  s2.graph.call cur (fun v => (v.resetNeighbor, ())) >>= fun r5 =>
                  dijkstraLoop f { s2 with graph := r5.1 }) := by
            simp only [dijkstraLoop, hpq]
            cases s1.graph.call cur (fun v => (v, v.isVisited)) with
            | error e => rfl
            | ok r =>
              simp only [except_bind_ok]
              split
              · rfl
              · cases r.1.call cur (fun v => (v.visit, ())) with
                | error e => rfl
                | ok r2 =>
                  simp only [except_bind_ok]
                  cases r2.1.call cur (fun v => (v.resetNeighbor, ())) with
                  | error e => rfl
                  | ok r3 => rfl
          rw [hbind]
          simp only [Vertex.isVisited]
          rw [call_read hvc (fun v => v.visited)]
          simp only [except_bind_ok, hvis, hcv, decide_False, Bool.false_eq_true, if_false]
          rw [call_ok hvc]
          simp only [except_bind_ok]
          rw [hrun4]
          simp only [except_bind_ok]
          rw [hrun5]
          simp only [except_bind_ok]
          rw [call_ok hv5]
          simp only [except_bind_ok]
          rw [hrelax]
          exact hrun7

/-! ## Lemmas on the output maps and the queue -/

theorem mapFind_mapAssign {V : Type} (m : List (String × V)) (k k' : String) (v : V) :
    mapFind (mapAssign m k v) k' = if k' = k then some v else mapFind m k' := by
  unfold mapAssign
  cases hf : mapFind m k with
  | none =>
    simp only
    by_cases hk : k' = k
    · rw [if_pos hk, hk]
      exact mapFind_mapInsertNew_self m k v hf
    · rw [if_neg hk]
      exact mapFind_mapInsertNew_ne m k k' v hk
  | some x =>
    simp only
    rw [mapFind_mapSet, hf]
    rfl

theorem getW_mapAssign (m : List (String × Int)) (k k' : String) (x : Int) :
    getW (mapAssign m k x) k' = if k' = k then x else getW m k' := by
  unfold getW
  rw [mapFind_mapAssign]
  split <;> rfl

theorem mapKeys_mapAssign_of_mem {V : Type} (m : List (String × V)) (k : String) (v : V)
    (h : k ∈ mapKeys m) : mapKeys (mapAssign m k v) = mapKeys m := by
  obtain ⟨x, hx⟩ := mapFind_isSome_of_key h
  simp only [mapAssign, hx]
  exact mapKeys_mapSet m k v

theorem mem_mapKeys_mapAssign {V : Type} (m : List (String × V)) (k : String) (v : V)
    (k' : String) : k' ∈ mapKeys (mapAssign m k v) ↔ k' = k ∨ k' ∈ mapKeys m := by
  unfold mapAssign
  cases hf : mapFind m k with
  | none => exact mem_mapKeys_mapInsertNew m k v k'
  | some x =>
    simp only
    rw [mapKeys_mapSet]
    constructor
    · exact Or.inr
    · rintro (h | h)
      · rw [h]; exact mapFind_some_key hf
      · exact h

theorem keysSorted_mapAssign {V : Type} (m : List (String × V)) (k : String) (v : V)
    (h : KeysSorted m) : KeysSorted (mapAssign m k v) := by
  unfold mapAssign
  cases hf : mapFind m k with
  | none => exact keysSorted_mapInsertNew m k v h ((mapFind_eq_none_iff m k).mp hf)
  | some x => exact keysSorted_mapSet k v h

theorem mapIndex_of_mem (m : List (String × Int)) (k : String) (h : k ∈ mapKeys m) :
    mapIndex m k 0 = (m, getW m k) := by
  obtain ⟨x, hx⟩ := mapFind_isSome_of_key h
  simp [mapIndex, getW, hx]

theorem mapFind_eq_getW (m : List (String × Int)) (k : String) (h : k ∈ mapKeys m) :
    mapFind m k = some (getW m k) := by
  obtain ⟨x, hx⟩ := mapFind_isSome_of_key h
  simp [getW, hx]

theorem wrapInt_eq {x : Int} (h0 : 0 ≤ x) (h1 : x < INT_MAX) : wrapInt x = x := by
  unfold wrapInt
  unfold INT_MAX at h1
  omega

/-- The relaxation of one edge when both labels are bound in `weight`. -/
theorem relaxEdge_eq (cur : String) (s : DijkstraState) (n : String) (w : Int)
    (hc : cur ∈ mapKeys s.weight) (hn : n ∈ mapKeys s.weight) :
    relaxEdge cur s n w =
      if wrapInt (getW s.weight cur + w) < getW s.weight n then
        { graph := s.graph
          weight := mapAssign s.weight n (wrapInt (getW s.weight cur + w))
          previous := mapAssign s.previous n cur
          pq := pqPush s.pq (wrapInt (getW s.weight cur + w), n) }
      else s := by
  unfold relaxEdge
  rw [mapIndex_of_mem s.weight cur hc]
  simp only
  rw [mapIndex_of_mem s.weight n hn]

theorem pqPush_sorted (pq : List (Int × String)) (x : Int × String)
    (h : pq.Pairwise (fun a b => a.1 ≤ b.1)) : (pqPush pq x).Pairwise (fun a b => a.1 ≤ b.1) := by
  induction pq with
  | nil => simp [pqPush]
  | cons y rest ih =>
    obtain ⟨hy, hrest⟩ := List.pairwise_cons.mp h
    simp only [pqPush]
    split
    · rename_i hlt
      have hxy : x.1 ≤ y.1 := by
        simp only [pairLt, Bool.or_eq_true, decide_eq_true_eq, Bool.and_eq_true,
          Bool.not_eq_true', decide_eq_false_iff_not] at hlt
        rcases hlt with h1 | h1
        · omega
        · omega
      refine List.pairwise_cons.mpr ⟨?_, h⟩
      intro z hz
      rcases List.mem_cons.mp hz with h1 | h1
      · rw [h1]; exact hxy
      · have := hy z h1
        omega
    · rename_i hlt
      have hyx : y.1 ≤ x.1 := by
        simp only [pairLt, Bool.or_eq_true, decide_eq_true_eq, Bool.and_eq_true,
          Bool.not_eq_true', decide_eq_false_iff_not, not_or, not_and] at hlt
        omega
      refine List.pairwise_cons.mpr ⟨?_, ih hrest⟩
      intro z hz
      rcases (mem_pqPush rest x z).mp hz with h1 | h1
      · rw [h1]; exact hyx
      · exact hy z h1

theorem walkTo_nonneg {adj : String → List (String × Edge)} {V : List String}
    (hG : WeightedOK adj V) {s v : String} {c : Int} (h : WalkTo adj s v c) : 0 ≤ c := by
  induction h with
  | refl => exact le_refl 0
  | step _ hedge ih =>
    have := hG.nonneg _ _ _ hedge
    omega

theorem walkTo_mem {adj : String → List (String × Edge)} {V : List String}
    (hG : WeightedOK adj V) {s v : String} {c : Int} (hs : s ∈ V) (h : WalkTo adj s v c) :
    v ∈ V := by
  cases h with
  | refl => exact hs
  | step _ hedge => exact (hG.closed _ _ _ hedge).1

theorem predWalkIn_walkTo {adj : String → List (String × Edge)} {prev : List (String × String)}
    {vis : List String} {s v : String} {c : Int} (h : PredWalkIn adj prev vis s v c) :
    WalkTo adj s v c := by
  induction h with
  | refl => exact WalkTo.refl
  | step _ _ _ hedge ih => exact WalkTo.step ih hedge

theorem predWalkIn_predWalk {adj : String → List (String × Edge)}
    {prev : List (String × String)} {vis : List String} {s v : String} {c : Int}
    (h : PredWalkIn adj prev vis s v c) : PredWalk adj prev s v c := by
  induction h with
  | refl => exact PredWalk.refl
  | step _ _ hp hedge ih => exact PredWalk.step ih hp hedge

theorem predWalkIn_mono {adj : String → List (String × Edge)} {prev : List (String × String)}
    {vis vis' : List String} (hsub : ∀ u, u ∈ vis → u ∈ vis') {s v : String} {c : Int}
    (h : PredWalkIn adj prev vis s v c) : PredWalkIn adj prev vis' s v c := by
  induction h with
  | refl => exact PredWalkIn.refl
  | step _ hvis hp hedge ih => exact PredWalkIn.step ih (hsub _ hvis) hp hedge

/-- A walk along `previous` survives the assignment `previous[n] = cur` when `n` is
neither visited nor the last vertex of the walk. -/
theorem predWalkIn_assign {adj : String → List (String × Edge)} {prev : List (String × String)}
    {vis : List String} {s v : String} {c : Int} (n cur : String) (hn : n ∉ vis)
    (h : PredWalkIn adj prev vis s v c) (hv : v ≠ n) :
    PredWalkIn adj (mapAssign prev n cur) vis s v c := by
  induction h with
  | refl => exact PredWalkIn.refl
  | step hw hvis hp hedge ih =>
    rename_i p v' c' e
    have hpn : p ≠ n := fun h => hn (h ▸ hvis)
    refine PredWalkIn.step (ih hpn) hvis ?_ hedge
    rw [mapFind_mapAssign, if_neg hv]
    exact hp

theorem weightSum_cons (t : String × String × Int) (L : List (String × String × Int)) :
    weightSum (t :: L) = t.2.2 + weightSum L := by
  simp [weightSum]

/-! ## The invariant is kept by the relaxation of an edge -/

/-- While the edges of the visited vertex `cur` are relaxed, the sum computed for an edge
of `cur` neither is negative nor reaches `INT_MAX`. -/
theorem relax_sum_bounds {adj : String → List (String × Edge)} {V : List String}
    {start cur : String} {pend : List (String × Edge)} {vis : List String}
    {s : DijkstraState} (hG : WeightedOK adj V) (hI : SpInv adj V start cur pend vis s)
    (hcur : cur ∈ vis) {n : String} {e : Edge} (hedge : (n, e) ∈ adj cur) :
    0 ≤ getW s.weight cur ∧ 0 ≤ getW s.weight cur + e.edgeWeight ∧
      getW s.weight cur + e.edgeWeight < INT_MAX := by
  have hcV := hI.vis_sub cur hcur
  have hfin := (hI.vis_min cur hcur).1
  have h0 : 0 ≤ getW s.weight cur :=
    walkTo_nonneg hG (predWalkIn_walkTo (hI.fin_walk cur hcV hfin))
  have hw := hG.nonneg _ _ _ hedge
  obtain ⟨L, hnd, hedges, hsrc, hle⟩ := hI.witness cur hcV hfin
  have hb := hG.bound ((cur, n, e.edgeWeight) :: L)
    (List.nodup_cons.mpr ⟨fun hmem => (hsrc _ hmem).2 rfl, hnd⟩)
    (by
      intro t ht
      rcases List.mem_cons.mp ht with h | h
      · rw [h]
        exact ⟨e, hedge, rfl⟩
      · exact hedges t h)
  rw [weightSum_cons] at hb
  simp only at hb
  refine ⟨h0, by omega, by omega⟩

theorem spInv_relaxEdge {adj : String → List (String × Edge)} {V : List String}
    {start cur n : String} {e : Edge} {rest : List (String × Edge)} {vis : List String}
    {s : DijkstraState} (hG : WeightedOK adj V)
    (hI : SpInv adj V start cur ((n, e) :: rest) vis s) (hcur : cur ∈ vis)
    (hedge : (n, e) ∈ adj cur) :
    SpInv adj V start cur rest vis (relaxEdge cur s n e.edgeWeight) := by
  have hcV := hI.vis_sub cur hcur
  obtain ⟨hnV, hne⟩ := hG.closed _ _ _ hedge
  have hck : cur ∈ mapKeys s.weight := (hI.wkeys cur).mpr hcV
  have hnk : n ∈ mapKeys s.weight := (hI.wkeys n).mpr hnV
  obtain ⟨h0, h1, h2⟩ := relax_sum_bounds hG hI hcur hedge
  have hfin := (hI.vis_min cur hcur).1
  have hwalk := hI.fin_walk cur hcV hfin
  rw [relaxEdge_eq cur s n e.edgeWeight hck hnk, wrapInt_eq h1 h2]
  by_cases hlt : getW s.weight cur + e.edgeWeight < getW s.weight n
  · rw [if_pos hlt]
    have hnvis : n ∉ vis := by
      intro hmem
      have := (hI.vis_min n hmem).2 _ (WalkTo.step (predWalkIn_walkTo hwalk) hedge)
      omega
    have hns : n ≠ start := by
      intro h
      rw [h, hI.d_start] at hlt
      omega
    have hD : ∀ k, getW (mapAssign s.weight n (getW s.weight cur + e.edgeWeight)) k
        = if k = n then getW s.weight cur + e.edgeWeight else getW s.weight k :=
      fun k => getW_mapAssign _ _ _ _
    have hDne : ∀ k, k ≠ n →
        getW (mapAssign s.weight n (getW s.weight cur + e.edgeWeight)) k = getW s.weight k :=
      fun k hk => by rw [hD, if_neg hk]
    have hDn : getW (mapAssign s.weight n (getW s.weight cur + e.edgeWeight)) n
        = getW s.weight cur + e.edgeWeight := by rw [hD, if_pos rfl]
    have hDle : ∀ k, getW (mapAssign s.weight n (getW s.weight cur + e.edgeWeight)) k
        ≤ getW s.weight k := by
      intro k
      rw [hD]
      split
      · rename_i hk
        rw [hk]
        omega
      · exact le_refl _
    have hvisne : ∀ u, u ∈ vis → u ≠ n := fun u hu h => hnvis (h ▸ hu)
    refine
      { wkeys := ?_, wsorted := keysSorted_mapAssign _ _ _ hI.wsorted,
        start_mem := hI.start_mem, d_start := ?_, le_max := ?_, fin_walk := ?_, witness := ?_,
        vis_sub := hI.vis_sub, vis_min := ?_, relaxed := ?_, queued := ?_, pq_ok := ?_,
        pq_sorted := pqPush_sorted _ _ hI.pq_sorted, prev_ok := ?_, prev_some := ?_,
        prev_start := ?_ }
    · intro k
      simp only
      rw [mapKeys_mapAssign_of_mem _ _ _ hnk]
      exact hI.wkeys k
    · simp only
      rw [hDne start (fun h => hns h.symm)]
      exact hI.d_start
    · intro v hv
      exact le_trans (hDle v) (hI.le_max v hv)
    · intro v hv hvfin
      simp only at hvfin ⊢
      by_cases hvn : v = n
      · subst hvn
        rw [hDn]
        refine PredWalkIn.step (predWalkIn_assign v cur hnvis hwalk (fun h => hne h.symm)) hcur
          ?_ hedge
        rw [mapFind_mapAssign, if_pos rfl]
      · rw [hDne v hvn] at hvfin ⊢
        exact predWalkIn_assign n cur hnvis (hI.fin_walk v hv hvfin) hvn
    · intro v hv hvfin
      simp only at hvfin ⊢
      by_cases hvn : v = n
      · subst hvn
        obtain ⟨L, hnd, hedges, hsrc, hle⟩ := hI.witness cur hcV hfin
        refine ⟨(cur, v, e.edgeWeight) :: L,
          List.nodup_cons.mpr ⟨fun hmem => (hsrc _ hmem).2 rfl, hnd⟩, ?_, ?_, ?_⟩
        · intro t ht
          rcases List.mem_cons.mp ht with h | h
          · rw [h]
            exact ⟨e, hedge, rfl⟩
          · exact hedges t h
        · intro t ht
          rcases List.mem_cons.mp ht with h | h
          · rw [h]
            exact ⟨hcur, fun h => hne h.symm⟩
          · exact ⟨(hsrc t h).1, hvisne _ (hsrc t h).1⟩
        · rw [hDn, weightSum_cons]
          simp only
          omega
      · rw [hDne v hvn] at hvfin ⊢
        exact hI.witness v hv hvfin
    · intro u hu
      simp only
      rw [hDne u (hvisne u hu)]
      exact hI.vis_min u hu
    · intro u hu m e' hm
      simp only
      rw [hDne u (hvisne u hu)]
      rcases hI.relaxed u hu m e' hm with ⟨huc, hpend⟩ | hle
      · rcases List.mem_cons.mp hpend with h | h
        · right
          simp only [Prod.mk.injEq] at h
          rw [h.1, h.2, hDn, huc]
        · exact Or.inl ⟨huc, h⟩
      · right
        exact le_trans (hDle m) hle
    · intro v hv hvvis hvfin
      simp only at hvfin ⊢
      rw [mem_pqPush]
      by_cases hvn : v = n
      · left
        rw [hvn, hDn]
      · right
        rw [hDne v hvn] at hvfin ⊢
        exact hI.queued v hv hvvis hvfin
    · intro x hx
      simp only at hx ⊢
      rcases (mem_pqPush _ _ _).mp hx with h | h
      · rw [h]
        simp only
        rw [hDn]
        exact ⟨hnV, le_refl _, h2⟩
      · obtain ⟨hx1, hx2, hx3⟩ := hI.pq_ok x h
        exact ⟨hx1, le_trans (hDle _) hx2, hx3⟩
    · intro v p hp
      simp only at hp ⊢
      rw [mapFind_mapAssign] at hp
      by_cases hvn : v = n
      · rw [if_pos hvn] at hp
        simp only [Option.some.injEq] at hp
        subst hp
        subst hvn
        rw [hDn, hDne cur (fun h => hne h.symm)]
        exact ⟨hcur, hnV, h2, e, hedge, rfl⟩
      · rw [if_neg hvn] at hp
        obtain ⟨hp1, hp2, hp3, e', he', heq⟩ := hI.prev_ok v p hp
        rw [hDne v hvn, hDne p (hvisne p hp1)]
        exact ⟨hp1, hp2, hp3, e', he', heq⟩
    · intro v hv hvs hvfin
      simp only at hvfin ⊢
      rw [mapFind_mapAssign]
      by_cases hvn : v = n
      · rw [if_pos hvn]
        rfl
      · rw [if_neg hvn]
        rw [hDne v hvn] at hvfin
        exact hI.prev_some v hv hvs hvfin
    · simp only
      rw [mapFind_mapAssign, if_neg (fun h => hns h.symm)]
      exact hI.prev_start
  · rw [if_neg hlt]
    refine
      { wkeys := hI.wkeys, wsorted := hI.wsorted, start_mem := hI.start_mem,
        d_start := hI.d_start, le_max := hI.le_max, fin_walk := hI.fin_walk,
        witness := hI.witness, vis_sub := hI.vis_sub, vis_min := hI.vis_min, relaxed := ?_,
        queued := hI.queued, pq_ok := hI.pq_ok, pq_sorted := hI.pq_sorted,
        prev_ok := hI.prev_ok, prev_some := hI.prev_some, prev_start := hI.prev_start }
    intro u hu m e' hm
    rcases hI.relaxed u hu m e' hm with ⟨huc, hpend⟩ | hle
    · rcases List.mem_cons.mp hpend with h | h
      · right
        simp only [Prod.mk.injEq] at h
        rw [h.1, h.2, huc]
        omega
      · exact Or.inl ⟨huc, h⟩
    · exact Or.inr hle

theorem spInv_relaxAll {adj : String → List (String × Edge)} {V : List String}
    {start cur : String} {vis : List String} (hG : WeightedOK adj V) (hcur : cur ∈ vis)
    (edges : List (String × Edge)) :
    ∀ s : DijkstraState, (∀ x, x ∈ edges → x ∈ adj cur) →
      SpInv adj V start cur edges vis s → SpInv adj V start cur [] vis (relaxAll cur edges s) := by
  induction edges with
  | nil =>
    intro s _ hI
    exact hI
  | cons x rest ih =>
    obtain ⟨n, e⟩ := x
    intro s hsub hI
    simp only [relaxAll]
    exact ih _ (fun y hy => hsub y (List.mem_cons_of_mem _ hy))
      (spInv_relaxEdge hG hI hcur (hsub (n, e) (by simp)))

/-! ## The invariant is kept by a pop of the queue -/

/-- With no edge pending, every walk from the start either ends in a visited vertex whose
distance is at most the weight of the walk, or some unvisited vertex has a distance at
most that weight. -/
theorem walk_lower_bound {adj : String → List (String × Edge)} {V : List String}
    {start pc : String} {vis : List String} {s : DijkstraState} (hG : WeightedOK adj V)
    (hI : SpInv adj V start pc [] vis s) {v : String} {c : Int} (h : WalkTo adj start v c) :
    (v ∈ vis ∧ getW s.weight v ≤ c) ∨ (∃ y, y ∈ V ∧ y ∉ vis ∧ getW s.weight y ≤ c) := by
  induction h with
  | refl =>
    by_cases hs : start ∈ vis
    · exact Or.inl ⟨hs, by rw [hI.d_start]⟩
    · exact Or.inr ⟨start, hI.start_mem, hs, by rw [hI.d_start]⟩
  | step hw hedge ih =>
    rename_i u v' c' e
    have hw0 := hG.nonneg _ _ _ hedge
    rcases ih with ⟨hu, hle⟩ | ⟨y, hy1, hy2, hy3⟩
    · have hrel : getW s.weight v' ≤ getW s.weight u + e.edgeWeight := by
        rcases hI.relaxed u hu v' e hedge with ⟨-, hp⟩ | h
        · simp at hp
        · exact h
      by_cases hv : v' ∈ vis
      · exact Or.inl ⟨hv, by omega⟩
      · exact Or.inr ⟨v', (hG.closed _ _ _ hedge).1, hv, by omega⟩
    · exact Or.inr ⟨y, hy1, hy2, by omega⟩

theorem spInv_pop_stale {adj : String → List (String × Edge)} {V : List String}
    {start pc : String} {vis : List String} {s : DijkstraState} {c : Int} {cur : String}
    {pq1 : List (Int × String)} (hI : SpInv adj V start pc [] vis s)
    (hpq : s.pq = (c, cur) :: pq1) (hcur : cur ∈ vis) :
    SpInv adj V start pc [] vis { s with pq := pq1 } := by
  refine
    { wkeys := hI.wkeys, wsorted := hI.wsorted, start_mem := hI.start_mem,
      d_start := hI.d_start, le_max := hI.le_max, fin_walk := hI.fin_walk,
      witness := hI.witness, vis_sub := hI.vis_sub, vis_min := hI.vis_min,
      relaxed := hI.relaxed, queued := ?_, pq_ok := ?_, pq_sorted := ?_,
      prev_ok := hI.prev_ok, prev_some := hI.prev_some, prev_start := hI.prev_start }
  · intro v hv hvvis hvfin
    have := hI.queued v hv hvvis hvfin
    rw [hpq] at this
    rcases List.mem_cons.mp this with h | h
    · simp only [Prod.mk.injEq] at h
      exact absurd (h.2 ▸ hcur) hvvis
    · exact h
  · intro x hx
    exact hI.pq_ok x (by rw [hpq]; exact List.mem_cons_of_mem _ hx)
  · have := hI.pq_sorted
    rw [hpq] at this
    exact (List.pairwise_cons.mp this).2

theorem spInv_pop_fresh {adj : String → List (String × Edge)} {V : List String}
    {start pc : String} {vis : List String} {s : DijkstraState} {c : Int} {cur : String}
    {pq1 : List (Int × String)} (hG : WeightedOK adj V) (hI : SpInv adj V start pc [] vis s)
    (hpq : s.pq = (c, cur) :: pq1) (hcur : cur ∉ vis) :
    SpInv adj V start cur (adj cur) (cur :: vis) { s with pq := pq1 } := by
  have hhead := hI.pq_ok (c, cur) (by rw [hpq]; simp)
  simp only at hhead
  obtain ⟨hcV, hDc, hcmax⟩ := hhead
  have hsorted := hI.pq_sorted
  rw [hpq] at hsorted
  obtain ⟨hmin, hsorted1⟩ := List.pairwise_cons.mp hsorted
  have hfin : getW s.weight cur < INT_MAX := by omega
  have hsub : ∀ u, u ∈ vis → u ∈ cur :: vis := fun u hu => List.mem_cons_of_mem _ hu
  refine
    { wkeys := hI.wkeys, wsorted := hI.wsorted, start_mem := hI.start_mem,
      d_start := hI.d_start, le_max := hI.le_max, fin_walk := ?_, witness := ?_,
      vis_sub := ?_, vis_min := ?_, relaxed := ?_, queued := ?_, pq_ok := ?_,
      pq_sorted := hsorted1, prev_ok := ?_, prev_some := hI.prev_some,
      prev_start := hI.prev_start }
  · intro v hv hvfin
    exact predWalkIn_mono hsub (hI.fin_walk v hv hvfin)
  · intro v hv hvfin
    obtain ⟨L, hnd, hedges, hsrc, hle⟩ := hI.witness v hv hvfin
    exact ⟨L, hnd, hedges, fun t ht => ⟨hsub _ (hsrc t ht).1, (hsrc t ht).2⟩, hle⟩
  · intro u hu
    rcases List.mem_cons.mp hu with h | h
    · rw [h]; exact hcV
    · exact hI.vis_sub u h
  · intro u hu
    rcases List.mem_cons.mp hu with h | h
    · rw [h]
      refine ⟨hfin, ?_⟩
      intro c' hwalk
      show getW s.weight cur ≤ c'
      by_contra hlt
      rcases walk_lower_bound hG hI hwalk with ⟨hu', -⟩ | ⟨y, hy1, hy2, hy3⟩
      · exact hcur hu'
      · have hyfin : getW s.weight y < INT_MAX := by omega
        have hq := hI.queued y hy1 hy2 hyfin
        rw [hpq] at hq
        rcases List.mem_cons.mp hq with h1 | h1
        · simp only [Prod.mk.injEq] at h1
          omega
        · have := hmin _ h1
          simp only at this
          omega
    · exact hI.vis_min u h
  · intro u hu n e hedge
    rcases List.mem_cons.mp hu with h | h
    · left
      exact ⟨h, h ▸ hedge⟩
    · right
      rcases hI.relaxed u h n e hedge with ⟨-, hp⟩ | hle
      · simp at hp
      · exact hle
  · intro v hv hvvis hvfin
    have hvc : v ≠ cur := fun h => hvvis (by rw [h]; simp)
    have hvvis' : v ∉ vis := fun h => hvvis (List.mem_cons_of_mem _ h)
    have := hI.queued v hv hvvis' hvfin
    rw [hpq] at this
    rcases List.mem_cons.mp this with h | h
    · simp only [Prod.mk.injEq] at h
      exact absurd h.2 hvc
    · exact h
  · intro x hx
    exact hI.pq_ok x (by rw [hpq]; exact List.mem_cons_of_mem _ hx)
  · intro v p hp
    obtain ⟨hp1, hrest⟩ := hI.prev_ok v p hp
    exact ⟨hsub p hp1, hrest⟩

theorem spInv_pcur {adj : String → List (String × Edge)} {V : List String}
    {start pc : String} (pc' : String) {vis : List String} {s : DijkstraState}
    (hI : SpInv adj V start pc [] vis s) : SpInv adj V start pc' [] vis s :=
  { wkeys := hI.wkeys, wsorted := hI.wsorted, start_mem := hI.start_mem,
    d_start := hI.d_start, le_max := hI.le_max, fin_walk := hI.fin_walk,
    witness := hI.witness, vis_sub := hI.vis_sub, vis_min := hI.vis_min,
    relaxed := by
      intro u hu n e hedge
      rcases hI.relaxed u hu n e hedge with ⟨-, hp⟩ | hle
      · simp at hp
      · exact Or.inr hle
    queued := hI.queued, pq_ok := hI.pq_ok, pq_sorted := hI.pq_sorted,
    prev_ok := hI.prev_ok, prev_some := hI.prev_some, prev_start := hI.prev_start }

/-! ## Termination and the final state of `spLoop` -/

theorem pendingEdges_mono (adj : String → List (String × Edge)) (vis : List String)
    (cur : String) (V : List String) :
    pendingEdges adj (cur :: vis) V ≤ pendingEdges adj vis V := by
  induction V with
  | nil => simp [pendingEdges]
  | cons x V ih =>
    simp only [pendingEdges, List.mem_cons]
    by_cases h1 : x ∈ vis
    · simp only [h1, or_true, if_true]
      omega
    · by_cases h2 : x = cur
      · simp only [h2, true_or, if_true]
        omega
      · simp only [h1, h2, or_self, if_false]
        omega

theorem pendingEdges_step (adj : String → List (String × Edge)) (vis : List String)
    (cur : String) (hcur : cur ∉ vis) (V : List String) (hV : cur ∈ V) :
    pendingEdges adj (cur :: vis) V + (adj cur).length ≤ pendingEdges adj vis V := by
  induction V with
  | nil => simp at hV
  | cons x V ih =>
    have hmono := pendingEdges_mono adj vis cur V
    simp only [pendingEdges, List.mem_cons]
    by_cases hx : x = cur
    · simp only [hx, true_or, if_true, hcur, if_false]
      omega
    · have hV' : cur ∈ V := by
        rcases List.mem_cons.mp hV with h | h
        · exact absurd h.symm hx
        · exact h
      have ih' := ih hV'
      by_cases h1 : x ∈ vis
      · simp only [h1, or_true, if_true]
        omega
      · simp only [hx, h1, or_self, if_false]
        omega

theorem relaxEdge_pq_length (cur : String) (s : DijkstraState) (n : String) (w : Int) :
    (relaxEdge cur s n w).pq.length ≤ s.pq.length + 1 := by
  unfold relaxEdge
  split
  · simp [length_pqPush]
  · simp

theorem relaxAll_pq_length (cur : String) (edges : List (String × Edge)) :
    ∀ s : DijkstraState, (relaxAll cur edges s).pq.length ≤ s.pq.length + edges.length := by
  induction edges with
  | nil => intro s; simp [relaxAll]
  | cons x rest ih =>
    obtain ⟨n, e⟩ := x
    intro s
    simp only [relaxAll, List.length_cons]
    have h1 := ih (relaxEdge cur s n e.edgeWeight)
    have h2 := relaxEdge_pq_length cur s n e.edgeWeight
    omega

/-- From a state that satisfies the invariant, `spLoop` with enough fuel ends in a state
with an empty queue that satisfies the invariant. -/
theorem spLoop_runs {adj : String → List (String × Edge)} {V : List String} {start : String}
    (hG : WeightedOK adj V) :
    ∀ (n : Nat) (vis : List String) (s : DijkstraState) (pc : String),
      SpInv adj V start pc [] vis s →
      s.pq.length + pendingEdges adj vis V < n →
      ∃ out vis' pc', spLoop adj n vis s = some out ∧ out.pq = [] ∧
        SpInv adj V start pc' [] vis' out := by
  intro n
  induction n with
  | zero =>
    intro vis s pc _ h
    exact absurd h (by omega)
  | succ n ih =>
    intro vis s pc hI hn
    cases hpq : s.pq with
    | nil =>
      refine ⟨s, vis, pc, ?_, hpq, hI⟩
      simp only [spLoop, hpq]
    | cons x pq1 =>
      obtain ⟨c, cur⟩ := x
      simp only [spLoop, hpq]
      rw [hpq] at hn
      simp only [List.length_cons] at hn
      by_cases hcur : cur ∈ vis
      · rw [if_pos hcur]
        exact ih vis _ pc (spInv_pop_stale hI hpq hcur) (by simp only; omega)
      · rw [if_neg hcur]
        have hcV : cur ∈ V := (hI.pq_ok (c, cur) (by rw [hpq]; simp)).1
        have hI1 := spInv_pop_fresh hG hI hpq hcur
        have hI2 := spInv_relaxAll hG (List.mem_cons_self cur vis) (adj cur) _
          (fun _ h => h) hI1
        have hlen := relaxAll_pq_length cur (adj cur) { s with pq := pq1 }
        have hpend := pendingEdges_step adj vis cur hcur V hcV
        simp only at hlen
        exact ih (cur :: vis) _ cur hI2 (by omega)

/-! ## The assumptions on the graph -/

theorem weightSum_append (L1 L2 : List (String × String × Int)) :
    weightSum (L1 ++ L2) = weightSum L1 + weightSum L2 := by
  simp [weightSum]

theorem weightSum_sublist {L1 L2 : List (String × String × Int)} (h : L1.Sublist L2)
    (hnn : ∀ t, t ∈ L2 → 0 ≤ t.2.2) : weightSum L1 ≤ weightSum L2 := by
  induction h with
  | slnil => exact le_refl _
  | cons a _ ih =>
    rw [weightSum_cons]
    have := hnn a (by simp)
    have := ih (fun t ht => hnn t (List.mem_cons_of_mem _ ht))
    omega
  | cons₂ a _ ih =>
    rw [weightSum_cons, weightSum_cons]
    have := ih (fun t ht => hnn t (List.mem_cons_of_mem _ ht))
    omega

theorem weightSum_perm {L1 L2 : List (String × String × Int)} (h : L1.Perm L2) :
    weightSum L1 = weightSum L2 := by
  unfold weightSum
  exact (h.map _).sum_eq

theorem weightSum_le_of_nodup_subset {L E : List (String × String × Int)} (hnd : L.Nodup)
    (hsub : ∀ t, t ∈ L → t ∈ E) (hnn : ∀ t, t ∈ E → 0 ≤ t.2.2) :
    weightSum L ≤ weightSum E := by
  obtain ⟨L', hperm, hsl⟩ := List.subperm_of_subset hnd hsub
  rw [← weightSum_perm hperm]
  exact weightSum_sublist hsl hnn

theorem mem_edgesOf {m : List (String × Option Vertex)} {k : String} {v : Vertex}
    (hmem : (k, some v) ∈ m) {n : String} {e : Edge} (he : (n, e) ∈ v.adjacencyList) :
    (k, n, e.edgeWeight) ∈ edgesOf m := by
  induction m with
  | nil => simp at hmem
  | cons x rest ih =>
    obtain ⟨k₁, p₁⟩ := x
    rcases List.mem_cons.mp hmem with h | h
    · simp only [Prod.mk.injEq] at h
      obtain ⟨h1, h2⟩ := h
      subst h1
      subst h2
      simp only [edgesOf, List.mem_append, List.mem_map]
      exact Or.inl ⟨(n, e), he, rfl⟩
    · cases p₁ with
      | none => exact ih h
      | some v' =>
        simp only [edgesOf, List.mem_append]
        exact Or.inr (ih h)

theorem edgesOf_mem {m : List (String × Option Vertex)} {t : String × String × Int}
    (h : t ∈ edgesOf m) :
    ∃ v e, (t.1, some v) ∈ m ∧ (t.2.1, e) ∈ v.adjacencyList ∧ e.edgeWeight = t.2.2 := by
  induction m with
  | nil => simp [edgesOf] at h
  | cons x rest ih =>
    obtain ⟨k₁, p₁⟩ := x
    cases p₁ with
    | none =>
      obtain ⟨v, e, h1, h2⟩ := ih h
      exact ⟨v, e, List.mem_cons_of_mem _ h1, h2⟩
    | some v' =>
      simp only [edgesOf, List.mem_append, List.mem_map] at h
      rcases h with ⟨ne, hne, heq⟩ | h
      · refine ⟨v', ne.2, ?_, ?_, ?_⟩
        · rw [← heq]; simp
        · rw [← heq]; exact hne
        · rw [← heq]
      · obtain ⟨v, e, h1, h2⟩ := ih h
        exact ⟨v, e, List.mem_cons_of_mem _ h1, h2⟩

theorem adjOf_mem_find {g : Graph} {u n : String} {e : Edge} (h : (n, e) ∈ g.adjOf u) :
    ∃ v, mapFind g.vertices u = some (some v) ∧ (n, e) ∈ v.adjacencyList := by
  unfold Graph.adjOf Graph.findVertex at h
  cases hf : mapFind g.vertices u with
  | none => rw [hf] at h; simp at h
  | some p =>
    cases p with
    | none => rw [hf] at h; simp at h
    | some v =>
      rw [hf] at h
      exact ⟨v, rfl, h⟩

/-- A well-formed graph whose stored weights are non-negative and sum to less than
`INT_MAX` meets the assumptions of the shortest-path invariant. -/
theorem weightedOK_of_inv {g : Graph} (hg : g.Inv) (hnn : ∀ t, t ∈ g.edges → 0 ≤ t.2.2)
    (hsum : weightSum g.edges < INT_MAX) : WeightedOK g.adjOf (mapKeys g.vertices) := by
  refine ⟨?_, ?_, ?_, ?_⟩
  · intro u n e h
    obtain ⟨v, hv, hmem⟩ := adjOf_mem_find h
    have hok := hg.ok_of_find hv
    have hk := mem_mapKeys_of_mem hmem
    exact ⟨hok.closed n hk, fun heq => hok.noSelf (heq ▸ hk)⟩
  · intro u n e h
    obtain ⟨v, hv, hmem⟩ := adjOf_mem_find h
    exact hnn _ (mem_edgesOf (mapFind_some_mem hv) hmem)
  · intro u
    rw [← neighbors_eq_keys_adjOf]
    exact hg.neighbors_nodup u
  · intro L hnd hedges
    refine lt_of_le_of_lt (weightSum_le_of_nodup_subset hnd ?_ hnn) hsum
    intro t ht
    obtain ⟨e, he, hw⟩ := hedges t ht
    obtain ⟨v, hv, hmem⟩ := adjOf_mem_find he
    have := mem_edgesOf (mapFind_some_mem hv) hmem
    rw [hw] at this
    exact this

/-! ## The initial state -/

theorem mem_mapKeys_initWeights (ks : List String) :
    ∀ (m : List (String × Int)) (k : String),
      k ∈ mapKeys (initWeights ks m) ↔ k ∈ ks ∨ k ∈ mapKeys m := by
  induction ks with
  | nil => intro m k; simp [initWeights]
  | cons x ks ih =>
    intro m k
    simp only [initWeights]
    rw [ih, mem_mapKeys_mapAssign, List.mem_cons]
    tauto

theorem keysSorted_initWeights (ks : List String) :
    ∀ m : List (String × Int), KeysSorted m → KeysSorted (initWeights ks m) := by
  induction ks with
  | nil => intro m h; exact h
  | cons x ks ih =>
    intro m h
    simp only [initWeights]
    exact ih _ (keysSorted_mapAssign m x INT_MAX h)

theorem getW_initWeights (ks : List String) :
    ∀ (m : List (String × Int)) (k : String),
      getW (initWeights ks m) k = if k ∈ ks then INT_MAX else getW m k := by
  induction ks with
  | nil => intro m k; simp [initWeights]
  | cons x ks ih =>
    intro m k
    simp only [initWeights]
    rw [ih, getW_mapAssign]
    by_cases h1 : k ∈ ks
    · simp [h1]
    · by_cases h2 : k = x
      · simp [h2]
      · simp [h1, h2]

theorem spInv_init (adj : String → List (String × Edge)) (V : List String) (start : String)
    (hs : start ∈ V) (gr : Graph) :
    SpInv adj V start start [] []
      { graph := gr, weight := mapAssign (initWeights V []) start 0, previous := [],
        pq := pqPush [] (0, start) } := by
  have hD : ∀ v, v ∈ V → getW (mapAssign (initWeights V []) start 0) v
      = if v = start then 0 else INT_MAX := by
    intro v hv
    rw [getW_mapAssign, getW_initWeights]
    simp [hv]
  have hfin : ∀ v, v ∈ V → getW (mapAssign (initWeights V []) start 0) v < INT_MAX →
      v = start := by
    intro v hv h
    rw [hD v hv] at h
    by_contra hne
    rw [if_neg hne] at h
    exact absurd h (lt_irrefl _)
  have hDs : getW (mapAssign (initWeights V []) start 0) start = 0 := by
    rw [hD start hs, if_pos rfl]
  refine
    { wkeys := ?_, wsorted := ?_, start_mem := hs, d_start := hDs, le_max := ?_,
      fin_walk := ?_, witness := ?_, vis_sub := by simp, vis_min := by simp,
      relaxed := by simp, queued := ?_, pq_ok := ?_, pq_sorted := by simp [pqPush],
      prev_ok := by simp [mapFind], prev_some := ?_, prev_start := rfl }
  · intro k
    simp only
    rw [mem_mapKeys_mapAssign, mem_mapKeys_initWeights]
    simp only [mapKeys, List.map_nil, List.not_mem_nil, or_false]
    constructor
    · rintro (h | h)
      · rw [h]; exact hs
      · exact h
    · exact Or.inr
  · exact keysSorted_mapAssign _ _ _ (keysSorted_initWeights V [] (by simp [KeysSorted, mapKeys]))
  · intro v hv
    simp only
    rw [hD v hv]
    split
    · unfold INT_MAX; omega
    · exact le_refl _
  · intro v hv h
    have := hfin v hv h
    subst this
    simp only
    rw [hDs]
    exact PredWalkIn.refl
  · intro v hv h
    have := hfin v hv h
    subst this
    refine ⟨[], List.nodup_nil, by simp, by simp, ?_⟩
    simp only
    rw [hDs]
    simp [weightSum]
  · intro v hv _ h
    have := hfin v hv h
    subst this
    simp only
    rw [hDs]
    simp [pqPush]
  · intro x hx
    simp only [pqPush, List.mem_singleton] at hx
    subst hx
    simp only
    rw [hDs]
    exact ⟨hs, le_refl _, by unfold INT_MAX; omega⟩
  · intro v hv hne h
    exact absurd (hfin v hv h) hne

/-! ## The final state -/

theorem final_visited {adj : String → List (String × Edge)} {V : List String}
    {start pc : String} {vis : List String} {s : DijkstraState} (hG : WeightedOK adj V)
    (hI : SpInv adj V start pc [] vis s) (hpq : s.pq = []) {v : String} {c : Int}
    (h : WalkTo adj start v c) : v ∈ vis := by
  induction h with
  | refl =>
    by_contra hs
    have := hI.queued start hI.start_mem hs (by rw [hI.d_start]; unfold INT_MAX; omega)
    rw [hpq] at this
    simp at this
  | step hw hedge ih =>
    rename_i u v' c' e
    by_contra hv
    obtain ⟨-, -, hb⟩ := relax_sum_bounds hG (spInv_pcur u hI) ih hedge
    have hrel : getW s.weight v' ≤ getW s.weight u + e.edgeWeight := by
      rcases hI.relaxed u ih v' e hedge with ⟨-, hp⟩ | h
      · simp at hp
      · exact h
    have := hI.queued v' (hG.closed _ _ _ hedge).1 hv (by omega)
    rw [hpq] at this
    simp at this

/-- The contents of the output maps at the end of the shortest-path loops. -/
theorem final_maps {adj : String → List (String × Edge)} {V : List String}
    {start pc : String} {vis : List String} {s : DijkstraState} (hG : WeightedOK adj V)
    (hI : SpInv adj V start pc [] vis s) (hpq : s.pq = []) :
    (∀ k, k ∈ mapKeys s.weight ↔ k ∈ V) ∧ KeysSorted s.weight ∧
    mapFind s.weight start = some 0 ∧
    (∀ v, v ∈ V →
      ((∃ c, WalkTo adj start v c) →
        ∃ d, mapFind s.weight v = some d ∧ IsMinWeight adj start v d) ∧
      ((¬ ∃ c, WalkTo adj start v c) → mapFind s.weight v = some INT_MAX)) ∧
    (∀ v, (mapFind s.previous v).isSome = true ↔ (v ≠ start ∧ ∃ c, WalkTo adj start v c)) ∧
    (∀ v p, mapFind s.previous v = some p →
      ∃ e dv dp, (v, e) ∈ adj p ∧ mapFind s.weight v = some dv ∧ mapFind s.weight p = some dp ∧
        dv = dp + e.edgeWeight ∧ PredWalk adj s.previous start v dv) := by
  have hfind : ∀ v, v ∈ V → mapFind s.weight v = some (getW s.weight v) :=
    fun v hv => mapFind_eq_getW _ _ ((hI.wkeys v).mpr hv)
  refine ⟨hI.wkeys, hI.wsorted, ?_, ?_, ?_, ?_⟩
  · rw [hfind start hI.start_mem, hI.d_start]
  · intro v hv
    constructor
    · rintro ⟨c, hc⟩
      have hvis := final_visited hG hI hpq hc
      obtain ⟨hfin, hmin⟩ := hI.vis_min v hvis
      exact ⟨_, hfind v hv, predWalkIn_walkTo (hI.fin_walk v hv hfin), hmin⟩
    · intro hno
      rw [hfind v hv]
      have hle := hI.le_max v hv
      by_cases hfin : getW s.weight v < INT_MAX
      · exact absurd ⟨_, predWalkIn_walkTo (hI.fin_walk v hv hfin)⟩ hno
      · congr 1
        omega
  · intro v
    constructor
    · intro hsome
      obtain ⟨p, hp⟩ := Option.isSome_iff_exists.mp hsome
      obtain ⟨-, hv, hfin, -⟩ := hI.prev_ok v p hp
      refine ⟨?_, _, predWalkIn_walkTo (hI.fin_walk v hv hfin)⟩
      intro h
      rw [h, hI.prev_start] at hp
      exact absurd hp (by simp)
    · rintro ⟨hne, c, hc⟩
      have hvis := final_visited hG hI hpq hc
      exact hI.prev_some v (hI.vis_sub v hvis) hne (hI.vis_min v hvis).1
  · intro v p hp
    obtain ⟨hpvis, hv, hfin, e, he, heq⟩ := hI.prev_ok v p hp
    exact ⟨e, _, _, he, hfind v hv, hfind p (hI.vis_sub p hpvis), heq,
      predWalkIn_predWalk (hI.fin_walk v hv hfin)⟩

/-! ## The shortest-path method on a well-formed graph -/

theorem hasEdge_of_adjOf {g : Graph} {p v : String} {e : Edge} (h : (v, e) ∈ g.adjOf p) :
    g.hasEdge p v = true := by
  rw [hasEdge_iff_mem_neighbors, neighbors_eq_keys_adjOf]
  exact mem_mapKeys_of_mem h

/-- On a well-formed graph with non-negative weights of total below `INT_MAX`, called for
a registered start label with empty maps and enough fuel, the shortest-path method
returns, and its output maps are those described by `final_maps`. -/
theorem dijkstra_correct {g : Graph} (hg : g.Inv) (hnn : ∀ t, t ∈ g.edges → 0 ≤ t.2.2)
    (hsum : weightSum g.edges < INT_MAX) {start : String} (hs : start ∈ mapKeys g.vertices)
    (fuel : Nat)
    (hfuel : pendingEdges g.adjOf [] (mapKeys g.vertices) + edgeTotal g.vertices + 2 < fuel) :
    ∃ g2 weight previous,
      g.djikstraCostToAllVertices fuel start [] [] = .ok (g2, weight, previous) ∧
      g2.skel = g.skel ∧
      (∀ k, k ∈ mapKeys weight ↔ k ∈ mapKeys g.vertices) ∧ KeysSorted weight ∧
      mapFind weight start = some 0 ∧
      (∀ v, v ∈ mapKeys g.vertices →
        ((∃ c, WalkTo g.adjOf start v c) →
          ∃ d, mapFind weight v = some d ∧ IsMinWeight g.adjOf start v d) ∧
        ((¬ ∃ c, WalkTo g.adjOf start v c) → mapFind weight v = some INT_MAX)) ∧
      (∀ v, (mapFind previous v).isSome = true ↔
        (v ≠ start ∧ ∃ c, WalkTo g.adjOf start v c)) ∧
      (∀ v p, mapFind previous v = some p →
        ∃ e dv dp, (v, e) ∈ g.adjOf p ∧ mapFind weight v = some dv ∧
          mapFind weight p = some dp ∧ dv = dp + e.edgeWeight ∧
          PredWalk g.adjOf previous start v dv) := by
  have hG := weightedOK_of_inv hg hnn hsum
  have hkeys : mapKeys g.unvisitVertices.vertices = mapKeys g.vertices :=
    keys_of_skel_eq (unvisit_skel g)
  have hI0 := spInv_init g.adjOf (mapKeys g.vertices) start hs g.unvisitVertices
  obtain ⟨out, vis', pc', hrun, hpq, hI⟩ := spLoop_runs hG
    (pendingEdges g.adjOf [] (mapKeys g.vertices) + 2) [] _ start hI0
    (by simp only [pqPush, List.length_singleton]; omega)
  obtain ⟨g2, hloop, hsk⟩ := dijkstraLoop_refines hg _ _ [] out (unvisit_skel g)
    (fun k => by rw [isMarked_unvisit]; simp)
    (by
      intro x hx
      simp only [pqPush, List.mem_singleton] at hx
      rw [hx]
      exact hs)
    hrun fuel (by omega)
  obtain ⟨v, -, hidx, -, -, -⟩ := traversal_prologue hg hs
  refine ⟨g2, out.weight, out.previous, ?_, hsk, final_maps hG hI hpq⟩
  unfold Graph.djikstraCostToAllVertices
  rw [hidx]
  simp only [hkeys]
  rw [hloop]
  rfl

/-! ## The stored edges and the `add` calls -/

/-- The sum of the weights of an adjacency list. -/
theorem weightSum_map_insertNew (k : String) (adj : List (String × Edge)) (n : String)
    (e : Edge) :
    weightSum ((mapInsertNew adj n e).map (fun ne => (k, ne.1, ne.2.edgeWeight)))
      = e.edgeWeight + weightSum (adj.map (fun ne => (k, ne.1, ne.2.edgeWeight))) := by
  have h := (mapInsertNew_perm adj n e).map (fun ne => (k, ne.1, ne.2.edgeWeight))
  rw [weightSum_perm h, List.map_cons, weightSum_cons]

theorem edgesOf_mapInsertNew_new (m : List (String × Option Vertex)) (k : String) :
    edgesOf (mapInsertNew m k (some (Vertex.new k))) = edgesOf m := by
  induction m with
  | nil => simp [mapInsertNew, edgesOf, Vertex.new]
  | cons x rest ih =>
    obtain ⟨k₁, p₁⟩ := x
    simp only [mapInsertNew]
    split
    · simp [edgesOf, Vertex.new]
    · cases p₁ <;> simp [edgesOf, ih]

theorem edgesOf_findOrCreateVertex (g : Graph) (k : String) :
    edgesOf (g.findOrCreateVertex k).1.vertices = edgesOf g.vertices := by
  unfold Graph.findOrCreateVertex
  split
  · rfl
  · simp only [mapInsert]
    split
    · rfl
    · exact edgesOf_mapInsertNew_new _ _

theorem weightSum_edgesOf_mapSet (m : List (String × Option Vertex)) (k : String)
    (old v : Vertex) (h : mapFind m k = some (some old)) :
    weightSum (edgesOf (mapSet m k (some v)))
        + weightSum (old.adjacencyList.map (fun ne => (k, ne.1, ne.2.edgeWeight)))
      = weightSum (edgesOf m)
        + weightSum (v.adjacencyList.map (fun ne => (k, ne.1, ne.2.edgeWeight))) := by
  induction m with
  | nil => simp [mapFind] at h
  | cons x rest ih =>
    obtain ⟨k₁, p₁⟩ := x
    by_cases h1 : k₁ = k
    · simp only [mapFind, h1, if_true, Option.some.injEq] at h
      subst h
      subst h1
      simp only [mapSet, if_true, edgesOf, weightSum_append]
      omega
    · simp only [mapFind, h1, if_false] at h
      have ih' := ih h
      cases p₁ with
      | none =>
        simp only [mapSet, h1, if_false, edgesOf]
        exact ih'
      | some v' =>
        simp only [mapSet, h1, if_false, edgesOf, weightSum_append]
        omega

theorem mem_edgesOf_mapSet {m : List (String × Option Vertex)} {k : String} {v : Vertex}
    {t : String × String × Int} (h : t ∈ edgesOf (mapSet m k (some v))) :
    t ∈ edgesOf m ∨ ∃ e, (t.2.1, e) ∈ v.adjacencyList ∧ t.1 = k ∧ e.edgeWeight = t.2.2 := by
  obtain ⟨v', e, h1, h2, h3⟩ := edgesOf_mem h
  rcases mem_mapSet h1 with h4 | h4
  · simp only [Prod.mk.injEq, Option.some.injEq] at h4
    right
    exact ⟨e, h4.2 ▸ h2, h4.1, h3⟩
  · left
    have := mem_edgesOf h4 h2
    rw [h3] at this
    exact this

/-- The edges stored after an `add` call on a well-formed graph: their total weight grows
by the weight passed when the call returns true, and every stored edge was stored before
or is the edge passed. -/
theorem edges_add {g : Graph} (hg : g.Inv) (s e : String) (w : Int) :
    weightSum (g.add s e w).1.edges
        = weightSum g.edges + (if (g.add s e w).2 then w else 0) ∧
    ∀ t, t ∈ (g.add s e w).1.edges → t ∈ g.edges ∨ t = (s, e, w) := by
  cases hres : (g.add s e w).2 with
  | false =>
    rw [(add_false_spec hg s e w).2 hres]
    exact ⟨by simp, fun t ht => Or.inl ht⟩
  | true =>
    obtain ⟨hne, hc, heq⟩ := add_true_eq g s e w hres
    obtain ⟨h1inv, h1find, h1held, -, -, -, -, -⟩ := findOrCreateVertex_spec hg s
    have hfind2 : mapFind ((g.findOrCreateVertex s).1.findOrCreateVertex e).1.vertices s
        = some (some (g.findOrCreateVertex s).2.1) := by
      rw [findOrCreateVertex_find_ne _ _ _ hne, h1find]
    have hedges2 : edgesOf ((g.findOrCreateVertex s).1.findOrCreateVertex e).1.vertices
        = edgesOf g.vertices := by
      rw [edgesOf_findOrCreateVertex, edgesOf_findOrCreateVertex]
    have hnone : mapFind (g.findOrCreateVertex s).2.1.adjacencyList e = none := by
      cases hf : mapFind (g.findOrCreateVertex s).2.1.adjacencyList e with
      | none => rfl
      | some x =>
        rw [connect_present w (by simp [hf])] at hc
        exact absurd hc (by simp)
    have hlabel : e ≠ (g.findOrCreateVertex s).2.1.vertexLabel := by
      intro h
      simp [Vertex.connect, h] at hc
    have hconn := connect_absent w hlabel hnone
    rw [heq]
    simp only [h1held, if_true, Graph.edges]
    have hsum := weightSum_edgesOf_mapSet _ s _ ((g.findOrCreateVertex s).2.1.connect e w).1
      hfind2
    rw [hconn] at hsum ⊢
    simp only at hsum ⊢
    rw [weightSum_map_insertNew, hedges2] at hsum
    simp only at hsum
    refine ⟨by omega, ?_⟩
    intro t ht
    rcases mem_edgesOf_mapSet ht with h | ⟨x, hx, ht1, ht2⟩
    · rw [hedges2] at h
      exact Or.inl h
    · rcases (mem_mapInsertNew _ _ _ _).mp hx with h | h
      · right
        simp only [Prod.mk.injEq] at h
        obtain ⟨h3, h4⟩ := h
        rw [h4] at ht2
        simp only at ht2
        exact Prod.ext ht1 (Prod.ext h3 ht2.symm)
      · left
        have := mem_edgesOf (mapFind_some_mem hfind2) h
        rw [hedges2, ← ht1, ht2] at this
        exact this

/-- When every weight passed to `add` is non-negative and the weights passed sum to less
than `INT_MAX`, the weights stored in the graph are non-negative and sum to less than
`INT_MAX`. -/
theorem stored_weights_of_calls (calls : List (String × String × Int))
    (hnn : ∀ c, c ∈ calls → 0 ≤ c.2.2) (hsum : weightSum calls < INT_MAX) :
    (∀ t, t ∈ (buildGraph calls).edges → 0 ≤ t.2.2) ∧
    weightSum (buildGraph calls).edges < INT_MAX := by
  have key : ∀ (calls : List (String × String × Int)) (g : Graph), g.Inv →
      (∀ c, c ∈ calls → 0 ≤ c.2.2) →
      (∀ t, t ∈ (g.addAll calls).edges → t ∈ g.edges ∨ t ∈ calls) ∧
      weightSum (g.addAll calls).edges ≤ weightSum g.edges + weightSum calls := by
    intro calls
    induction calls with
    | nil =>
      intro g _ _
      exact ⟨fun t ht => Or.inl ht, by simp [Graph.addAll, weightSum]⟩
    | cons c rest ih =>
      obtain ⟨s, e, w⟩ := c
      intro g hg hnn
      obtain ⟨h1, h2⟩ := ih (g.add s e w).1 (add_inv hg s e w)
        (fun c hc => hnn c (List.mem_cons_of_mem _ hc))
      obtain ⟨h3, h4⟩ := edges_add hg s e w
      have hw := hnn (s, e, w) (by simp)
      simp only at hw
      refine ⟨?_, ?_⟩
      · intro t ht
        rcases h1 t ht with h | h
        · rcases h4 t h with h5 | h5
          · exact Or.inl h5
          · exact Or.inr (by rw [h5]; simp)
        · exact Or.inr (List.mem_cons_of_mem _ h)
      · simp only [Graph.addAll]
        rw [weightSum_cons]
        simp only
        rw [h3] at h2
        split at h2 <;> omega
  obtain ⟨h1, h2⟩ := key calls Graph.empty inv_empty hnn
  have h0 : weightSum Graph.empty.edges = 0 := by simp [Graph.empty, Graph.edges, edgesOf, weightSum]
  have hmem0 : ∀ t, t ∉ Graph.empty.edges := by simp [Graph.empty, Graph.edges, edgesOf]
  refine ⟨?_, ?_⟩
  · intro t ht
    rcases h1 t ht with h | h
    · exact absurd h (hmem0 t)
    · exact hnn t h
  · unfold buildGraph
    omega

/-! ## Claims on the shortest-path method -/

/-- C1: on a graph built from the empty graph by `add` calls whose stored edge weights are
non-negative and sum to less than `INT_MAX`, for a start label registered in the graph,
`djikstraCostToAllVertices(start)` called with empty output maps returns (given enough
fuel) and leaves a distance map whose keys are exactly the registered labels, in which
the start maps to `0`, every vertex reachable from the start maps to the minimum total
weight of a walk from the start to it, and every other vertex maps to `INT_MAX`.  A walk is
any sequence of consecutive directed edges.  The two assumptions on the stored weights
follow from the same assumptions on the weights passed to `add`
(`stored_weights_of_calls`). -/
theorem c1_dijkstra_distances (calls : List (String × String × Int)) (start : String)
    (hs : start ∈ mapKeys (buildGraph calls).vertices)
    (hnn : ∀ t, t ∈ (buildGraph calls).edges → 0 ≤ t.2.2)
    (hsum : weightSum (buildGraph calls).edges < INT_MAX) :
    ∃ N, ∀ fuel, N ≤ fuel →
      ∃ g2 weight previous,
        (buildGraph calls).djikstraCostToAllVertices fuel start [] []
          = .ok (g2, weight, previous) ∧
        (∀ k, k ∈ mapKeys weight ↔ k ∈ mapKeys (buildGraph calls).vertices) ∧
        KeysSorted weight ∧
        mapFind weight start = some 0 ∧
        ∀ v, v ∈ mapKeys (buildGraph calls).vertices →
          ((∃ c, WalkTo (buildGraph calls).adjOf start v c) →
            ∃ d, mapFind weight v = some d ∧
              IsMinWeight (buildGraph calls).adjOf start v d) ∧
          ((¬ ∃ c, WalkTo (buildGraph calls).adjOf start v c) →
            mapFind weight v = some INT_MAX) := by
  refine ⟨pendingEdges (buildGraph calls).adjOf [] (mapKeys (buildGraph calls).vertices)
    + edgeTotal (buildGraph calls).vertices + 3, ?_⟩
  intro fuel hfuel
  obtain ⟨g2, weight, previous, hrun, -, h1, h2, h3, h4, -, -⟩ :=
    dijkstra_correct (buildGraph_inv calls) hnn hsum hs fuel (by omega)
  exact ⟨g2, weight, previous, hrun, h1, h2, h3, h4⟩

/-- Witness for C1: the example graph of the specification, from `A`. -/
theorem c1_dijkstra_distances_witness :
    ∃ N, ∀ fuel, N ≤ fuel →
      ∃ g2 weight previous,
        exampleGraph.djikstraCostToAllVertices fuel "A" [] [] = .ok (g2, weight, previous) ∧
        (∀ k, k ∈ mapKeys weight ↔ k ∈ mapKeys exampleGraph.vertices) ∧
        KeysSorted weight ∧
        mapFind weight "A" = some 0 ∧
        ∀ v, v ∈ mapKeys exampleGraph.vertices →
          ((∃ c, WalkTo exampleGraph.adjOf "A" v c) →
            ∃ d, mapFind weight v = some d ∧ IsMinWeight exampleGraph.adjOf "A" v d) ∧
          ((¬ ∃ c, WalkTo exampleGraph.adjOf "A" v c) → mapFind weight v = some INT_MAX) :=
  c1_dijkstra_distances
    [("A", "B", 1), ("A", "C", 4), ("B", "C", 2), ("B", "D", 5), ("C", "D", 1)] "A"
    (by decide) (by decide) (by decide)

/-- C8: under the assumptions of C1, after `djikstraCostToAllVertices(start)` called with
empty output maps the predecessor map has an entry for `v` exactly when `v` differs from
the start and is reachable from it; for every entry `previous[v] = p` the edge from `p` to
`v` is stored in the graph and `weight[v] = weight[p] + (weight of that edge)`; and
following predecessors from `v` leads to the start along a walk of total weight
`weight[v]`. -/
theorem c8_dijkstra_predecessors (calls : List (String × String × Int)) (start : String)
    (hs : start ∈ mapKeys (buildGraph calls).vertices)
    (hnn : ∀ t, t ∈ (buildGraph calls).edges → 0 ≤ t.2.2)
    (hsum : weightSum (buildGraph calls).edges < INT_MAX) :
    ∃ N, ∀ fuel, N ≤ fuel →
      ∃ g2 weight previous,
        (buildGraph calls).djikstraCostToAllVertices fuel start [] []
          = .ok (g2, weight, previous) ∧
        (∀ v, (mapFind previous v).isSome = true ↔
          (v ≠ start ∧ ∃ c, WalkTo (buildGraph calls).adjOf start v c)) ∧
        ∀ v p, mapFind previous v = some p →
          ∃ e dv dp, (v, e) ∈ (buildGraph calls).adjOf p ∧
            (buildGraph calls).hasEdge p v = true ∧
            mapFind weight v = some dv ∧ mapFind weight p = some dp ∧
            dv = dp + e.edgeWeight ∧
            PredWalk (buildGraph calls).adjOf previous start v dv := by
  refine ⟨pendingEdges (buildGraph calls).adjOf [] (mapKeys (buildGraph calls).vertices)
    + edgeTotal (buildGraph calls).vertices + 3, ?_⟩
  intro fuel hfuel
  obtain ⟨g2, weight, previous, hrun, -, -, -, -, -, h5, h6⟩ :=
    dijkstra_correct (buildGraph_inv calls) hnn hsum hs fuel (by omega)
  refine ⟨g2, weight, previous, hrun, h5, ?_⟩
  intro v p hp
  obtain ⟨e, dv, dp, he, hv, hp', heq, hwalk⟩ := h6 v p hp
  exact ⟨e, dv, dp, he, hasEdge_of_adjOf he, hv, hp', heq, hwalk⟩

/-- Witness for C8: the example graph of the specification, from `A`. -/
theorem c8_dijkstra_predecessors_witness :
    ∃ N, ∀ fuel, N ≤ fuel →
      ∃ g2 weight previous,
        exampleGraph.djikstraCostToAllVertices fuel "A" [] [] = .ok (g2, weight, previous) ∧
        (∀ v, (mapFind previous v).isSome = true ↔
          (v ≠ "A" ∧ ∃ c, WalkTo exampleGraph.adjOf "A" v c)) ∧
        ∀ v p, mapFind previous v = some p →
          ∃ e dv dp, (v, e) ∈ exampleGraph.adjOf p ∧
            exampleGraph.hasEdge p v = true ∧
            mapFind weight v = some dv ∧ mapFind weight p = some dp ∧
            dv = dp + e.edgeWeight ∧
            PredWalk exampleGraph.adjOf previous "A" v dv :=
  c8_dijkstra_predecessors
    [("A", "B", 1), ("A", "C", 4), ("B", "C", 2), ("B", "D", 5), ("C", "D", 1)] "A"
    (by decide) (by decide) (by decide)

/-! ## `connect`, `disconnect` and the neighbour iteration of a vertex -/

theorem mapErase_mapInsertNew {V : Type} (m : List (String × V)) (k : String) (v : V)
    (h : mapFind m k = none) : mapErase (mapInsertNew m k v) k = m := by
  induction m with
  | nil => simp [mapInsertNew, mapErase]
  | cons x rest ih =>
    obtain ⟨k₁, v₁⟩ := x
    by_cases hk : k₁ = k
    · simp [mapFind, hk] at h
    · simp only [mapFind, hk, if_false] at h
      simp only [mapInsertNew]
      split
      · simp [mapErase]
      · simp only [mapErase, hk, if_false, ih h]

theorem mapFind_mapErase_ne {V : Type} (m : List (String × V)) (k k' : String) (h : k' ≠ k) :
    mapFind (mapErase m k) k' = mapFind m k' := by
  induction m with
  | nil => rfl
  | cons x rest ih =>
    obtain ⟨k₁, v₁⟩ := x
    simp only [mapErase]
    by_cases hk : k₁ = k
    · rw [if_pos hk]
      have : ¬ k₁ = k' := fun h' => h (h'.symm.trans hk)
      simp [mapFind, this]
    · rw [if_neg hk]
      simp only [mapFind, ih]

theorem length_mapErase {V : Type} (m : List (String × V)) (k : String) (x : V)
    (h : mapFind m k = some x) : (mapErase m k).length + 1 = m.length := by
  induction m with
  | nil => simp [mapFind] at h
  | cons y rest ih =>
    obtain ⟨k₁, v₁⟩ := y
    by_cases hk : k₁ = k
    · simp [mapErase, hk]
    · simp only [mapFind, hk, if_false] at h
      simp only [mapErase, hk, if_false, List.length_cons, ih h]

theorem mem_mapErase {V : Type} {m : List (String × V)} {k : String} {x : String × V}
    (h : x ∈ mapErase m k) : x ∈ m := by
  induction m with
  | nil => simp [mapErase] at h
  | cons y rest ih =>
    obtain ⟨k₁, v₁⟩ := y
    simp only [mapErase] at h
    split at h
    · exact List.mem_cons_of_mem _ h
    · rcases List.mem_cons.mp h with h1 | h1
      · rw [h1]; simp
      · exact List.mem_cons_of_mem _ (ih h1)

theorem mapErase_sublist {V : Type} (m : List (String × V)) (k : String) :
    (mapErase m k).Sublist m := by
  induction m with
  | nil => exact List.Sublist.slnil
  | cons y rest ih =>
    obtain ⟨k₁, v₁⟩ := y
    simp only [mapErase]
    split
    · exact List.sublist_cons_self _ _
    · exact List.Sublist.cons₂ _ ih

theorem keysSorted_mapErase {V : Type} (m : List (String × V)) (k : String)
    (h : KeysSorted m) : KeysSorted (mapErase m k) := by
  unfold KeysSorted mapKeys at *
  exact h.sublist ((mapErase_sublist m k).map Prod.fst)

theorem mapFind_mapErase_self {V : Type} (m : List (String × V)) (k : String)
    (h : KeysSorted m) : mapFind (mapErase m k) k = none := by
  induction m with
  | nil => rfl
  | cons y rest ih =>
    obtain ⟨k₁, v₁⟩ := y
    simp only [mapErase]
    by_cases hk : k₁ = k
    · rw [if_pos hk, mapFind_eq_none_iff]
      intro hmem
      have := h.head_lt k hmem
      simp only at this
      rw [hk, strLt_irrefl] at this
      exact absurd this (by simp)
    · rw [if_neg hk]
      simp only [mapFind, hk, if_false]
      exact ih h.tail

/-- The facts kept by `connect` and `disconnect`: the label is fixed, the adjacency map is
ascending, has no entry for the own label, and stores under `n` an edge ending at `n`. -/
theorem vertexOK_applyOp {keys : List String} {k : String} {v : Vertex}
    (h : VertexOK keys k v) (op : VertexOp) :
    VertexOK (mapKeys (v.applyOp op).adjacencyList) k (v.applyOp op) := by
  have hself : VertexOK (mapKeys v.adjacencyList) k v :=
    { label := h.label, sorted := h.sorted, noSelf := h.noSelf, ends := h.ends,
      closed := fun _ hn => hn }
  cases op with
  | connect e w =>
    simp only [Vertex.applyOp]
    by_cases hek : e = v.vertexLabel
    · have : v.connect e w = (v, false) := by simp [Vertex.connect, hek]
      rw [this]
      exact hself
    · cases hf : mapFind v.adjacencyList e with
      | some x =>
        rw [connect_present w (by simp [hf])]
        exact hself
      | none =>
        rw [connect_absent w hek hf]
        have hk : e ≠ k := by rw [← h.label]; exact hek
        exact vertexOK_connect
          (hself.mono (fun n hn => (mem_mapKeys_mapInsertNew _ _ _ _).mpr (Or.inr hn))) w hk
          ((mem_mapKeys_mapInsertNew _ _ _ _).mpr (Or.inl rfl)) hf
  | disconnect e =>
    simp only [Vertex.applyOp, Vertex.disconnect]
    split
    · exact hself
    · split
      · exact
          { label := h.label
            sorted := keysSorted_mapErase _ _ h.sorted
            noSelf := by
              intro hmem
              obtain ⟨x, hx⟩ := mapFind_isSome_of_key hmem
              exact h.noSelf (mem_mapKeys_of_mem (mem_mapErase (mapFind_some_mem hx)))
            ends := fun n x hx => h.ends n x (mem_mapErase hx)
            closed := fun _ hn => hn }
      · exact hself

theorem vertexOK_applyOps {k : String} (ops : List VertexOp) :
    ∀ {keys : List String} {v : Vertex}, VertexOK keys k v →
      VertexOK (mapKeys (v.applyOps ops).adjacencyList) k (v.applyOps ops) := by
  induction ops with
  | nil =>
    intro keys v h
    exact
      { label := h.label, sorted := h.sorted, noSelf := h.noSelf, ends := h.ends,
        closed := fun _ hn => hn }
  | cons op rest ih =>
    intro keys v h
    simp only [Vertex.applyOps]
    exact ih (vertexOK_applyOp h op)

theorem vertexOK_built (label : String) (ops : List VertexOp) :
    VertexOK (mapKeys ((Vertex.new label).applyOps ops).adjacencyList) label
      ((Vertex.new label).applyOps ops) :=
  vertexOK_applyOps ops (vertexOK_new [] label)

theorem nextNeighbors_at_end (k : Nat) :
    ∀ v : Vertex, v.currentNeighbor = none →
      v.nextNeighbors k = (v, List.replicate k v.vertexLabel) := by
  induction k with
  | zero => intro v _; rfl
  | succ k ih =>
    intro v h
    simp only [Vertex.nextNeighbors, getNextNeighbor_at_end h, ih v h, List.replicate_succ]

/-- The iteration from a cursor at the start of the entries `suf`: the keys of `suf` are
returned in order, then the own label. -/
theorem nextNeighbors_run {keys : List String} {label : String} (suf : List (String × Edge)) :
    ∀ (pre : List (String × Edge)) (v : Vertex) (k : Nat), VertexOK keys label v →
      v.adjacencyList = pre ++ suf → v.currentNeighbor = mapBegin suf →
      (v.nextNeighbors (suf.length + k)).2 = mapKeys suf ++ List.replicate k label := by
  induction suf with
  | nil =>
    intro pre v k hok _ hcur
    simp only [mapBegin] at hcur
    simp only [List.length_nil, Nat.zero_add, mapKeys, List.map_nil, List.nil_append]
    rw [nextNeighbors_at_end k v hcur, hok.label]
  | cons x rest ih =>
    obtain ⟨n, e⟩ := x
    intro pre v k hok hadj hcur
    have hstep := getNextNeighbor_step hok pre ((n, e) :: rest) hadj hcur
    obtain ⟨hs1, -, hs3⟩ := hstep
    obtain ⟨hnb, hcursor⟩ := hs3
    have hok' : VertexOK keys label v.getNextNeighbor.1 := hok.of_skel hs1
    have hadj' : v.getNextNeighbor.1.adjacencyList = (pre ++ [(n, e)]) ++ rest := by
      rw [(skel_eq_fields hs1).2, hadj]; simp
    have := ih (pre ++ [(n, e)]) v.getNextNeighbor.1 k hok' hadj' hcursor
    have hlen : ((n, e) :: rest).length + k = (rest.length + k) + 1 := by
      simp only [List.length_cons]; omega
    rw [hlen]
    simp only [Vertex.nextNeighbors, this, hnb, mapKeys, List.map_cons, List.cons_append]

theorem vertexOK_built_state (label : String) (ops : List VertexOp) (visited : Bool)
    (cursor : Option String) :
    VertexOK (mapKeys (Vertex.built label ops visited cursor).adjacencyList) label
      (Vertex.built label ops visited cursor) :=
  (vertexOK_built label ops).of_skel rfl

theorem connect_false_iff (v : Vertex) (e : String) (w : Int) :
    (v.connect e w).2 = false ↔
      (e = v.vertexLabel ∨ (mapFind v.adjacencyList e).isSome = true) := by
  by_cases hek : e = v.vertexLabel
  · simp [Vertex.connect, hek]
  · cases hf : mapFind v.adjacencyList e with
    | none => rw [connect_absent w hek hf]; simp [hek]
    | some x => rw [connect_present w (by simp [hf])]; simp

theorem disconnect_false_iff (v : Vertex) (e : String) :
    (v.disconnect e).2 = false ↔ (e = v.vertexLabel ∨ mapFind v.adjacencyList e = none) := by
  by_cases hek : e = v.vertexLabel
  · simp [Vertex.disconnect, hek]
  · cases hf : mapFind v.adjacencyList e with
    | none => simp [Vertex.disconnect, hek, hf]
    | some x => simp [Vertex.disconnect, hek, hf]

theorem disconnect_true {v : Vertex} {e : String} (h : (v.disconnect e).2 = true) :
    e ≠ v.vertexLabel ∧ (∃ x, mapFind v.adjacencyList e = some x) ∧
      (v.disconnect e).1 = { v with adjacencyList := mapErase v.adjacencyList e } := by
  by_cases hek : e = v.vertexLabel
  · simp [Vertex.disconnect, hek] at h
  · cases hf : mapFind v.adjacencyList e with
    | none => simp [Vertex.disconnect, hek, hf] at h
    | some x => exact ⟨hek, ⟨x, rfl⟩, by simp [Vertex.disconnect, hek, hf]⟩

/-- C12: for a vertex whose adjacency map was built by any sequence of `connect` and
`disconnect` calls and that has n outgoing edges, after `resetNeighbor` the next n calls of
`getNextNeighbor` return the neighbour labels in strictly ascending order, each once and
none equal to the own label, and each of the k calls after them returns the own label. -/
theorem c12_neighbor_iteration (label : String) (ops : List VertexOp) (visited : Bool)
    (cursor : Option String) (k : Nat) :
    ((Vertex.built label ops visited cursor).resetNeighbor.nextNeighbors
        ((Vertex.built label ops visited cursor).adjacencyList.length + k)).2 =
      mapKeys (Vertex.built label ops visited cursor).adjacencyList ++
        List.replicate k (Vertex.built label ops visited cursor).getLabel ∧
    (Vertex.built label ops visited cursor).getLabel = label ∧
    (Vertex.built label ops visited cursor).getNumberOfNeighbors =
      (mapKeys (Vertex.built label ops visited cursor).adjacencyList).length ∧
    (mapKeys (Vertex.built label ops visited cursor).adjacencyList).Pairwise
      (fun a b => strLt a b = true) ∧
    (mapKeys (Vertex.built label ops visited cursor).adjacencyList).Nodup ∧
    label ∉ mapKeys (Vertex.built label ops visited cursor).adjacencyList ∧
    (∀ n, n ∈ mapKeys (Vertex.built label ops visited cursor).adjacencyList ↔
      (mapFind (Vertex.built label ops visited cursor).adjacencyList n).isSome = true) := by
  have hok := vertexOK_built_state label ops visited cursor
  generalize Vertex.built label ops visited cursor = v at hok
  have hok' : VertexOK (mapKeys v.adjacencyList) label v.resetNeighbor := hok.of_skel rfl
  refine ⟨?_, hok.label, ?_, hok.sorted, hok.sorted.nodup, hok.noSelf, ?_⟩
  · have := nextNeighbors_run v.adjacencyList [] v.resetNeighbor k hok' rfl rfl
    rw [this, Vertex.getLabel, hok.label]
  · simp [Vertex.getNumberOfNeighbors, mapKeys]
  · intro n
    constructor
    · intro hn
      obtain ⟨x, hx⟩ := mapFind_isSome_of_key hn
      simp [hx]
    · intro hn
      cases hf : mapFind v.adjacencyList n with
      | none => simp [hf] at hn
      | some x => exact mapFind_some_key hf

/-- C13: `Vertex::connect` returns false, leaving the vertex as it was, exactly when the
endpoint is the own label or an edge to it exists; otherwise it returns true, the weight
read back for the endpoint is w, the number of neighbours has grown by one and every other
edge is as before. No vertex built by `connect` and `disconnect` calls, and no vertex of a
graph built by `add` calls, has an edge to its own label. -/
theorem c13_connect_contract (v : Vertex) (e : String) (w : Int) :
    ((v.connect e w).2 = false ↔
      (e = v.vertexLabel ∨ (mapFind v.adjacencyList e).isSome = true)) ∧
    ((v.connect e w).2 = false → (v.connect e w).1 = v) ∧
    ((v.connect e w).2 = true →
      (v.connect e w).1.getEdgeWeight e = w ∧
      (v.connect e w).1.getNumberOfNeighbors = v.getNumberOfNeighbors + 1 ∧
      ∀ e', e' ≠ e →
        mapFind (v.connect e w).1.adjacencyList e' = mapFind v.adjacencyList e' ∧
        (v.connect e w).1.getEdgeWeight e' = v.getEdgeWeight e') ∧
    (∀ (label : String) (ops : List VertexOp) (visited : Bool) (cursor : Option String)
        (n : String) (x : Edge),
      (n, x) ∈ (Vertex.built label ops visited cursor).adjacencyList →
        n ≠ label ∧ x.endVertex ≠ label) ∧
    (∀ (calls : List (String × String × Int)) (k n : String) (u : Vertex) (x : Edge),
      mapFind (buildGraph calls).vertices k = some (some u) → (n, x) ∈ u.adjacencyList →
        n ≠ u.vertexLabel ∧ x.endVertex ≠ u.vertexLabel) := by
  refine ⟨connect_false_iff v e w, ?_, ?_, ?_, ?_⟩
  · intro h
    rcases (connect_false_iff v e w).mp h with h1 | h1
    · simp [Vertex.connect, h1]
    · rw [connect_present w h1]
  · intro h
    have hnot : ¬ (e = v.vertexLabel ∨ (mapFind v.adjacencyList e).isSome = true) := by
      rw [← connect_false_iff v e w, h]; simp
    have hek : e ≠ v.vertexLabel := fun h' => hnot (Or.inl h')
    have hf : mapFind v.adjacencyList e = none := by
      cases hf : mapFind v.adjacencyList e with
      | none => rfl
      | some x => exact absurd (Or.inr (by simp [hf])) hnot
    rw [connect_absent w hek hf]
    refine ⟨?_, ?_, ?_⟩
    · simp only [Vertex.getEdgeWeight, mapFind_mapInsertNew_self _ _ _ hf, Edge.getWeight]
    · simp [Vertex.getNumberOfNeighbors, length_mapInsertNew]
    · intro e' he'
      have : mapFind (mapInsertNew v.adjacencyList e ⟨e, w⟩) e' = mapFind v.adjacencyList e' :=
        mapFind_mapInsertNew_ne _ _ _ _ he'
      exact ⟨this, by simp only [Vertex.getEdgeWeight, this]⟩
  · intro label ops visited cursor n x hx
    have hok := vertexOK_built_state label ops visited cursor
    have hn : n ≠ label := by
      intro h
      rw [h] at hx
      exact hok.noSelf (mem_mapKeys_of_mem hx)
    exact ⟨hn, by rw [hok.ends n x hx]; exact hn⟩
  · intro calls k n u x hu hx
    have hok := (buildGraph_inv calls).ok_of_find hu
    have hn : n ≠ k := by
      intro h
      rw [h] at hx
      exact hok.noSelf (mem_mapKeys_of_mem hx)
    rw [hok.label]
    exact ⟨hn, by rw [hok.ends n x hx]; exact hn⟩

/-- C14: on a vertex built by `connect` and `disconnect` calls, `Vertex::disconnect` returns
false, leaving the vertex as it was, exactly when the endpoint is the own label or no edge
to it exists; otherwise it returns true, the weight read back for the endpoint is -1, the
number of neighbours has shrunk by one and every other edge is as before. A successful
`connect` followed by `disconnect` of the same endpoint restores the vertex. -/
theorem c14_disconnect_contract (label : String) (ops : List VertexOp) (visited : Bool)
    (cursor : Option String) (e : String) (w : Int) :
    (((Vertex.built label ops visited cursor).disconnect e).2 = false ↔
      (e = (Vertex.built label ops visited cursor).getLabel ∨
        mapFind (Vertex.built label ops visited cursor).adjacencyList e = none)) ∧
    (((Vertex.built label ops visited cursor).disconnect e).2 = false →
      ((Vertex.built label ops visited cursor).disconnect e).1 =
        Vertex.built label ops visited cursor) ∧
    (((Vertex.built label ops visited cursor).disconnect e).2 = true →
      ((Vertex.built label ops visited cursor).disconnect e).1.getEdgeWeight e = -1 ∧
      ((Vertex.built label ops visited cursor).disconnect e).1.getNumberOfNeighbors =
        (Vertex.built label ops visited cursor).getNumberOfNeighbors - 1 ∧
      ∀ e', e' ≠ e →
        mapFind ((Vertex.built label ops visited cursor).disconnect e).1.adjacencyList e' =
          mapFind (Vertex.built label ops visited cursor).adjacencyList e' ∧
        ((Vertex.built label ops visited cursor).disconnect e).1.getEdgeWeight e' =
          (Vertex.built label ops visited cursor).getEdgeWeight e') ∧
    (((Vertex.built label ops visited cursor).connect e w).2 = true →
      (((Vertex.built label ops visited cursor).connect e w).1.disconnect e) =
        (Vertex.built label ops visited cursor, true)) := by
  have hok := vertexOK_built_state label ops visited cursor
  generalize Vertex.built label ops visited cursor = v at hok
  refine ⟨disconnect_false_iff v e, ?_, ?_, ?_⟩
  · intro h
    rcases (disconnect_false_iff v e).mp h with h1 | h1
    · simp [Vertex.disconnect, h1]
    · by_cases hek : e = v.vertexLabel
      · simp [Vertex.disconnect, hek]
      · simp [Vertex.disconnect, hek, h1]
  · intro h
    obtain ⟨-, ⟨x, hx⟩, heq⟩ := disconnect_true h
    rw [heq]
    refine ⟨?_, ?_, ?_⟩
    · simp [Vertex.getEdgeWeight, mapFind_mapErase_self _ _ hok.sorted]
    · have := length_mapErase _ _ _ hx
      simp only [Vertex.getNumberOfNeighbors]
      omega
    · intro e' he'
      have : mapFind (mapErase v.adjacencyList e) e' = mapFind v.adjacencyList e' :=
        mapFind_mapErase_ne _ _ _ he'
      exact ⟨this, by simp only [Vertex.getEdgeWeight, this]⟩
  · intro h
    have hnot : ¬ (e = v.vertexLabel ∨ (mapFind v.adjacencyList e).isSome = true) := by
      rw [← connect_false_iff v e w, h]; simp
    have hek : e ≠ v.vertexLabel := fun h' => hnot (Or.inl h')
    have hf : mapFind v.adjacencyList e = none := by
      cases hf : mapFind v.adjacencyList e with
      | none => rfl
      | some x => exact absurd (Or.inr (by simp [hf])) hnot
    rw [connect_absent w hek hf]
    simp only [Vertex.disconnect, hek, if_false, mapFind_mapInsertNew_self _ _ _ hf,
      mapErase_mapInsertNew _ _ _ hf]

/-- Wherever the registry does not bind `start` to a null pointer, `Graph::getEdgeWeight`
returns `INT_MAX` when `start` is not a vertex or has no edge to `endLabel`. -/
theorem getEdgeWeight_absent (g : Graph) (start endLabel : String)
    (hslot : mapFind g.vertices start ≠ some none)
    (h : g.findVertex start = none ∨ g.hasEdge start endLabel = false) :
    g.getEdgeWeight start endLabel = .ok INT_MAX := by
  unfold Graph.getEdgeWeight
  unfold Graph.findVertex Graph.hasEdge Graph.findVertex at h
  cases hf : mapFind g.vertices start with
  | none => rfl
  | some p =>
    cases p with
    | none => exact absurd hf hslot
    | some v =>
      rw [hf] at h
      simp only [reduceCtorEq, false_or] at h
      cases hv : mapFind v.adjacencyList endLabel with
      | none => simp [Vertex.getEdgeWeight, hv]
      | some x => simp [hv] at h

/-- C11, the code at the failing input: on the empty graph `getEdgeWeight("X", "Y")` returns
`INT_MAX`; after a depth-first traversal from the unknown label `X`, which binds `X` to a
null pointer in the registry, `X` is still not a vertex, and the same call dereferences the
null pointer instead of returning `INT_MAX`.  On every graph whose registry does not bind
the start label to a null pointer the call returns `INT_MAX`, which is not -1, when the
start is not a vertex or has no edge to the end label. -/
theorem c11_getEdgeWeight_sentinel :
    Graph.empty.getEdgeWeight "X" "Y" = .ok INT_MAX ∧
    (∃ g1, Graph.empty.depthFirstTraversal 1 "X" = .ok (g1, []) ∧
      g1.findVertex "X" = none ∧ g1.getNumVertices = 0 ∧
      g1.getEdgeWeight "X" "Y" = .error Fault.nullDeref) ∧
    (∀ (g : Graph) (start endLabel : String), mapFind g.vertices start ≠ some none →
      (g.findVertex start = none ∨ g.hasEdge start endLabel = false) →
      g.getEdgeWeight start endLabel = .ok INT_MAX) ∧
    INT_MAX ≠ -1 := by
  refine ⟨by decide, ⟨(⟨[("X", none)], 0, 0⟩ : Graph), by decide, by decide, by decide,
    by decide⟩, ?_, by decide⟩
  intro g start endLabel hslot h
  exact getEdgeWeight_absent g start endLabel hslot h

/-! ## Termination of the shortest-path loop for arbitrary weights -/

theorem spTrace_fst (adj : String → List (String × Edge)) :
    ∀ (n : Nat) (vis : List String) (s : DijkstraState),
      (spTrace adj n vis s).map (fun r => r.1) = spLoop adj n vis s := by
  intro n
  induction n with
  | zero => intro vis s; rfl
  | succ n ih =>
    intro vis s
    cases hpq : s.pq with
    | nil => simp [spTrace, spLoop, hpq]
    | cons x pq1 =>
      obtain ⟨d, cur⟩ := x
      simp only [spTrace, spLoop, hpq]
      split
      · exact ih _ _
      · rw [← ih, Option.map_map]
        rfl

/-- With enough fuel the shortest-path loop ends with an empty queue, whatever the weights:
each label is expanded at most once, and the relaxations push at most one entry per edge
of a vertex not yet visited. -/
theorem spTrace_total {adj : String → List (String × Edge)} {V : List String}
    (hclosed : ∀ u, u ∈ V → ∀ x, x ∈ adj u → x.1 ∈ V) :
    ∀ (n : Nat) (vis : List String) (s : DijkstraState), (∀ x, x ∈ s.pq → x.2 ∈ V) →
      s.pq.length + pendingEdges adj vis V < n →
      ∃ out ex k, spTrace adj n vis s = some (out, ex, k) ∧ out.pq = [] ∧ ex.Nodup ∧
        (∀ x, x ∈ ex → x ∉ vis ∧ x ∈ V) ∧ k ≤ pendingEdges adj vis V := by
  intro n
  induction n with
  | zero =>
    intro vis s _ h
    exact absurd h (by omega)
  | succ n ih =>
    intro vis s hreg hn
    cases hpq : s.pq with
    | nil =>
      refine ⟨s, [], 0, ?_, hpq, List.nodup_nil, ?_, Nat.zero_le _⟩
      · simp [spTrace, hpq]
      · intro x hx
        simp at hx
    | cons x pq1 =>
      obtain ⟨d, cur⟩ := x
      rw [hpq] at hn hreg
      simp only [List.length_cons] at hn
      by_cases hv : cur ∈ vis
      · obtain ⟨out, ex, k, hrun, h1, h2, h3, h4⟩ := ih vis { s with pq := pq1 }
          (fun x hx => hreg x (List.mem_cons_of_mem _ hx)) (by show pq1.length + _ < n; omega)
        refine ⟨out, ex, k, ?_, h1, h2, h3, h4⟩
        simp only [spTrace, hpq, hv, if_true]
        exact hrun
      · have hcurV : cur ∈ V := hreg (d, cur) (List.mem_cons_self _ _)
        have hlen := relaxAll_pq_length cur (adj cur) { s with pq := pq1 }
        have hstep := pendingEdges_step adj vis cur hv V hcurV
        have hlen' : (relaxAll cur (adj cur) { s with pq := pq1 }).pq.length
            ≤ pq1.length + (adj cur).length := hlen
        obtain ⟨out, ex, k, hrun, h1, h2, h3, h4⟩ := ih (cur :: vis)
          (relaxAll cur (adj cur) { s with pq := pq1 })
          (by
            intro x hx
            rcases relaxAll_pq_mem cur (adj cur) _ x hx with h | h
            · exact hreg x (List.mem_cons_of_mem _ h)
            · obtain ⟨e, he⟩ := mapFind_isSome_of_key h
              exact hclosed cur hcurV (x.2, e) (mapFind_some_mem he))
          (by omega)
        refine ⟨out, cur :: ex,
          k + ((relaxAll cur (adj cur) { s with pq := pq1 }).pq.length - pq1.length),
          ?_, h1, ?_, ?_, ?_⟩
        · simp only [spTrace, hpq, hv, if_false, hrun, Option.map_some']
        · refine List.nodup_cons.mpr ⟨?_, h2⟩
          intro hmem
          exact (h3 cur hmem).1 (List.mem_cons_self _ _)
        · intro x hx
          rcases List.mem_cons.mp hx with h | h
          · rw [h]; exact ⟨hv, hcurV⟩
          · exact ⟨fun hx' => (h3 x h).1 (List.mem_cons_of_mem _ hx'), (h3 x h).2⟩
        · omega

theorem pendingEdges_sub {g : Graph} (hs : KeysSorted g.vertices) :
    ∀ sub : List (String × Option Vertex), (∀ x, x ∈ sub → x ∈ g.vertices) →
      pendingEdges g.adjOf [] (mapKeys sub) = edgeTotal sub := by
  intro sub
  induction sub with
  | nil => intro _; rfl
  | cons x rest ih =>
    obtain ⟨k, p⟩ := x
    intro h
    have hf : mapFind g.vertices k = some p := mapFind_of_mem hs (h _ (List.mem_cons_self _ _))
    have ih' := ih (fun x hx => h x (List.mem_cons_of_mem _ hx))
    simp only [mapKeys, List.map_cons] at ih' ⊢
    cases p with
    | none =>
      simp only [pendingEdges, edgeTotal, ih', List.not_mem_nil, if_false]
      simp [Graph.adjOf, Graph.findVertex, hf]
    | some v =>
      simp only [pendingEdges, edgeTotal, ih', List.not_mem_nil, if_false, adjOf_of_find hf]

theorem pendingEdges_eq_edgeTotal {g : Graph} (hg : g.Inv) :
    pendingEdges g.adjOf [] (mapKeys g.vertices) = edgeTotal g.vertices :=
  pendingEdges_sub hg.sorted g.vertices (fun _ h => h)

theorem adjOf_closed {g : Graph} (hg : g.Inv) :
    ∀ u, u ∈ mapKeys g.vertices → ∀ x, x ∈ g.adjOf u → x.1 ∈ mapKeys g.vertices := by
  intro u _ x hx
  apply hg.neighbors_closed (k := u)
  rw [neighbors_eq_keys_adjOf]
  exact mem_mapKeys_of_mem hx

/-- On a well-formed graph, whatever the edge weights and the contents of the two maps at
the call, the shortest-path method called for a registered start label returns with enough
fuel: its main loop is `spTrace`, every label is expanded at most once and the relaxations
push at most one queue entry per edge; the registry keeps its skeleton. -/
theorem dijkstra_runs {g : Graph} (hg : g.Inv) {start : String}
    (hs : start ∈ mapKeys g.vertices) (weight : List (String × Int))
    (previous : List (String × String)) (fuel : Nat)
    (hfuel : 2 * edgeTotal g.vertices + 2 < fuel) :
    ∃ g2 out ex k,
      spTrace g.adjOf (edgeTotal g.vertices + 2) [] (dijkstraInit g start weight previous)
        = some (out, ex, k) ∧
      g.djikstraCostToAllVertices fuel start weight previous
        = .ok (g2, out.weight, out.previous) ∧
      g2.skel = g.skel ∧ out.pq = [] ∧ ex.Nodup ∧ (∀ x, x ∈ ex → x ∈ mapKeys g.vertices) ∧
      k ≤ edgeTotal g.vertices := by
  have hkeys : mapKeys g.unvisitVertices.vertices = mapKeys g.vertices :=
    keys_of_skel_eq (unvisit_skel g)
  have hpe := pendingEdges_eq_edgeTotal hg
  have hreg : ∀ x, x ∈ (dijkstraInit g start weight previous).pq → x.2 ∈ mapKeys g.vertices := by
    intro x hx
    simp only [dijkstraInit, pqPush, List.mem_singleton] at hx
    rw [hx]
    exact hs
  obtain ⟨out, ex, k, hrun, hpq, hnd, hex, hk⟩ := spTrace_total (adjOf_closed hg)
    (edgeTotal g.vertices + 2) [] (dijkstraInit g start weight previous) hreg
    (by simp only [dijkstraInit, pqPush, List.length_singleton]; omega)
  have hloop : spLoop g.adjOf (edgeTotal g.vertices + 2) []
      (dijkstraInit g start weight previous) = some out := by
    rw [← spTrace_fst, hrun]; rfl
  obtain ⟨g2, hloop2, hsk⟩ := dijkstraLoop_refines hg _ _ [] out (unvisit_skel g)
    (fun k => by
      show g.unvisitVertices.isMarked k = _
      rw [isMarked_unvisit]; simp)
    hreg hloop fuel (by omega)
  obtain ⟨v, -, hidx, -, -, -⟩ := traversal_prologue hg hs
  refine ⟨g2, out, ex, k, hrun, ?_, hsk, hpq, hnd, fun x hx => (hex x hx).2, by omega⟩
  unfold Graph.djikstraCostToAllVertices
  rw [hidx]
  simp only [hkeys]
  unfold dijkstraInit at hloop2
  rw [hloop2]
  rfl

/-! ## The pushes of a traversal -/

theorem traverseLog_fst (adj : String → List String) (depthFirst : Bool) :
    ∀ (n : Nat) (M W : List String),
      (traverseLog adj depthFirst n M W).map (List.map Prod.fst) = traverse adj depthFirst n M W := by
  intro n
  induction n with
  | zero => intro M W; rfl
  | succ n ih =>
    intro M W
    cases W with
    | nil => rfl
    | cons x W' =>
      simp only [traverseLog, traverse]
      rw [← ih, Option.map_map, Option.map_map]
      rfl

theorem traverseLog_of_traverse {adj : String → List String} {depthFirst : Bool} {n : Nat}
    {M W out : List String} (h : traverse adj depthFirst n M W = some out) :
    ∃ log, traverseLog adj depthFirst n M W = some log ∧ log.map Prod.fst = out := by
  rw [← traverseLog_fst] at h
  cases hl : traverseLog adj depthFirst n M W with
  | none => simp [hl] at h
  | some log =>
    rw [hl] at h
    exact ⟨log, rfl, by simpa using h⟩

theorem pushesOf_append (l1 l2 : List (String × List String)) :
    pushesOf (l1 ++ l2) = pushesOf l1 ++ pushesOf l2 := by
  induction l1 with
  | nil => rfl
  | cons x rest ih =>
    obtain ⟨v, new⟩ := x
    show new ++ pushesOf (rest ++ l2) = (new ++ pushesOf rest) ++ pushesOf l2
    rw [ih, List.append_assoc]

/-- In a finished traversal no label is pushed twice and no marked label is pushed, every
pushed label is taken from the worklist once, and what a label pushes is a sublist of its
neighbours. -/
theorem traverseLog_props (adj : String → List String) (depthFirst : Bool)
    (hadj : ∀ x, (adj x).Nodup) :
    ∀ (n : Nat) (M W : List String) (log : List (String × List String)),
      traverseLog adj depthFirst n M W = some log →
      (pushesOf log).Nodup ∧ (∀ y, y ∈ pushesOf log → y ∉ M) ∧
      log.length = W.length + (pushesOf log).length ∧
      (∀ e, e ∈ log → e.2.Sublist (adj e.1)) := by
  intro n
  induction n with
  | zero =>
    intro M W log h
    simp [traverseLog] at h
  | succ n ih =>
    intro M W log h
    cases W with
    | nil =>
      simp only [traverseLog, Option.some.injEq] at h
      subst h
      simp [pushesOf]
    | cons x W' =>
      simp only [traverseLog, Option.map_eq_some'] at h
      obtain ⟨log', hrun, hlog⟩ := h
      subst hlog
      obtain ⟨h1, h2, h3, h4⟩ := ih _ _ _ hrun
      have hnew : ((adj x).filter (fun y => decide (y ∉ M))).Nodup := (hadj x).filter _
      refine ⟨?_, ?_, ?_, ?_⟩
      · simp only [pushesOf]
        refine List.nodup_append.mpr ⟨hnew, h1, ?_⟩
        intro y hy1 hy2
        exact h2 y hy2 (List.mem_append_left _ hy1)
      · intro y hy
        simp only [pushesOf, List.mem_append] at hy
        rcases hy with hy | hy
        · simpa using (List.mem_filter.mp hy).2
        · exact fun hM => h2 y hy (List.mem_append_right _ hM)
      · simp only [pushesOf, List.length_cons, List.length_append, h3]
        cases depthFirst <;> simp only [Bool.false_eq_true, if_false, if_true,
          List.length_append] <;> omega
      · intro e he
        rcases List.mem_cons.mp he with he | he
        · rw [he]; exact List.filter_sublist _
        · exact h4 e he

theorem traverseLog_mem (adj : String → List String) (depthFirst : Bool) (V : List String)
    (hV : ∀ x, x ∈ V → ∀ y, y ∈ adj x → y ∈ V) :
    ∀ (n : Nat) (M W : List String) (log : List (String × List String)),
      (∀ x, x ∈ W → x ∈ V) → traverseLog adj depthFirst n M W = some log →
      ∀ e, e ∈ log → e.1 ∈ V := by
  intro n
  induction n with
  | zero =>
    intro M W log _ h
    simp [traverseLog] at h
  | succ n ih =>
    intro M W log hW h
    cases W with
    | nil =>
      simp only [traverseLog, Option.some.injEq] at h
      subst h
      simp
    | cons x W' =>
      simp only [traverseLog, Option.map_eq_some'] at h
      obtain ⟨log', hrun, hlog⟩ := h
      subst hlog
      have hx : x ∈ V := hW x (List.mem_cons_self _ _)
      have hnew : ∀ y, y ∈ (adj x).filter (fun y => decide (y ∉ M)) → y ∈ V :=
        fun y hy => hV x hx y (List.mem_filter.mp hy).1
      have hW' : ∀ y, y ∈ W' → y ∈ V := fun y hy => hW y (List.mem_cons_of_mem _ hy)
      have := ih _ _ _ (by
        intro y hy
        cases depthFirst
        · simp only [Bool.false_eq_true, if_false, List.mem_append] at hy
          rcases hy with hy | hy
          · exact hW' y hy
          · exact hnew y hy
        · simp only [if_true, List.mem_append] at hy
          rcases hy with hy | hy
          · exact hnew y hy
          · exact hW' y hy) hrun
      intro e he
      rcases List.mem_cons.mp he with he | he
      · rw [he]; exact hx
      · exact this e he

theorem traverseLog_head (adj : String → List String) (depthFirst : Bool) (n : Nat)
    (M W : List String) (x : String) (log : List (String × List String))
    (h : traverseLog adj depthFirst n M (x :: W) = some log) :
    ∃ p l, log = (x, p) :: l := by
  cases n with
  | zero => simp [traverseLog] at h
  | succ n =>
    simp only [traverseLog, Option.map_eq_some'] at h
    obtain ⟨log', -, hlog⟩ := h
    exact ⟨_, log', hlog.symm⟩

/-- In a depth-first run, a label that pushes a non-empty list of neighbours is followed
in the visit order by the first of them. -/
theorem traverseLog_next (adj : String → List String) :
    ∀ (n : Nat) (M W : List String) (log : List (String × List String)),
      traverseLog adj true n M W = some log →
      ∀ (l1 : List (String × List String)) (v : String) (new : List String)
        (l2 : List (String × List String)), log = l1 ++ (v, new) :: l2 →
      ∀ (y : String) (rest : List String), new = y :: rest → ∃ p l3, l2 = (y, p) :: l3 := by
  intro n
  induction n with
  | zero =>
    intro M W log h
    simp [traverseLog] at h
  | succ n ih =>
    intro M W log h l1 v new l2 hl y rest hnew
    cases W with
    | nil =>
      simp only [traverseLog, Option.some.injEq] at h
      subst h
      simp at hl
    | cons x W' =>
      simp only [traverseLog, Option.map_eq_some', if_true] at h
      obtain ⟨log', hrun, hlog⟩ := h
      subst hlog
      cases l1 with
      | nil =>
        simp only [List.nil_append, List.cons.injEq, Prod.mk.injEq] at hl
        obtain ⟨⟨-, h2⟩, h3⟩ := hl
        rw [h2, hnew] at hrun
        subst h3
        exact traverseLog_head adj true n _ _ y _ hrun
      | cons e l1' =>
        simp only [List.cons_append, List.cons.injEq] at hl
        exact ih _ _ _ hrun l1' v new l2 hl.2 y rest hnew

/-- What a label pushes: its neighbours that are neither marked at the start of the run
nor pushed before it is taken from the worklist. -/
theorem traverseLog_marks (adj : String → List String) (depthFirst : Bool) :
    ∀ (n : Nat) (M W : List String) (log : List (String × List String)),
      traverseLog adj depthFirst n M W = some log →
      ∀ (l1 : List (String × List String)) (v : String) (new : List String)
        (l2 : List (String × List String)), log = l1 ++ (v, new) :: l2 →
      new = (adj v).filter (fun y => decide (y ∉ M ∧ y ∉ pushesOf l1)) := by
  intro n
  induction n with
  | zero =>
    intro M W log h
    simp [traverseLog] at h
  | succ n ih =>
    intro M W log h l1 v new l2 hl
    cases W with
    | nil =>
      simp only [traverseLog, Option.some.injEq] at h
      subst h
      simp at hl
    | cons x W' =>
      simp only [traverseLog, Option.map_eq_some'] at h
      obtain ⟨log', hrun, hlog⟩ := h
      subst hlog
      cases l1 with
      | nil =>
        simp only [List.nil_append, List.cons.injEq, Prod.mk.injEq] at hl
        obtain ⟨⟨h1, h2⟩, -⟩ := hl
        rw [← h2, ← h1]
        simp [pushesOf]
      | cons e l1' =>
        obtain ⟨e1, e2⟩ := e
        simp only [List.cons_append, List.cons.injEq, Prod.mk.injEq] at hl
        obtain ⟨⟨-, h2⟩, h3⟩ := hl
        rw [ih _ _ _ hrun l1' v new l2 h3, h2]
        apply List.filter_congr
        intro y _
        simp only [pushesOf, List.mem_append, not_or, decide_eq_decide]
        tauto

/-- The adjacency entries of distinct registered labels are at most those pending. -/
theorem degree_sum_le (adj : String → List (String × Edge)) (V : List String) :
    ∀ (l vis : List String), l.Nodup → (∀ x, x ∈ l → x ∈ V ∧ x ∉ vis) →
      (l.map (fun v => (adj v).length)).sum ≤ pendingEdges adj vis V := by
  intro l
  induction l with
  | nil => intro vis _ _; simp
  | cons x rest ih =>
    intro vis hnd h
    obtain ⟨hx, hrest⟩ := List.nodup_cons.mp hnd
    have h1 := pendingEdges_step adj vis x (h x (List.mem_cons_self _ _)).2 V
      (h x (List.mem_cons_self _ _)).1
    have h2 := ih (x :: vis) hrest (by
      intro y hy
      refine ⟨(h y (List.mem_cons_of_mem _ hy)).1, ?_⟩
      intro hmem
      rcases List.mem_cons.mp hmem with h' | h'
      · exact hx (h' ▸ hy)
      · exact (h y (List.mem_cons_of_mem _ hy)).2 h')
    simp only [List.map_cons, List.sum_cons]
    omega

theorem pushes_le_degree_sum (adj : String → List String) :
    ∀ log : List (String × List String), (∀ e, e ∈ log → e.2.Sublist (adj e.1)) →
      (pushesOf log).length ≤ ((log.map Prod.fst).map (fun v => (adj v).length)).sum := by
  intro log
  induction log with
  | nil => intro _; simp [pushesOf]
  | cons e rest ih =>
    obtain ⟨v, new⟩ := e
    intro h
    have h1 := (h (v, new) (List.mem_cons_self _ _)).length_le
    have h2 := ih (fun e he => h e (List.mem_cons_of_mem _ he))
    simp only [pushesOf, List.length_append, List.map_cons, List.sum_cons] at h1 h2 ⊢
    omega

/-! ## Runs of the traversals: pushes, repeated runs, unknown start labels -/

theorem neighbors_length_adjOf (g : Graph) (k : String) :
    (g.neighbors k).length = (g.adjOf k).length := by
  rw [neighbors_eq_keys_adjOf]
  simp [mapKeys]

/-- On a well-formed graph, a traversal from a registered start label returns with enough
fuel; its visit order is that of `traverseLog`, no label is pushed twice, each pushed label
is visited once, and the pushes after the start label are at most the edges. -/
theorem traversal_log {g : Graph} (hg : g.Inv) {start : String}
    (hs : start ∈ mapKeys g.vertices) (depthFirst : Bool) (fuel : Nat)
    (hfuel : g.vertices.length + edgeTotal g.vertices + 2 < fuel) :
    ∃ g2 out log,
      (if depthFirst then g.depthFirstTraversal fuel start
        else g.breadthFirstTraversal fuel start) = .ok (g2, out) ∧
      g2.skel = g.skel ∧
      traverseLog g.neighbors depthFirst (g.vertices.length + 2) [start] [start] = some log ∧
      log.map Prod.fst = out ∧ out.Nodup ∧ (start :: pushesOf log).Nodup ∧
      out.length = 1 + (pushesOf log).length ∧
      (pushesOf log).length ≤ edgeTotal g.vertices ∧
      (∀ x, x ∈ out → x ∈ mapKeys g.vertices) := by
  obtain ⟨g2, out, hrun, hsk, hnd, -, htr⟩ := traversal_visits_reachable hg hs depthFirst fuel hfuel
  obtain ⟨log, hlog, hfst⟩ := traverseLog_of_traverse htr
  obtain ⟨h1, h2, h3, h4⟩ := traverseLog_props g.neighbors depthFirst hg.neighbors_nodup _ _ _ _ hlog
  have hmem := traverseLog_mem g.neighbors depthFirst (mapKeys g.vertices)
    (fun x _ y hy => hg.neighbors_closed hy) _ _ _ log (by simpa using hs) hlog
  have hout : ∀ x, x ∈ out → x ∈ mapKeys g.vertices := by
    intro x hx
    rw [← hfst] at hx
    obtain ⟨e, he, hex⟩ := List.mem_map.mp hx
    rw [← hex]
    exact hmem e he
  refine ⟨g2, out, log, hrun, hsk, hlog, hfst, hnd, ?_, ?_, ?_, hout⟩
  · exact List.nodup_cons.mpr ⟨fun h => h2 start h (List.mem_singleton_self _), h1⟩
  · rw [← hfst, List.length_map, h3, List.length_singleton]
  · have hp := pushes_le_degree_sum g.neighbors log h4
    rw [hfst] at hp
    have hd := degree_sum_le g.adjOf (mapKeys g.vertices) out [] hnd
      (fun x hx => ⟨hout x hx, by simp⟩)
    rw [pendingEdges_eq_edgeTotal hg] at hd
    have heq : out.map (fun v => (g.neighbors v).length)
        = out.map (fun v => (g.adjOf v).length) :=
      List.map_congr_left (fun v _ => neighbors_length_adjOf g v)
    rw [heq] at hp
    omega

theorem depthFirstTraversal_unknown (fuel : Nat) (g : Graph) (start : String)
    (h : g.findVertex start = none) :
    g.depthFirstTraversal fuel start = .ok ((g.unvisitVertices.index start).1, []) := by
  have h2 := index_unvisit_of_findVertex_none g start h
  unfold Graph.depthFirstTraversal
  cases hi : g.unvisitVertices.index start with
  | mk g1 p =>
    rw [hi] at h2
    simp only at h2
    subst h2
    rfl

theorem findVertex_index_unknown (g : Graph) (start : String)
    (h : g.findVertex start = none) :
    (g.unvisitVertices.index start).1.findVertex start = none := by
  have h2 := index_unvisit_of_findVertex_none g start h
  unfold Graph.index at h2 ⊢
  cases hf : mapFind g.unvisitVertices.vertices start with
  | some p =>
    rw [hf] at h2
    simp only at h2 ⊢
    simp [Graph.findVertex, hf, h2]
  | none =>
    simp only [Graph.findVertex, mapFind_mapInsertNew_self _ _ _ hf]

/-- The visit order of a depth-first traversal from a registered start label is the same
on every graph that has the skeleton of `g`, whatever its visited flags and cursors. -/
theorem depthFirstTraversal_of_skel {g : Graph} (hg : g.Inv) {start : String}
    (hs : start ∈ mapKeys g.vertices) :
    ∃ out, traverse g.neighbors true (g.vertices.length + 2) [start] [start] = some out ∧
      ∀ (g' : Graph) (fuel : Nat), g'.skel = g.skel →
        g.vertices.length + edgeTotal g.vertices + 2 < fuel →
        ∃ g2, g'.depthFirstTraversal fuel start = .ok (g2, out) ∧ g2.skel = g.skel := by
  obtain ⟨out, hrun, -, -⟩ := traverse_start g.neighbors true (mapKeys g.vertices)
    (fun x _ y hy => hg.neighbors_closed hy) hg.neighbors_nodup start hs
    (g.vertices.length + 2) (by simp [mapKeys])
  refine ⟨out, hrun, ?_⟩
  intro g' fuel hsk hfuel
  have hg' := inv_of_skel_eq hsk hg
  have hnb : g'.neighbors = g.neighbors := funext (neighbors_of_skel_eq hsk hg)
  have hs' : start ∈ mapKeys g'.vertices := by rw [keys_of_skel_eq hsk]; exact hs
  have hrun' : traverse g'.neighbors true (g.vertices.length + 2) [start] [start] = some out := by
    rw [hnb]; exact hrun
  obtain ⟨g2, h2, hsk2⟩ := depthFirstTraversal_refines hg' hs' hrun' fuel
    (by rw [edgeTotal_of_skel_eq hsk]; omega)
  exact ⟨g2, h2, hsk2.trans hsk⟩

/-- C15: on the graph built by add(A,B,1), add(A,C,4), add(B,C,2), add(B,D,5), add(C,D,1)
the shortest-path method called for `A` with empty maps yields the distance map
A:0, B:1, C:3, D:4 and the predecessor map B:A, C:B, D:C, with no entry for A, for every
amount of fuel from 13 on. -/
theorem c15_example_dijkstra :
    exampleGraph
      = buildGraph [("A", "B", 1), ("A", "C", 4), ("B", "C", 2), ("B", "D", 5), ("C", "D", 1)] ∧
    (∀ fuel, 13 ≤ fuel →
      (exampleGraph.djikstraCostToAllVertices fuel "A" [] []).map (fun r => r.2)
        = .ok ([("A", 0), ("B", 1), ("C", 3), ("D", 4)], [("B", "A"), ("C", "B"), ("D", "C")])) ∧
    mapFind [("B", "A"), ("C", "B"), ("D", "C")] "A" = none := by
  refine ⟨rfl, ?_, by decide⟩
  intro fuel hfuel
  have h5 : edgeTotal exampleGraph.vertices = 5 := by decide
  have hinv : exampleGraph.Inv := buildGraph_inv _
  have hA : "A" ∈ mapKeys exampleGraph.vertices := by decide
  obtain ⟨g2, out, ex, k, htr, hrun, -⟩ := dijkstra_runs hinv hA [] [] fuel (by
    rw [h5]; omega)
  have hev : (spTrace exampleGraph.adjOf 7 [] (dijkstraInit exampleGraph "A" [] [])).map
      (fun r => (r.1.weight, r.1.previous))
      = some ([("A", 0), ("B", 1), ("C", 3), ("D", 4)], [("B", "A"), ("C", "B"), ("D", "C")]) := by
    decide
  rw [h5] at htr
  rw [htr] at hev
  simp only [Option.map_some', Option.some.injEq, Prod.mk.injEq] at hev
  rw [hrun, hev.1, hev.2]
  rfl

/-- C16: on a graph built by `add` calls, for every start label and enough fuel, the
depth-first traversal called twice in succession passes the same labels to `visit` both
times, and so does the traversal on any graph that differs from the built one only in the
visited flags and neighbour cursors of its vertices. -/
theorem c16_depthFirst_repeatable (calls : List (String × String × Int)) (start : String)
    (g' : Graph) (hg' : g'.skel = (buildGraph calls).skel) (fuel : Nat)
    (hfuel : (buildGraph calls).vertices.length + edgeTotal (buildGraph calls).vertices + 2
      < fuel) :
    ∃ g1 g2 g3 out,
      (buildGraph calls).depthFirstTraversal fuel start = .ok (g1, out) ∧
      g1.depthFirstTraversal fuel start = .ok (g2, out) ∧
      g'.depthFirstTraversal fuel start = .ok (g3, out) := by
  have hg := buildGraph_inv calls
  rcases hg.find_cases start with ⟨hnone, hk⟩ | ⟨v, hv, -⟩
  · have h0 : (buildGraph calls).findVertex start = none := by
      simp [Graph.findVertex, hnone]
    have h0' : g'.findVertex start = none := by
      have : mapFind g'.vertices start = none := by
        rw [mapFind_eq_none_iff, keys_of_skel_eq hg']
        exact hk
      simp [Graph.findVertex, this]
    exact ⟨_, _, _, [], depthFirstTraversal_unknown fuel _ start h0,
      depthFirstTraversal_unknown fuel _ start (findVertex_index_unknown _ start h0),
      depthFirstTraversal_unknown fuel _ start h0'⟩
  · have hs : start ∈ mapKeys (buildGraph calls).vertices := mapFind_some_key hv
    obtain ⟨out, -, hall⟩ := depthFirstTraversal_of_skel hg hs
    obtain ⟨g1, h1, hsk1⟩ := hall (buildGraph calls) fuel rfl hfuel
    obtain ⟨g2, h2, -⟩ := hall g1 fuel hsk1 hfuel
    obtain ⟨g3, h3, -⟩ := hall g' fuel hg' hfuel
    exact ⟨g1, g2, g3, out, h1, h2, h3⟩

theorem c16_depthFirst_repeatable_witness :
    exampleGraphUsed ≠ exampleGraph ∧
    ∃ g1 g2 g3 out,
      exampleGraph.depthFirstTraversal 12 "A" = .ok (g1, out) ∧
      g1.depthFirstTraversal 12 "A" = .ok (g2, out) ∧
      exampleGraphUsed.depthFirstTraversal 12 "A" = .ok (g3, out) :=
  ⟨by decide,
    c16_depthFirst_repeatable
      [("A", "B", 1), ("A", "C", 4), ("B", "C", 2), ("B", "D", 5), ("C", "D", 1)] "A"
      exampleGraphUsed (by decide) 12 (by decide)⟩

/-- C17, the claim as stated, refuted: the line `A B 5 C` has four tokens and the line
`A B 5x` has a third token that is not an integer, yet `readFile` calls `add("A", "B", 5)`
for each of them, prints no diagnostic, and the graph has a new edge afterwards. -/
theorem c17_readFile_skips_counterexample :
    tokens "A B 5 C" = ["A", "B", "5", "C"] ∧
    Graph.empty.readFileLine "A B 5 C" = ((Graph.empty.add "A" "B" 5).1, none) ∧
    (Graph.empty.readFileLine "A B 5 C").1 ≠ Graph.empty ∧
    (Graph.empty.readFileLine "A B 5 C").1.getNumEdges = 1 ∧
    tokens "A B 5x" = ["A", "B", "5x"] ∧ stoi "5x" = some 5 ∧
    Graph.empty.readFileLine "A B 5x" = ((Graph.empty.add "A" "B" 5).1, none) ∧
    (Graph.empty.readFileLine "A B 5x").1.getEdgeWeight "A" "B" = .ok 5 := by
  decide

/-- C17, amended: for every edge line processed by `readFile`, if the line has fewer than
three whitespace-separated tokens, or its third token does not begin with an optionally
signed decimal number that fits an `int`, the line is skipped: a diagnostic is printed,
`add` is not called and the graph is as before.  Otherwise `add` is called with the first
two tokens and the number at the head of the third; further tokens and the characters
after the number are ignored. -/
theorem c17_readFile_skips (g : Graph) (line : String)
    (h : (tokens line).length < 3 ∨ ∀ t, (tokens line).get? 2 = some t → stoi t = none) :
    (g.readFileLine line).1 = g ∧ (g.readFileLine line).2.isSome = true ∧
    (g.readFileLines [line]).1 = g ∧
    (∀ (g0 : Graph) (l : String) (a b t : String) (rest : List String) (w : Int),
      tokens l = a :: b :: t :: rest → stoi t = some w →
      g0.readFileLine l = ((g0.add a b w).1, none)) := by
  have h1 : (g.readFileLine line).1 = g ∧ (g.readFileLine line).2.isSome = true := by
    unfold Graph.readFileLine
    rcases htok : tokens line with _ | ⟨a, _ | ⟨b, _ | ⟨t, rest⟩⟩⟩
    · exact ⟨rfl, rfl⟩
    · exact ⟨rfl, rfl⟩
    · exact ⟨rfl, rfl⟩
    · rw [htok] at h
      have hs : stoi t = none := by
        rcases h with h | h
        · simp only [List.length_cons] at h
          omega
        · exact h t rfl
      simp [hs]
  refine ⟨h1.1, h1.2, ?_, ?_⟩
  · simp only [Graph.readFileLines, h1.1]
  · intro g0 l a b t rest w htok hs
    simp only [Graph.readFileLine, htok, hs]

theorem c17_readFile_skips_witness :
    ((tokens "A B").length < 3 ∨ ∀ t, (tokens "A B").get? 2 = some t → stoi t = none) ∧
    ((buildGraph [("A", "B", 1)]).readFileLine "A B").1 = buildGraph [("A", "B", 1)] ∧
    ((buildGraph [("A", "B", 1)]).readFileLine "A B").2.isSome = true ∧
    ((buildGraph [("A", "B", 1)]).readFileLines ["A B"]).1 = buildGraph [("A", "B", 1)] ∧
    (∀ (g0 : Graph) (l : String) (a b t : String) (rest : List String) (w : Int),
      tokens l = a :: b :: t :: rest → stoi t = some w →
      g0.readFileLine l = ((g0.add a b w).1, none)) :=
  ⟨Or.inl (by decide),
    c17_readFile_skips (buildGraph [("A", "B", 1)]) "A B" (Or.inl (by decide))⟩

theorem isMarked_eq_mem (g : Graph) (k : String) :
    g.isMarked k = decide (k ∈ (mapKeys g.vertices).filter g.isMarked) := by
  cases hm : g.isMarked k with
  | false => simp [hm]
  | true =>
    have hk : k ∈ mapKeys g.vertices := by
      unfold Graph.isMarked Graph.findVertex at hm
      cases hf : mapFind g.vertices k with
      | none => simp [hf] at hm
      | some p => exact mapFind_some_key hf
    simp [hm, hk]

/-- C19: after any sequence of `add` calls on the empty graph, every adjacency entry of a
vertex is stored under the end label of its edge, and that label is a key of the registry
bound to a vertex; no key is bound to a null pointer.  Hence, with enough fuel, the two
traversals and the shortest-path method (whatever the maps passed) called for a registered
start label return without dereferencing a null pointer, and the registry afterwards has
the keys it had: no lookup `vertices[neighbor]` has bound a new key. -/
theorem c19_registry_closed (calls : List (String × String × Int)) :
    (∀ (k : String) (v : Vertex) (n : String) (e : Edge),
      mapFind (buildGraph calls).vertices k = some (some v) → (n, e) ∈ v.adjacencyList →
        e.endVertex = n ∧ e.getEndVertex ∈ mapKeys (buildGraph calls).vertices ∧
        ∃ u, mapFind (buildGraph calls).vertices e.getEndVertex = some (some u)) ∧
    (∀ (k : String) (p : Option Vertex), (k, p) ∈ (buildGraph calls).vertices → p ≠ none) ∧
    (∀ (start : String) (fuel : Nat), start ∈ mapKeys (buildGraph calls).vertices →
      (buildGraph calls).vertices.length + 2 * edgeTotal (buildGraph calls).vertices + 2 < fuel →
      (∃ g2 out, (buildGraph calls).depthFirstTraversal fuel start = .ok (g2, out) ∧
        mapKeys g2.vertices = mapKeys (buildGraph calls).vertices ∧
        g2.skel = (buildGraph calls).skel) ∧
      (∃ g2 out, (buildGraph calls).breadthFirstTraversal fuel start = .ok (g2, out) ∧
        mapKeys g2.vertices = mapKeys (buildGraph calls).vertices ∧
        g2.skel = (buildGraph calls).skel) ∧
      (∀ (weight : List (String × Int)) (previous : List (String × String)),
        ∃ g2 w p, (buildGraph calls).djikstraCostToAllVertices fuel start weight previous
            = .ok (g2, w, p) ∧
          mapKeys g2.vertices = mapKeys (buildGraph calls).vertices ∧
          g2.skel = (buildGraph calls).skel)) := by
  have hg := buildGraph_inv calls
  refine ⟨?_, ?_, ?_⟩
  · intro k v n e hv hn
    have hok := hg.ok_of_find hv
    have hend := hok.ends n e hn
    have hkey : n ∈ mapKeys (buildGraph calls).vertices := hok.closed n (mem_mapKeys_of_mem hn)
    obtain ⟨u, hu, -⟩ := hg.find hkey
    refine ⟨hend, ?_, u, ?_⟩
    · rw [Edge.getEndVertex, hend]; exact hkey
    · rw [Edge.getEndVertex, hend]; exact hu
  · intro k p hp
    obtain ⟨v, hv, -⟩ := hg.slots k p hp
    rw [hv]
    simp
  · intro start fuel hs hfuel
    refine ⟨?_, ?_, ?_⟩
    · obtain ⟨g2, out, h, hsk, -⟩ := traversal_visits_reachable hg hs true fuel (by omega)
      exact ⟨g2, out, by simpa using h, keys_of_skel_eq hsk, hsk⟩
    · obtain ⟨g2, out, h, hsk, -⟩ := traversal_visits_reachable hg hs false fuel (by omega)
      exact ⟨g2, out, by simpa using h, keys_of_skel_eq hsk, hsk⟩
    · intro weight previous
      obtain ⟨g2, out, ex, k, -, h, hsk, -⟩ := dijkstra_runs hg hs weight previous fuel
        (by omega)
      exact ⟨g2, out.weight, out.previous, h, keys_of_skel_eq hsk, hsk⟩

/-- C20: on a graph built by `add` calls with arbitrary integer weights, for a registered
start label and enough fuel, the two traversals and the shortest-path method return.  In a
traversal no label is visited twice and every pushed label is visited once; in the
shortest-path method no label is expanded twice.  The pushes, the one of the start label
included, are at most 1 plus the number of edges of the graph. -/
theorem c20_termination_and_pushes (calls : List (String × String × Int)) (start : String)
    (hs : start ∈ mapKeys (buildGraph calls).vertices) (fuel : Nat)
    (hfuel : (buildGraph calls).vertices.length + 2 * edgeTotal (buildGraph calls).vertices + 2
      < fuel) :
    (∃ g2 out log, (buildGraph calls).depthFirstTraversal fuel start = .ok (g2, out) ∧
      traverseLog (buildGraph calls).neighbors true ((buildGraph calls).vertices.length + 2)
        [start] [start] = some log ∧
      log.map Prod.fst = out ∧ out.Nodup ∧ 1 + (pushesOf log).length = out.length ∧
      ((1 + (pushesOf log).length : Nat) : Int) ≤ 1 + (buildGraph calls).getNumEdges) ∧
    (∃ g2 out log, (buildGraph calls).breadthFirstTraversal fuel start = .ok (g2, out) ∧
      traverseLog (buildGraph calls).neighbors false ((buildGraph calls).vertices.length + 2)
        [start] [start] = some log ∧
      log.map Prod.fst = out ∧ out.Nodup ∧ 1 + (pushesOf log).length = out.length ∧
      ((1 + (pushesOf log).length : Nat) : Int) ≤ 1 + (buildGraph calls).getNumEdges) ∧
    (∀ (weight : List (String × Int)) (previous : List (String × String)),
      ∃ g2 out expanded pushes,
        (buildGraph calls).djikstraCostToAllVertices fuel start weight previous
          = .ok (g2, out.weight, out.previous) ∧
        spTrace (buildGraph calls).adjOf (edgeTotal (buildGraph calls).vertices + 2) []
          (dijkstraInit (buildGraph calls) start weight previous)
          = some (out, expanded, pushes) ∧
        out.pq = [] ∧ expanded.Nodup ∧
        ((1 + pushes : Nat) : Int) ≤ 1 + (buildGraph calls).getNumEdges) := by
  have hg := buildGraph_inv calls
  have hE : (buildGraph calls).getNumEdges = edgeTotal (buildGraph calls).vertices := hg.nEdges
  refine ⟨?_, ?_, ?_⟩
  · obtain ⟨g2, out, log, h, -, hlog, hfst, hnd, -, hlen, hle, -⟩ :=
      traversal_log hg hs true fuel (by omega)
    refine ⟨g2, out, log, by simpa using h, hlog, hfst, hnd, hlen.symm, ?_⟩
    rw [hE]; omega
  · obtain ⟨g2, out, log, h, -, hlog, hfst, hnd, -, hlen, hle, -⟩ :=
      traversal_log hg hs false fuel (by omega)
    refine ⟨g2, out, log, by simpa using h, hlog, hfst, hnd, hlen.symm, ?_⟩
    rw [hE]; omega
  · intro weight previous
    obtain ⟨g2, out, ex, k, htr, h, -, hpq, hnd, -, hk⟩ := dijkstra_runs hg hs weight previous
      fuel (by omega)
    refine ⟨g2, out, ex, k, h, htr, hpq, hnd, ?_⟩
    rw [hE]; omega

theorem c20_termination_and_pushes_witness :
    "A" ∈ mapKeys cyclicGraph.vertices ∧
    ((∃ g2 out log, cyclicGraph.depthFirstTraversal 12 "A" = .ok (g2, out) ∧
      traverseLog cyclicGraph.neighbors true (cyclicGraph.vertices.length + 2) ["A"] ["A"]
        = some log ∧
      log.map Prod.fst = out ∧ out.Nodup ∧ 1 + (pushesOf log).length = out.length ∧
      ((1 + (pushesOf log).length : Nat) : Int) ≤ 1 + cyclicGraph.getNumEdges) ∧
    (∃ g2 out log, cyclicGraph.breadthFirstTraversal 12 "A" = .ok (g2, out) ∧
      traverseLog cyclicGraph.neighbors false (cyclicGraph.vertices.length + 2) ["A"] ["A"]
        = some log ∧
      log.map Prod.fst = out ∧ out.Nodup ∧ 1 + (pushesOf log).length = out.length ∧
      ((1 + (pushesOf log).length : Nat) : Int) ≤ 1 + cyclicGraph.getNumEdges) ∧
    (∀ (weight : List (String × Int)) (previous : List (String × String)),
      ∃ g2 out expanded pushes,
        cyclicGraph.djikstraCostToAllVertices 12 "A" weight previous
          = .ok (g2, out.weight, out.previous) ∧
        spTrace cyclicGraph.adjOf (edgeTotal cyclicGraph.vertices + 2) []
          (dijkstraInit cyclicGraph "A" weight previous) = some (out, expanded, pushes) ∧
        out.pq = [] ∧ expanded.Nodup ∧
        ((1 + pushes : Nat) : Int) ≤ 1 + cyclicGraph.getNumEdges)) :=
  ⟨by decide,
    c20_termination_and_pushes [("A", "B", -3), ("B", "A", 1), ("B", "C", -7)] "A" (by decide)
      12 (by decide)⟩

/-- C18: on a graph built by `add` calls, in a depth-first run from a registered start label
with enough fuel, each visited label pushes its neighbours that are not marked at that
moment (neither the start label nor pushed before); when there is such a neighbour, the
label visited next is the smallest of them, and no label is pushed twice.  In the loop
itself, from any state of the visited flags: the iteration that pops x marks exactly the
unvisited neighbours of x and continues with them on top of the stack, in ascending
order. -/
theorem c18_depthFirst_pushes (calls : List (String × String × Int)) (start : String)
    (hs : start ∈ mapKeys (buildGraph calls).vertices) (fuel : Nat)
    (hfuel : (buildGraph calls).vertices.length + edgeTotal (buildGraph calls).vertices + 2
      < fuel) :
    (∃ g2 out log, (buildGraph calls).depthFirstTraversal fuel start = .ok (g2, out) ∧
      traverseLog (buildGraph calls).neighbors true ((buildGraph calls).vertices.length + 2)
        [start] [start] = some log ∧
      log.map Prod.fst = out ∧
      (∀ (l1 : List (String × List String)) (v : String) (new : List String)
          (l2 : List (String × List String)), log = l1 ++ (v, new) :: l2 →
        new = ((buildGraph calls).neighbors v).filter
          (fun y => decide (y ∉ [start] ∧ y ∉ pushesOf l1)) ∧
        ∀ (y : String) (rest : List String), new = y :: rest →
          (∀ z, z ∈ rest → strLt y z = true) ∧ ∃ p l3, l2 = (y, p) :: l3) ∧
      (start :: pushesOf log).Nodup) ∧
    (∀ (g1 : Graph) (x : String) (W : List String) (f : Nat),
      g1.skel = (buildGraph calls).skel → x ∈ mapKeys (buildGraph calls).vertices →
      edgeTotal (buildGraph calls).vertices < f →
      ∃ g4, g4.skel = (buildGraph calls).skel ∧
        (∀ k, g4.isMarked k = (g1.isMarked k ||
          decide (k ∈ ((buildGraph calls).neighbors x).filter (fun y => !g1.isMarked y)))) ∧
        (((buildGraph calls).neighbors x).filter (fun y => !g1.isMarked y)).Pairwise
          (fun a b => strLt a b = true) ∧
        dfsLoop (f + 1) g1 (x :: W) =
          match dfsLoop f g4
            (((buildGraph calls).neighbors x).filter (fun y => !g1.isMarked y) ++ W) with
          | .ok r => .ok (r.1, x :: r.2)
          | .error e => .error e) := by
  have hg := buildGraph_inv calls
  refine ⟨?_, ?_⟩
  · obtain ⟨g2, out, log, h, -, hlog, hfst, -, hnd, -⟩ := traversal_log hg hs true fuel hfuel
    refine ⟨g2, out, log, by simpa using h, hlog, hfst, ?_, hnd⟩
    intro l1 v new l2 hl
    have hnew := traverseLog_marks _ true _ _ _ _ hlog l1 v new l2 hl
    refine ⟨hnew, ?_⟩
    intro y rest hy
    refine ⟨?_, traverseLog_next _ _ _ _ _ hlog l1 v new l2 hl y rest hy⟩
    have hsorted : new.Pairwise (fun a b => strLt a b = true) := by
      rw [hnew]
      exact (hg.neighbors_sorted v).sublist (List.filter_sublist _)
    rw [hy] at hsorted
    exact (List.pairwise_cons.mp hsorted).1
  · intro g1 x W f hsk hx hf
    have hfun : (fun y => decide (y ∉ (mapKeys g1.vertices).filter g1.isMarked))
        = (fun y => !g1.isMarked y) := by
      funext y
      rw [isMarked_eq_mem g1 y]
      simp
    obtain ⟨g4, hsk4, hmk4, hloop⟩ := dfs_step hg hsk hx
      ((mapKeys g1.vertices).filter g1.isMarked) W (isMarked_eq_mem g1) f hf
    rw [hfun] at hmk4 hloop
    refine ⟨g4, hsk4, ?_, (hg.neighbors_sorted x).sublist (List.filter_sublist _), hloop⟩
    intro k
    rw [hmk4 k, isMarked_eq_mem g1 k]
    simp only [List.mem_append, Bool.decide_or]
    rw [Bool.or_comm]

theorem c18_depthFirst_pushes_witness :
    "A" ∈ mapKeys exampleGraph.vertices ∧
    ((∃ g2 out log, exampleGraph.depthFirstTraversal 12 "A" = .ok (g2, out) ∧
      traverseLog exampleGraph.neighbors true (exampleGraph.vertices.length + 2) ["A"] ["A"]
        = some log ∧
      log.map Prod.fst = out ∧
      (∀ (l1 : List (String × List String)) (v : String) (new : List String)
          (l2 : List (String × List String)), log = l1 ++ (v, new) :: l2 →
        new = (exampleGraph.neighbors v).filter
          (fun y => decide (y ∉ ["A"] ∧ y ∉ pushesOf l1)) ∧
        ∀ (y : String) (rest : List String), new = y :: rest →
          (∀ z, z ∈ rest → strLt y z = true) ∧ ∃ p l3, l2 = (y, p) :: l3) ∧
      ("A" :: pushesOf log).Nodup) ∧
    (∀ (g1 : Graph) (x : String) (W : List String) (f : Nat),
      g1.skel = exampleGraph.skel → x ∈ mapKeys exampleGraph.vertices →
      edgeTotal exampleGraph.vertices < f →
      ∃ g4, g4.skel = exampleGraph.skel ∧
        (∀ k, g4.isMarked k = (g1.isMarked k ||
          decide (k ∈ (exampleGraph.neighbors x).filter (fun y => !g1.isMarked y)))) ∧
        ((exampleGraph.neighbors x).filter (fun y => !g1.isMarked y)).Pairwise
          (fun a b => strLt a b = true) ∧
        dfsLoop (f + 1) g1 (x :: W) =
          match dfsLoop f g4 ((exampleGraph.neighbors x).filter (fun y => !g1.isMarked y) ++ W) with
          | .ok r => .ok (r.1, x :: r.2)
          | .error e => .error e)) :=
  ⟨by decide,
    c18_depthFirst_pushes
      [("A", "B", 1), ("A", "C", 4), ("B", "C", 2), ("B", "D", 5), ("C", "D", 1)] "A"
      (by decide) 12 (by decide)⟩

end GraphDemo
